import Mathlib

/-!
Verification of the node-selection core of the Slurm topology plugin
(`src/plugins/topology/common/eval_nodes.c`).

The development is a shallow embedding: the data the C code manipulates is
translated into Lean structures, bitmaps (`bitstr_t`) become `Finset ℕ`
(the set of set bit positions), machine integers become `ℕ`/`ℤ` (the code
never lets the quantities modelled here overflow, except where noted, and
where wraparound of an unsigned counter is reachable it is modelled
explicitly), and the opaque collaborator callbacks declared out of scope by
the module interface (`select_cores`, the GRES scheduling hooks) are
modelled as environment parameters.
-/

namespace EvalNodes

/-- The placement strategies dispatched by `eval_nodes`. -/
inductive Strategy
  | block
  | spread
  | busy
  | lln
  | serial
  | dfly
  | topo
  | consec
deriving DecidableEq, Repr

/-- The fields of `job_details_t` read by the functions embedded here.
`none` models the `NO_VAL` sentinel of the C code. -/
structure JobDetails where
  min_cpus : ℕ
  max_cpus : Option ℕ
  num_tasks : Option ℕ
  min_gres_cpu : ℕ
  min_job_gres_cpu : ℕ
  req_node_bitmap : Option (Finset ℕ)
deriving DecidableEq

/-- `eval_nodes_get_rem_max_cpus` (eval_nodes.c lines 3509-3524), translated
statement by statement: start from `min_cpus`; overwrite with `max_cpus`
when it is not `NO_VAL`; lift to `min_gres_cpu * rem_nodes` when
`min_gres_cpu` is nonzero; lift to `min_job_gres_cpu` when it is nonzero. -/
def eval_nodes_get_rem_max_cpus (details : JobDetails) (rem_nodes : ℤ) : ℤ :=
  let r0 : ℤ := details.min_cpus
  let r1 : ℤ :=
    match details.max_cpus with
    | some m => (m : ℤ)
    | none => r0
  let r2 : ℤ :=
    if details.min_gres_cpu ≠ 0 then
      max r1 ((details.min_gres_cpu : ℤ) * rem_nodes)
    else r1
  if details.min_job_gres_cpu ≠ 0 then
    max r2 (details.min_job_gres_cpu : ℤ)
  else r2

/-- The value claimed by the spec for `rem_max_cpus`: it "starts at
`max(details.min_cpus, details.max_cpus)`" and is then lifted by the two
GRES bounds.  Written from the spec's words, for comparison with
`eval_nodes_get_rem_max_cpus`; `max_cpus` is read as `min_cpus` when it is
`NO_VAL`, the reading most favourable to the claim. -/
def rem_max_cpus_claimed (details : JobDetails) (rem_nodes : ℤ) : ℤ :=
  let start : ℤ := max (details.min_cpus : ℤ)
    ((details.max_cpus.getD details.min_cpus : ℕ) : ℤ)
  let r2 : ℤ :=
    if details.min_gres_cpu ≠ 0 then
      max start ((details.min_gres_cpu : ℤ) * rem_nodes)
    else start
  if details.min_job_gres_cpu ≠ 0 then
    max r2 (details.min_job_gres_cpu : ℤ)
  else r2

/-- `_eval_nodes_dfly` resets a requested leaf-switch count above 1 to 0 on
entry (eval_nodes.c lines 1454-1459). -/
def dfly_normalize_req_switch (req_switch : ℕ) : ℕ :=
  if req_switch > 1 then 0 else req_switch

/-- `_eval_nodes_topo` performs no such normalization: its entry code
(lines 2691-2697) only starts the `wait4switch` clock and leaves
`req_switch` as submitted. -/
def topo_normalize_req_switch (req_switch : ℕ) : ℕ :=
  req_switch

/-- Initial `rem_nodes` target, one definition per strategy entry:
`_eval_nodes_block` (lines 152-156) always uses `MIN(min_nodes, req_nodes)`
("Always use min_nodes"); every other strategy (busy 716-719, consec
918-922, dfly 1470-1473, lln 2056-2059, serial 2260-2263, spread 2430-2433,
topo 2701-2704) uses `MIN` when `gres_sched_init` reported a job-level GRES
requirement and `MAX` otherwise. -/
def rem_nodes_init : Strategy → Bool → ℕ → ℕ → ℕ
  | .block, _, min_nodes, req_nodes => min min_nodes req_nodes
  | _, gres_per_job, min_nodes, req_nodes =>
      if gres_per_job then min min_nodes req_nodes
      else max min_nodes req_nodes

/-- The inputs consulted by the dispatcher `eval_nodes`
(lines 3281-3359).  Pointer-validity conjuncts of the C conditions are
folded into the booleans (`blocks_overlap` is
"`blocks_nodes_bitmap` is non-null and overlaps `node_map`",
`have_switches` is "`switch_record_cnt` and `switch_record_table` are
non-zero/non-null", `part_lln` is "the job has a partition and it carries
`PART_FLAG_LLN`"). -/
structure DispatchIn where
  blocks_overlap : Bool
  spread_job : Bool
  prefer_alloc_nodes : Bool
  contiguous : Bool
  cr_lln : Bool
  part_lln : Bool
  pack_serial_at_end : Bool
  min_cpus : ℕ
  req_nodes : ℕ
  have_switches : Bool
  topo_optional : Bool
  req_switch : ℕ
  have_dragonfly : Bool
deriving DecidableEq

/-- The strategy-selection cascade of `eval_nodes` (lines 3310-3358),
translated branch by branch. -/
def eval_nodes_dispatch (c : DispatchIn) : Strategy :=
  if c.blocks_overlap then .block
  else if c.spread_job then .spread
  else if c.prefer_alloc_nodes && !c.contiguous then .busy
  else if c.cr_lln || c.part_lln then .lln
  else if c.pack_serial_at_end && (c.min_cpus == 1) && (c.req_nodes == 1) then .serial
  else if c.have_switches && !c.contiguous
          && (!c.topo_optional || (c.req_switch != 0)) then
    (if c.have_dragonfly then .dfly else .topo)
  else .consec

/-- First-match selection over an ordered rule list; default is consec. -/
def firstMatch : List (Bool × Strategy) → Strategy
  | [] => .consec
  | (b, s) :: rest => if b then s else firstMatch rest

/-- The dispatch order exactly as the claim words it: an ordered list of
guard/strategy pairs, first match wins, otherwise consec. -/
def dispatch_claimed (c : DispatchIn) : Strategy :=
  firstMatch
    [ (c.blocks_overlap, .block),
      (c.spread_job, .spread),
      (c.prefer_alloc_nodes && !c.contiguous, .busy),
      (c.cr_lln || c.part_lln, .lln),
      (c.pack_serial_at_end && (c.min_cpus == 1) && (c.req_nodes == 1), .serial),
      (c.have_switches && !c.contiguous && (!c.topo_optional || (c.req_switch != 0)),
        if c.have_dragonfly then .dfly else .topo) ]

/-- The up-front checks of `eval_nodes` (lines 3302-3308): enough candidate
nodes, and the required bitmap a subset of the candidate map. -/
def eval_nodes_precheck (node_map : Finset ℕ) (min_nodes : ℕ)
    (req : Option (Finset ℕ)) : Bool :=
  if node_map.card < min_nodes then false
  else
    match req with
    | some r => decide (r ⊆ node_map)
    | none => true

/-- Ceiling of the base-2 logarithm on positive naturals
(`ceil_log2 0 = 0` by convention; the block code never reaches that case
under the hypotheses used below). -/
def ceil_log2 (x : ℕ) : ℕ :=
  if x ≤ 1 then 0 else Nat.log2 (x - 1) + 1

/-- `bit_ffs_from_bit`: position of the first set bit of `mask` at or after
`start`, `none` when there is none.  `mask` is the set of set bit
positions. -/
def bit_ffs_from_bit (mask : Finset ℕ) (start : ℕ) : Option ℕ :=
  (mask.filter (fun j => start ≤ j)).min

/-- The base-blocks-per-block computation of `_eval_nodes_block`
(lines 158-161 together with 257-266): the naive exponent is
`ceil(log2(ceil(rem_nodes / bblock_node_cnt)))` (computed by the C code
with `log`/`pow` on small integers; modelled exactly), snapped up to the
first allowed exponent of `block_levels`; when none exists the whole block
table is one block.  Returns `(bblock_per_block, block_cnt)`. -/
def bblock_per_block_calc (rem_nodes bblock_node_cnt : ℕ)
    (block_levels : Finset ℕ) (block_record_cnt : ℕ) : ℕ × ℕ :=
  let q := (rem_nodes + bblock_node_cnt - 1) / bblock_node_cnt
  let naive := ceil_log2 q
  match bit_ffs_from_bit block_levels naive with
  | none => (block_record_cnt, 1)
  | some e => (2 ^ e, (block_record_cnt + 2 ^ e - 1) / 2 ^ e)

/-- One switch record as consulted by the fini epilogues: its level
(0 = leaf) and its node bitmap (restricted to the evaluation's subtree, as
`switch_node_bitmap[i]` is at fini time). -/
structure SwitchRec where
  level : ℕ
  nodes : Finset ℕ
deriving DecidableEq

/-- The leaf-switch count of the fini epilogues (topo lines 3201-3208, dfly
lines 1984-1991): the number of level-0 switches whose node bitmap overlaps
the selected map. -/
def count_leaf_switches (tbl : List SwitchRec) (node_map : Finset ℕ) : ℕ :=
  (tbl.filter (fun s => (s.level == 0) && ((s.nodes ∩ node_map).card != 0))).length

/-- Outcome of a fini epilogue: `best_switch` left untouched, a rollback
retry (topo only), or `best_switch` written. -/
inductive FiniOutcome
  | unchanged
  | retry
  | setBest (b : Bool)
deriving DecidableEq

/-- The `best_switch` epilogue of `_eval_nodes_topo` (lines 3197-3254).
`can_retry` stands for the rollback guard
`(req_nodes > min_nodes) && best_nodes_bitmap`; when it fires the code
restores the checkpoint and re-runs, so the outcome is `retry` rather than
a final `best_switch` value. -/
def topo_fini (tbl : List SwitchRec) (node_map : Finset ℕ)
    (req_switch time_waiting wait4switch : ℕ)
    (success can_retry : Bool) : FiniOutcome :=
  if req_switch > 0 ∧ success then
    let leaf := count_leaf_switches tbl node_map
    if wait4switch ≤ time_waiting then .setBest true
    else if req_switch < leaf then
      (if can_retry then .retry else .setBest false)
    else .setBest true
  else .unchanged

/-- The `best_switch` epilogue of `_eval_nodes_dfly` (lines 1978-2008):
same decision without the retry; guarded additionally on the switch tables
having been allocated (a success taken before their allocation skips the
whole epilogue). -/
def dfly_fini (tbl : List SwitchRec) (node_map : Finset ℕ)
    (req_switch time_waiting wait4switch : ℕ)
    (success tables_allocated : Bool) : FiniOutcome :=
  if req_switch > 0 ∧ success ∧ tables_allocated then
    let leaf := count_leaf_switches tbl node_map
    if wait4switch ≤ time_waiting then .setBest true
    else if req_switch < leaf then .setBest false
    else .setBest true
  else .unchanged

/-- Smallest-exponent characterization of `ceil_log2`: for positive `x`,
`ceil_log2 x` is the least `e` with `x ≤ 2 ^ e`. -/
theorem ceil_log2_spec (x : ℕ) (hx : 1 ≤ x) :
    x ≤ 2 ^ ceil_log2 x ∧ ∀ e, x ≤ 2 ^ e → ceil_log2 x ≤ e := by
  unfold ceil_log2
  by_cases h1 : x ≤ 1
  · have : x = 1 := le_antisymm h1 hx
    subst this
    simp
  · push_neg at h1
    have hx1 : x - 1 ≠ 0 := by omega
    rw [if_neg (by omega), Nat.log2_eq_log_two]
    constructor
    · have := Nat.lt_pow_succ_log_self (by norm_num : 1 < 2) (x - 1)
      omega
    · intro e he
      by_contra hcon
      push_neg at hcon
      have hle : e ≤ Nat.log 2 (x - 1) := by omega
      have h2 : (2 : ℕ) ^ e ≤ 2 ^ Nat.log 2 (x - 1) :=
        Nat.pow_le_pow_right (by norm_num) hle
      have h3 : (2 : ℕ) ^ Nat.log 2 (x - 1) ≤ x - 1 :=
        Nat.pow_log_le_self 2 hx1
      omega

/-- **C3.** `eval_nodes` picks the strategy by first match in the claimed
order: block on block-topology overlap, spread on `SPREAD_JOB`, busy on
`prefer_alloc_nodes` without contiguity, lln on `CR_LLN` or the partition
flag, serial under `pack_serial_at_end` with `min_cpus = 1` and
`req_nodes = 1`, then dfly/topo when a switch table is present, the job is
not contiguous, and topology is mandatory or switches were requested, and
consec otherwise. -/
theorem claim_C3 (c : DispatchIn) : eval_nodes_dispatch c = dispatch_claimed c := rfl

/-- **C9.** dfly resets a requested leaf-switch count above 1 to 0 before
planning while topo leaves it unchanged (the logging of the dfly warning is
a side effect outside the embedding). -/
theorem claim_C9 (r : ℕ) (h : 1 < r) :
    dfly_normalize_req_switch r = 0 ∧ topo_normalize_req_switch r = r ∧
    dfly_normalize_req_switch r ≠ topo_normalize_req_switch r := by
  refine ⟨?_, rfl, ?_⟩ <;> simp [dfly_normalize_req_switch, topo_normalize_req_switch] <;> omega

/-- Witness for `claim_C9` at the concrete count 2. -/
theorem claim_C9_witness :
    dfly_normalize_req_switch 2 = 0 ∧ topo_normalize_req_switch 2 = 2 ∧
    dfly_normalize_req_switch 2 ≠ topo_normalize_req_switch 2 :=
  claim_C9 2 (by decide)

/-- **C10.** The block strategy always initializes the remaining-node
target to `MIN(min_nodes, req_nodes)`; every other strategy uses the
minimum exactly when the job carries a job-level GRES requirement and the
maximum otherwise, so under GRES a `req_nodes` above `min_nodes` is not
pursued (the target never exceeds `min_nodes`). -/
theorem claim_C10 (g : Bool) (m r : ℕ) :
    rem_nodes_init .block g m r = min m r ∧
    (∀ s : Strategy, s ≠ .block →
      rem_nodes_init s g m r = if g then min m r else max m r) ∧
    (∀ s : Strategy, g = true → rem_nodes_init s g m r ≤ m) := by
  refine ⟨rfl, ?_, ?_⟩
  · intro s hs
    cases s <;> first | exact absurd rfl hs | rfl
  · intro s hg
    subst hg
    cases s <;> simp [rem_nodes_init]

/-- Witness for `claim_C10`: with GRES, lln targets `min 2 5 = 2` nodes,
and block targets the same minimum without GRES. -/
theorem claim_C10_witness :
    rem_nodes_init .lln true 2 5 = 2 ∧ rem_nodes_init .block false 2 5 = 2 ∧
    rem_nodes_init .lln true 2 5 ≤ 2 := by
  have h1 := (claim_C10 true 2 5).2.1 .lln (by decide)
  have h2 := (claim_C10 false 2 5).1
  have h3 := (claim_C10 true 2 5).2.2 .lln rfl
  exact ⟨by rw [h1]; rfl, by rw [h2]; rfl, h3⟩

/-- **C7, counterexample.** With `min_cpus = 5` and `max_cpus = 3` (set,
not `NO_VAL`), the code returns 3 — `max_cpus` replaces the start value —
while the claim's `max(min_cpus, max_cpus)` start would give 5. -/
theorem counterexample_C7 :
    eval_nodes_get_rem_max_cpus ⟨5, some 3, none, 0, 0, none⟩ 1 = 3 ∧
    rem_max_cpus_claimed ⟨5, some 3, none, 0, 0, none⟩ 1 = 5 ∧
    (3 : ℤ) ≠ 5 := by
  refine ⟨rfl, rfl, by decide⟩

/-- **C7, amended.** `eval_nodes_get_rem_max_cpus` returns
`max (max start (min_gres_cpu * rem_nodes)) min_job_gres_cpu` where the
start value is `max_cpus` when it is set and `min_cpus` otherwise: the two
GRES lifts are maxima as claimed, but a set `max_cpus` replaces `min_cpus`
rather than being maxed with it. -/
theorem claim_C7_amended (d : JobDetails) (rem : ℤ) :
    eval_nodes_get_rem_max_cpus d rem =
      max (max ((d.max_cpus.getD d.min_cpus : ℕ) : ℤ)
               ((d.min_gres_cpu : ℤ) * rem))
          ((d.min_job_gres_cpu : ℤ)) := by
  rcases d with ⟨mc, xc, nt, mg, mjg, rq⟩
  unfold eval_nodes_get_rem_max_cpus
  have hbase : (match xc with
      | some m => ((m : ℤ))
      | none => ((mc : ℤ))) = ((xc.getD mc : ℕ) : ℤ) := by
    cases xc <;> rfl
  simp only [hbase]
  have h0 : (0 : ℤ) ≤ ((xc.getD mc : ℕ) : ℤ) := Int.natCast_nonneg _
  have h1 : (0 : ℤ) ≤ max ((xc.getD mc : ℕ) : ℤ) ((mg : ℤ) * rem) :=
    le_trans h0 (le_max_left _ _)
  by_cases hmg : mg = 0 <;> by_cases hmjg : mjg = 0
  · simp [hmg, hmjg, max_eq_left h0]
  · simp [hmg, hmjg, max_eq_left h0]
  · simp [hmg, hmjg, max_eq_left h1]
  · simp [hmg, hmjg]

/-- `bit_ffs_from_bit` finds the least set bit at or above `start` and
reports `none` exactly when no set bit is at or above `start`. -/
theorem bit_ffs_from_bit_spec (levels : Finset ℕ) (naive : ℕ) :
    ((∃ f ∈ levels, naive ≤ f) →
      ∃ e, bit_ffs_from_bit levels naive = some e ∧ e ∈ levels ∧ naive ≤ e ∧
        ∀ f ∈ levels, naive ≤ f → e ≤ f) ∧
    ((¬ ∃ f ∈ levels, naive ≤ f) → bit_ffs_from_bit levels naive = none) := by
  constructor
  · rintro ⟨f, hf, hnf⟩
    have hne : (levels.filter (fun j => naive ≤ j)).Nonempty :=
      ⟨f, Finset.mem_filter.mpr ⟨hf, hnf⟩⟩
    refine ⟨(levels.filter (fun j => naive ≤ j)).min' hne, ?_, ?_, ?_, ?_⟩
    · unfold bit_ffs_from_bit
      exact (Finset.coe_min' hne).symm
    · exact (Finset.mem_filter.mp (Finset.min'_mem _ hne)).1
    · exact (Finset.mem_filter.mp (Finset.min'_mem _ hne)).2
    · intro g hg hng
      exact Finset.min'_le _ g (Finset.mem_filter.mpr ⟨hg, hng⟩)
  · intro hno
    have hempty : levels.filter (fun j => naive ≤ j) = ∅ := by
      rw [Finset.filter_eq_empty_iff]
      intro f hf hnf
      exact hno ⟨f, hf, hnf⟩
    unfold bit_ffs_from_bit
    rw [hempty]
    rfl

/-- **C8.** `bblock_per_block` is `2 ^ e` where `e` is the smallest
exponent allowed by `block_levels` at or above the naive exponent
`⌈log2⌈rem_nodes / bblock_node_cnt⌉⌉` (`ceil_log2` being the least-power
bound by `ceil_log2_spec`); when no allowed exponent exists the whole block
table is one block; and the concrete 5-node request with
`bblock_node_cnt = 4` and `block_levels = 0b1010` yields
`bblock_per_block = 2`. -/
theorem claim_C8 (rem_nodes bblock_node_cnt : ℕ) (block_levels : Finset ℕ)
    (block_record_cnt : ℕ)
    (hq : 1 ≤ (rem_nodes + bblock_node_cnt - 1) / bblock_node_cnt) :
    ((∃ f ∈ block_levels,
        ceil_log2 ((rem_nodes + bblock_node_cnt - 1) / bblock_node_cnt) ≤ f) →
      ∃ e ∈ block_levels,
        ceil_log2 ((rem_nodes + bblock_node_cnt - 1) / bblock_node_cnt) ≤ e ∧
        (∀ f ∈ block_levels,
          ceil_log2 ((rem_nodes + bblock_node_cnt - 1) / bblock_node_cnt) ≤ f →
          e ≤ f) ∧
        (bblock_per_block_calc rem_nodes bblock_node_cnt block_levels
          block_record_cnt).1 = 2 ^ e) ∧
    ((¬ ∃ f ∈ block_levels,
        ceil_log2 ((rem_nodes + bblock_node_cnt - 1) / bblock_node_cnt) ≤ f) →
      bblock_per_block_calc rem_nodes bblock_node_cnt block_levels
        block_record_cnt = (block_record_cnt, 1)) ∧
    (bblock_per_block_calc 5 4 {1, 3} 8).1 = 2 := by
  have hconc : (bblock_per_block_calc 5 4 {1, 3} 8).1 = 2 := by
    have hlog : ceil_log2 ((5 + 4 - 1) / 4) = 1 := by
      norm_num [ceil_log2, Nat.log2_eq_log_two]
    have hff : bit_ffs_from_bit {1, 3} 1 = some 1 := by decide
    simp only [bblock_per_block_calc, hlog, hff]
    norm_num
  refine ⟨?_, ?_, hconc⟩
  · intro hex
    obtain ⟨e, heq, hmem, hge, hleast⟩ :=
      (bit_ffs_from_bit_spec block_levels _).1 hex
    refine ⟨e, hmem, hge, hleast, ?_⟩
    simp only [bblock_per_block_calc, heq]
  · intro hno
    have heq := (bit_ffs_from_bit_spec block_levels _).2 hno
    simp only [bblock_per_block_calc, heq]

/-- Witness for `claim_C8` at the spec's concrete scenario: 5 nodes
requested, 4 nodes per base block, allowed exponents `{1, 3}`. -/
theorem claim_C8_witness :
    (bblock_per_block_calc 5 4 {1, 3} 8).1 = 2 :=
  (claim_C8 5 4 {1, 3} 8 (by norm_num)).2.2

/-- **C4, counterexample.** A successful topo run with `req_switch = 1`,
two leaf switches spanning the selection, and an elapsed wait
(`time_waited = 10 ≥ wait4switch = 5`) sets `best_switch` to TRUE: the
claim's only alternative to a leaf count of at most 1 — `best_switch`
false — does not hold. -/
theorem counterexample_C4 :
    topo_fini [⟨0, {0}⟩, ⟨0, {1}⟩, ⟨1, {0, 1}⟩] {0, 1} 1 10 5 true false =
      .setBest true ∧
    count_leaf_switches [⟨0, {0}⟩, ⟨0, {1}⟩, ⟨1, {0, 1}⟩] {0, 1} = 2 ∧
    ¬(count_leaf_switches [⟨0, {0}⟩, ⟨0, {1}⟩, ⟨1, {0, 1}⟩] {0, 1} ≤ 1) ∧
    (5 : ℕ) ≤ 10 ∧ FiniOutcome.setBest true ≠ FiniOutcome.setBest false := by
  refine ⟨by decide, by decide, by decide, by decide, by decide⟩

/-- **C4, amended.** On topo or dfly success with `req_switch = 1`, when
the epilogue writes `best_switch`, either the leaf-switch count spanning
the selection is at most 1, or the wait has elapsed
(`time_waited ≥ wait4switch`) and `best_switch` is set TRUE, or
`best_switch` is set false to defer. -/
theorem claim_C4_amended (tbl : List SwitchRec) (nm : Finset ℕ)
    (tw ws : ℕ) (cr : Bool) (b : Bool) :
    (topo_fini tbl nm 1 tw ws true cr = .setBest b →
      count_leaf_switches tbl nm ≤ 1 ∨ (ws ≤ tw ∧ b = true) ∨ b = false) ∧
    (dfly_fini tbl nm 1 tw ws true true = .setBest b →
      count_leaf_switches tbl nm ≤ 1 ∨ (ws ≤ tw ∧ b = true) ∨ b = false) := by
  constructor
  · intro h
    unfold topo_fini at h
    rw [if_pos ⟨by norm_num, rfl⟩] at h
    by_cases h1 : ws ≤ tw
    · rw [if_pos h1] at h
      cases h
      exact Or.inr (Or.inl ⟨h1, rfl⟩)
    · rw [if_neg h1] at h
      by_cases h2 : 1 < count_leaf_switches tbl nm
      · rw [if_pos h2] at h
        cases cr with
        | false =>
          simp only [Bool.false_eq_true, if_neg] at h
          cases h
          exact Or.inr (Or.inr rfl)
        | true => simp at h
      · rw [if_neg h2] at h
        exact Or.inl (by omega)
  · intro h
    unfold dfly_fini at h
    rw [if_pos ⟨by norm_num, rfl, rfl⟩] at h
    by_cases h1 : ws ≤ tw
    · rw [if_pos h1] at h
      cases h
      exact Or.inr (Or.inl ⟨h1, rfl⟩)
    · rw [if_neg h1] at h
      by_cases h2 : 1 < count_leaf_switches tbl nm
      · rw [if_pos h2] at h
        cases h
        exact Or.inr (Or.inr rfl)
      · rw [if_neg h2] at h
        exact Or.inl (by omega)

/-- Witness for `claim_C4_amended`: a single-leaf success sets
`best_switch` true with leaf count 1. -/
theorem claim_C4_amended_witness :
    count_leaf_switches [⟨0, {0, 1}⟩] {0, 1} ≤ 1 ∨ ((5 : ℕ) ≤ 2 ∧ true = true) ∨
      true = false :=
  (claim_C4_amended [⟨0, {0, 1}⟩] {0, 1} 2 5 false true).1 (by decide)

/-! ## The busy / lln / serial / spread strategies

The four "simple" strategies (`_eval_nodes_busy`, `_eval_nodes_lln`,
`_eval_nodes_serial`, `_eval_nodes_spread`) share one skeleton: entry
bookkeeping, a verbatim-identical required-node admission loop, a
weight-tier accumulation loop (the only strategy-specific part), and one
failure epilogue.  They are embedded below against an environment of
read-only node data and the collaborator callbacks that the module
interface declares opaque (`select_cores`, the GRES scheduling hooks).
The probe callback is modelled as depending on the node index only: this
is exact for jobs without GRES whose `cpus_to_use` clamp does not fire
(e.g. `whole_node = 1`), which is the regime all concrete runs below live
in; likewise `gres_sched_add`/`gres_sched_test` are modelled by a
stateless adjustment function and a fixed verdict. -/

/-- Read-only evaluation environment: per-node records, availability
records, and the opaque collaborators. `avail i = 0` also models a missing
(`NULL`) `avail_res_array` entry. -/
structure SEnv where
  n : ℕ
  weight : ℕ → ℕ
  cpus : ℕ → ℕ
  max_cpus : ℕ → ℕ
  avail : ℕ → ℕ
  probe : ℕ → ℕ
  idle : ℕ → Bool
  gres_per_job : Bool
  gres_add : ℕ → ℕ
  gres_test : Bool

/-- Mutable bookkeeping of one strategy run.  `admitted` is an
instrumentation field recording the order of `bit_set` admissions in the
accumulation loop; it influences nothing. -/
structure SimpleSt where
  node_map : Finset ℕ
  rem_cpus : ℤ
  rem_nodes : ℤ
  min_rem_nodes : ℤ
  max_nodes : ℕ
  rem_max_cpus : ℤ
  total_cpus : ℤ
  admitted : List ℕ
deriving DecidableEq

/-- `max_nodes--` on the `uint32_t` field: wraps at zero (reachable in the
busy strategy's second idle pass, nowhere else). -/
def dec_u32 (x : ℕ) : ℕ :=
  if x = 0 then 4294967295 else x - 1

/-- The index range `bit_ffs(node_map) .. bit_fls(node_map)` that the four
strategies iterate; the empty bitmap yields `i_end = i_start - 1`, an empty
range. -/
def idx_range (bm : Finset ℕ) : List ℕ :=
  if h : bm.Nonempty then List.range' (bm.min' h) (bm.max' h + 1 - bm.min' h)
  else []

/-- `_build_node_weight_list` (lines 83-107): one bitmap per distinct
scheduling weight among the nodes of `bm`, listed in order of increasing
weight. -/
def build_node_weight_list (env : SEnv) (bm : Finset ℕ) : List (Finset ℕ) :=
  let members := (idx_range bm).filter (fun i => i ∈ bm)
  let weights := ((members.map env.weight).dedup).insertionSort (· ≤ ·)
  weights.map (fun w => bm.filter (fun i => env.weight i = w))

/-- Entry bookkeeping shared verbatim by the four strategies (lln lines
2048-2060 and the copies in busy/serial/spread): `rem_cpus` from
`min_cpus`, `max_nodes` clamped by a set nonzero `num_tasks`,
`rem_nodes` from MIN/MAX according to the GRES flag, and `rem_max_cpus`
from `eval_nodes_get_rem_max_cpus`. -/
def simple_entry (env : SEnv) (details : JobDetails)
    (min_nodes req_nodes max_nodes : ℕ) (node_map : Finset ℕ) : SimpleSt :=
  let max_nodes1 :=
    match details.num_tasks with
    | some k => if k ≠ 0 then min max_nodes k else max_nodes
    | none => max_nodes
  let rem_nodes : ℕ :=
    if env.gres_per_job then min min_nodes req_nodes
    else max min_nodes req_nodes
  { node_map := node_map
    rem_cpus := details.min_cpus
    rem_nodes := rem_nodes
    min_rem_nodes := min_nodes
    max_nodes := max_nodes1
    rem_max_cpus := eval_nodes_get_rem_max_cpus details rem_nodes
    total_cpus := 0
    admitted := [] }

/-- The probe as the required-node loops and the spread and busy loops
consume it: `select_cores`, `cpus_to_use`, then `gres_sched_add`, all
before the zero test. -/
def adj_probe (env : SEnv) (i : ℕ) : ℕ :=
  if env.gres_per_job then env.gres_add (env.probe i) else env.probe i

/-- Failure sites of the required-node admission loop. -/
inductive ReqFailKind
  | lacks_resources
  | max_node_limit
  | zero_after_probe
deriving DecidableEq

/-- The required-node admission loop (lln lines 2068-2106 and the verbatim
copies in busy/serial/spread): walk the index range; clear non-required
bits; fail when a required node has no availability record or zero
`avail_cpus`, when `max_nodes` is exhausted, or when the probe (with
`gres_sched_add`) yields zero; otherwise charge the remainders and leave
the bit set. -/
def required_admit_loop (env : SEnv) (req : Finset ℕ) :
    List ℕ → SimpleSt → Except (ReqFailKind × SimpleSt) SimpleSt
  | [], st => .ok st
  | i :: rest, st =>
    if i ∉ req then
      required_admit_loop env req rest
        { st with node_map := st.node_map.erase i }
    else if env.avail i = 0 then
      .error (.lacks_resources, st)
    else if st.max_nodes = 0 then
      .error (.max_node_limit, st)
    else if adj_probe env i = 0 then .error (.zero_after_probe, st)
    else
      required_admit_loop env req rest
        { st with
          total_cpus := st.total_cpus + adj_probe env i
          rem_cpus := st.rem_cpus - adj_probe env i
          rem_max_cpus := st.rem_max_cpus - adj_probe env i
          rem_nodes := st.rem_nodes - 1
          min_rem_nodes := st.min_rem_nodes - 1
          max_nodes := dec_u32 st.max_nodes }

/-- The job `max_cpus` ceiling check on the CPUs charged by the required
nodes (lln lines 2123-2128). -/
def over_max_cpus (details : JobDetails) (total : ℤ) : Bool :=
  match details.max_cpus with
  | some m => decide ((m : ℤ) < total)
  | none => false

/-- Result of the shared required-node phase. -/
inductive PhaseResult
  | early_success (node_map : Finset ℕ)
  | fail (kind : ReqFailKind) (node_map : Finset ℕ)
  | fail_max_nodes (node_map : Finset ℕ)
  | fail_max_cpus (node_map : Finset ℕ)
  | proceed (st : SimpleSt) (orig : Finset ℕ)
deriving DecidableEq

/-- The required-node phase shared by the four strategies (lln lines
2062-2128): run the admission loop over the candidate index range, succeed
outright when the required nodes alone satisfy the request (the map then
reduced to the required set), fail when `max_nodes` ran out or the job
`max_cpus` ceiling is exceeded, and otherwise hand the accumulation loop
the remaining candidates `orig_node_map AND-NOT node_map`; without a
required bitmap the candidate map is cleared and all candidates remain. -/
def required_phase (env : SEnv) (details : JobDetails) (st0 : SimpleSt) :
    PhaseResult :=
  match details.req_node_bitmap with
  | some req =>
    match required_admit_loop env req (idx_range st0.node_map) st0 with
    | .error (k, st) => .fail k st.node_map
    | .ok st =>
      if st.rem_nodes ≤ 0 ∧ st.rem_cpus ≤ 0 ∧ env.gres_test then
        .early_success (st.node_map ∩ req)
      else if st.max_nodes = 0 then
        .fail_max_nodes st.node_map
      else if over_max_cpus details st.total_cpus then
        .fail_max_cpus st.node_map
      else
        .proceed st (st0.node_map \ st.node_map)
  | none =>
    if over_max_cpus details st0.total_cpus then .fail_max_cpus ∅
    else .proceed { st0 with node_map := ∅ } st0.node_map

/-- Admission bookkeeping shared by the accumulation loops: charge the
remainders, decrement `max_nodes`, set the bit, record the order. -/
def admit_node (st : SimpleSt) (i : ℕ) (a : ℕ) : SimpleSt :=
  { st with
    total_cpus := st.total_cpus + a
    rem_cpus := st.rem_cpus - a
    rem_max_cpus := st.rem_max_cpus - a
    rem_nodes := st.rem_nodes - 1
    min_rem_nodes := st.min_rem_nodes - 1
    max_nodes := dec_u32 st.max_nodes
    node_map := insert i st.node_map
    admitted := st.admitted ++ [i] }

/-- The sufficiency test checked after every admission:
`rem_nodes ≤ 0 ∧ rem_cpus ≤ 0 ∧ gres_sched_test`. -/
def sufficient (env : SEnv) (st : SimpleSt) : Prop :=
  st.rem_nodes ≤ 0 ∧ st.rem_cpus ≤ 0 ∧ env.gres_test = true

instance (env : SEnv) (st : SimpleSt) : Decidable (sufficient env st) := by
  unfold sufficient
  infer_instance

/-- The shared failure epilogue (lln lines 2213-2221 and the copies in
busy/serial/spread): a success already latched stands; otherwise residual
demand clears the whole map and fails, and no residual demand is a
success. -/
def simple_epilogue (env : SEnv) (suc : Bool) (st : SimpleSt) :
    Bool × Finset ℕ × List ℕ :=
  if suc then (true, st.node_map, st.admitted)
  else if 0 < st.rem_cpus ∨ 0 < st.min_rem_nodes ∨ env.gres_test = false then
    (false, ∅, st.admitted)
  else (true, st.node_map, st.admitted)

/-- One scan of the lln inner loop (lines 2144-2176): find the
"least-loaded" usable node of the tier — the not-yet-selected candidate
with nonzero probe maximizing `max_cpus i / cpus i`, compared by integer
cross-multiplication — stopping the scan early as soon as a new best's
`max_cpus` equals `last` (`last_max_cpu_cnt`, the previously admitted
node's `max_cpus`, `-1` at the start of a tier). -/
def lln_scan (env : SEnv) (tier node_map : Finset ℕ) (last : ℤ) :
    List ℕ → Option (ℕ × ℕ) → Option (ℕ × ℕ)
  | [], best => best
  | i :: rest, best =>
    if i ∉ tier ∨ i ∈ node_map then lln_scan env tier node_map last rest best
    else
      let a := env.probe i
      if a = 0 then lln_scan env tier node_map last rest best
      else
        match best with
        | none =>
          if (env.max_cpus i : ℤ) = last then some (i, a)
          else lln_scan env tier node_map last rest (some (i, a))
        | some (b, _) =>
          if env.max_cpus b * env.cpus i < env.max_cpus i * env.cpus b then
            (if (env.max_cpus i : ℤ) = last then some (i, a)
             else lln_scan env tier node_map last rest (some (i, a)))
          else lln_scan env tier node_map last rest best

/-- The lln per-tier admission loop (the inner `while` of lines
2139-2209): scan for the least-loaded usable node, apply
`gres_sched_add`, admit, and stop on sufficiency (latching success) or on
`max_nodes` exhaustion.  The result flags are `(success, all_done)`.  The
fuel only bounds the recursion; each admission takes a fresh tier node, so
`tier.card + 1` units are never exhausted before the scan comes up
empty. -/
def lln_tier_loop (env : SEnv) (idx : List ℕ) (tier : Finset ℕ) :
    ℕ → SimpleSt → ℤ → SimpleSt × Bool × Bool
  | 0, st, _ => (st, false, false)
  | fuel + 1, st, last =>
    match lln_scan env tier st.node_map last idx none with
    | none => (st, false, false)
    | some (i, a) =>
      if a = 0 then (st, false, false)
      else
        let a2 := if env.gres_per_job then env.gres_add a else a
        let st' := admit_node st i a2
        if sufficient env st' then (st', true, true)
        else if st'.max_nodes = 0 then (st', false, true)
        else lln_tier_loop env idx tier fuel st' ((env.max_cpus i : ℤ))

/-- The serial per-tier loop (lines 2338-2378): walk the index range from
high to low while `max_nodes` lasts, admit every usable tier node
(`gres_sched_add` here runs after the accounting and has no further
effect, exactly as in the C), stop on sufficiency or `max_nodes`
exhaustion. -/
def serial_tier (env : SEnv) (tier : Finset ℕ) :
    List ℕ → SimpleSt → SimpleSt × Bool × Bool
  | [], st => (st, false, false)
  | i :: rest, st =>
    if st.max_nodes = 0 then (st, false, false)
    else if env.avail i = 0 then serial_tier env tier rest st
    else if i ∉ tier ∨ i ∈ st.node_map then serial_tier env tier rest st
    else
      let a := env.probe i
      if a = 0 then serial_tier env tier rest st
      else
        let st' := admit_node st i a
        if sufficient env st' then (st', true, true)
        else if st'.max_nodes = 0 then (st', false, true)
        else serial_tier env tier rest st'

/-- The spread per-tier loop (lines 2508-2547): walk the index range from
low to high, admit every tier node whose probe — adjusted by
`gres_sched_add` before the zero test — is nonzero, stop on sufficiency or
`max_nodes` exhaustion. -/
def spread_tier (env : SEnv) (tier : Finset ℕ) :
    List ℕ → SimpleSt → SimpleSt × Bool × Bool
  | [], st => (st, false, false)
  | i :: rest, st =>
    if env.avail i = 0 then spread_tier env tier rest st
    else if i ∉ tier ∨ i ∈ st.node_map then spread_tier env tier rest st
    else
      let a2 := adj_probe env i
      if a2 = 0 then spread_tier env tier rest st
      else
        let st' := admit_node st i a2
        if sufficient env st' then (st', true, true)
        else if st'.max_nodes = 0 then (st', false, true)
        else spread_tier env tier rest st'

/-- One busy sub-pass (lines 801-846): like spread but restricted to busy
nodes (`idle_pass = false` skips nodes set in `idle_node_bitmap`) or to
idle nodes (`idle_pass = true` skips the others).  `suc` carries
`error_code == SLURM_SUCCESS` latched so far. -/
def busy_pass (env : SEnv) (idle_pass : Bool) (tier : Finset ℕ) :
    List ℕ → SimpleSt → Bool → SimpleSt × Bool × Bool
  | [], st, suc => (st, suc, false)
  | i :: rest, st, suc =>
    if env.avail i = 0 then busy_pass env idle_pass tier rest st suc
    else if i ∉ tier ∨ i ∈ st.node_map then
      busy_pass env idle_pass tier rest st suc
    else if (idle_pass = false ∧ env.idle i = true) ∨
            (idle_pass = true ∧ env.idle i = false) then
      busy_pass env idle_pass tier rest st suc
    else
      let a2 := adj_probe env i
      if a2 = 0 then busy_pass env idle_pass tier rest st suc
      else
        let st' := admit_node st i a2
        if sufficient env st' then (st', true, true)
        else if st'.max_nodes = 0 then (st', suc, true)
        else busy_pass env idle_pass tier rest st' suc

/-- The busy per-tier loop (lines 800-847): the busy sub-pass, then —
exactly as in the C, where the `idle_test` loop does not test `all_done` —
the idle sub-pass runs even when the first pass already set `all_done`. -/
def busy_tier (env : SEnv) (idx : List ℕ) (tier : Finset ℕ)
    (st : SimpleSt) (suc : Bool) : SimpleSt × Bool × Bool :=
  match busy_pass env false tier idx st suc with
  | (st1, suc1, done1) =>
    match busy_pass env true tier idx st1 suc1 with
    | (st2, suc2, done2) => (st2, suc2, done1 || done2)

/-- The outer weight-tier loop shared by the accumulation phases:
`while (!all_done && (nwt = list_next(iter)))`. -/
def tier_fold (step : Finset ℕ → SimpleSt → Bool → SimpleSt × Bool × Bool) :
    List (Finset ℕ) → SimpleSt → Bool → SimpleSt × Bool
  | [], st, suc => (st, suc)
  | t :: rest, st, suc =>
    match step t st suc with
    | (st', suc', done) =>
      if done then (st', suc') else tier_fold step rest st' suc'

/-- The strategy-specific accumulation step functions. -/
def lln_step (env : SEnv) (idx : List ℕ) (t : Finset ℕ) (st : SimpleSt)
    (_ : Bool) : SimpleSt × Bool × Bool :=
  lln_tier_loop env idx t (t.card + 1) st (-1)

def serial_step (env : SEnv) (idx : List ℕ) (t : Finset ℕ) (st : SimpleSt)
    (_ : Bool) : SimpleSt × Bool × Bool :=
  serial_tier env t idx.reverse st

def spread_step (env : SEnv) (idx : List ℕ) (t : Finset ℕ) (st : SimpleSt)
    (_ : Bool) : SimpleSt × Bool × Bool :=
  spread_tier env t idx st

def busy_step (env : SEnv) (idx : List ℕ) (t : Finset ℕ) (st : SimpleSt)
    (suc : Bool) : SimpleSt × Bool × Bool :=
  busy_tier env idx t st suc

/-- The accumulation phase: skipped when `max_nodes` is already 0
(line 2135), otherwise the weight-tier loop. -/
def accum_phase (step : List ℕ → Finset ℕ → SimpleSt → Bool → SimpleSt × Bool × Bool)
    (env : SEnv) (idx : List ℕ) (orig : Finset ℕ) (st : SimpleSt) :
    SimpleSt × Bool :=
  if st.max_nodes = 0 then (st, false)
  else tier_fold (step idx) (build_node_weight_list env orig) st false

/-- Apply the shared failure epilogue to an accumulation result. -/
def finish (env : SEnv) (p : SimpleSt × Bool) : Bool × Finset ℕ × List ℕ :=
  simple_epilogue env p.2 p.1

/-- Generic runner for the four simple strategies: entry, required phase,
accumulation, failure epilogue. -/
def run_with_step (step : List ℕ → Finset ℕ → SimpleSt → Bool → SimpleSt × Bool × Bool)
    (env : SEnv) (details : JobDetails)
    (min_nodes req_nodes max_nodes : ℕ) (node_map : Finset ℕ) :
    Bool × Finset ℕ × List ℕ :=
  match required_phase env details
      (simple_entry env details min_nodes req_nodes max_nodes node_map) with
  | .early_success nm => (true, nm, [])
  | .fail _ nm => (false, nm, [])
  | .fail_max_nodes nm => (false, nm, [])
  | .fail_max_cpus nm => (false, nm, [])
  | .proceed st orig =>
    finish env (accum_phase step env (idx_range node_map) orig st)

/-- `_eval_nodes_lln` (lines 2028-2226). -/
def eval_nodes_lln (env : SEnv) (details : JobDetails)
    (min_nodes req_nodes max_nodes : ℕ) (node_map : Finset ℕ) :
    Bool × Finset ℕ × List ℕ :=
  run_with_step (lln_step env) env details min_nodes req_nodes max_nodes node_map

/-- `_eval_nodes_serial` (lines 2232-2396). -/
def eval_nodes_serial (env : SEnv) (details : JobDetails)
    (min_nodes req_nodes max_nodes : ℕ) (node_map : Finset ℕ) :
    Bool × Finset ℕ × List ℕ :=
  run_with_step (serial_step env) env details min_nodes req_nodes max_nodes node_map

/-- `_eval_nodes_spread` (lines 2402-2563). -/
def eval_nodes_spread (env : SEnv) (details : JobDetails)
    (min_nodes req_nodes max_nodes : ℕ) (node_map : Finset ℕ) :
    Bool × Finset ℕ × List ℕ :=
  run_with_step (spread_step env) env details min_nodes req_nodes max_nodes node_map

/-- `_eval_nodes_busy` (lines 687-864). -/
def eval_nodes_busy (env : SEnv) (details : JobDetails)
    (min_nodes req_nodes max_nodes : ℕ) (node_map : Finset ℕ) :
    Bool × Finset ℕ × List ℕ :=
  run_with_step (busy_step env) env details min_nodes req_nodes max_nodes node_map

/-- Tag for quantifying over the four simple strategies. -/
inductive SimpleKind
  | busy
  | lln
  | serial
  | spread
deriving DecidableEq

/-- Strategy-indexed runner. -/
def run_simple : SimpleKind → SEnv → JobDetails → ℕ → ℕ → ℕ → Finset ℕ →
    Bool × Finset ℕ × List ℕ
  | .busy => eval_nodes_busy
  | .lln => eval_nodes_lln
  | .serial => eval_nodes_serial
  | .spread => eval_nodes_spread

/-! ### Concrete evaluation environments used by counterexamples and
witnesses.  All are GRES-free (`gres_sched_add` is the identity and
`gres_sched_test` holds vacuously, as for a job with an empty
`gres_list_req`), so the stateless collaborator model is exact. -/

/-- Two candidates; node 0 is required but its availability record shows
zero CPUs. -/
def envC2 : SEnv :=
  { n := 2, weight := fun _ => 1, cpus := fun _ => 4, max_cpus := fun _ => 4,
    avail := fun i => if i = 0 then 0 else 4, probe := fun _ => 4,
    idle := fun _ => false, gres_per_job := false, gres_add := id,
    gres_test := true }

/-- Job requiring node 0, 4 CPUs, one node. -/
def detailsC2 : JobDetails :=
  { min_cpus := 4, max_cpus := none, num_tasks := none, min_gres_cpu := 0,
    min_job_gres_cpu := 0, req_node_bitmap := some {0} }

/-- The spec's LLN tie-break scenario: node 0 is A (avail 4 of 8), node 1
is B (avail 3 of 4), equal weight. -/
def envAB : SEnv :=
  { n := 2, weight := fun _ => 1,
    cpus := fun i => if i = 0 then 8 else 4,
    max_cpus := fun i => if i = 0 then 4 else 3,
    avail := fun i => if i = 0 then 4 else 3,
    probe := fun i => if i = 0 then 4 else 3,
    idle := fun _ => false, gres_per_job := false, gres_add := id,
    gres_test := true }

/-- Job wanting 1 node and 1 CPU. -/
def detailsAB : JobDetails :=
  { min_cpus := 1, max_cpus := none, num_tasks := none, min_gres_cpu := 0,
    min_job_gres_cpu := 0, req_node_bitmap := none }

/-- Three candidates of equal weight and equal `max_cpus` 4; node 1 has 8
total CPUs (ratio 1/2), nodes 0 and 2 have 4 (ratio 1). -/
def env3 : SEnv :=
  { n := 3, weight := fun _ => 1,
    cpus := fun i => if i = 1 then 8 else 4,
    max_cpus := fun _ => 4,
    avail := fun _ => 4, probe := fun _ => 4,
    idle := fun _ => false, gres_per_job := false, gres_add := id,
    gres_test := true }

/-- Job wanting 3 nodes and more CPUs than the pool offers. -/
def details3 : JobDetails :=
  { min_cpus := 100, max_cpus := none, num_tasks := none, min_gres_cpu := 0,
    min_job_gres_cpu := 0, req_node_bitmap := none }

/-- Three interchangeable candidates, 4 CPUs each. -/
def envC6 : SEnv :=
  { n := 3, weight := fun _ => 1, cpus := fun _ => 4, max_cpus := fun _ => 4,
    avail := fun _ => 4, probe := fun _ => 4,
    idle := fun _ => false, gres_per_job := false, gres_add := id,
    gres_test := true }

/-- Job satisfied by a single node (1 node, 1 CPU). -/
def detailsC6 : JobDetails :=
  { min_cpus := 1, max_cpus := none, num_tasks := none, min_gres_cpu := 0,
    min_job_gres_cpu := 0, req_node_bitmap := none }

/-- Five interchangeable candidates, 1 CPU each. -/
def envC6b : SEnv :=
  { n := 5, weight := fun _ => 1, cpus := fun _ => 1, max_cpus := fun _ => 1,
    avail := fun _ => 1, probe := fun _ => 1,
    idle := fun _ => false, gres_per_job := false, gres_add := id,
    gres_test := true }

/-- Job preferring 6 nodes (above its 2-node minimum), 5 CPUs. -/
def detailsC6b : JobDetails :=
  { min_cpus := 5, max_cpus := none, num_tasks := none, min_gres_cpu := 0,
    min_job_gres_cpu := 0, req_node_bitmap := none }

/-- Two candidates, node 0 required and satisfiable. -/
def envC1 : SEnv :=
  { n := 2, weight := fun _ => 1, cpus := fun _ => 4, max_cpus := fun _ => 4,
    avail := fun _ => 4, probe := fun _ => 4,
    idle := fun _ => false, gres_per_job := false, gres_add := id,
    gres_test := true }

/-- Job requiring node 0, one node, one CPU. -/
def detailsC1 : JobDetails :=
  { min_cpus := 1, max_cpus := none, num_tasks := none, min_gres_cpu := 0,
    min_job_gres_cpu := 0, req_node_bitmap := some {0} }

/-- On a failure outcome, `run_with_step` either cleared the map in the
shared epilogue or failed inside the required-node phase with the map it
reports. -/
theorem run_with_step_fail_shape
    (step : List ℕ → Finset ℕ → SimpleSt → Bool → SimpleSt × Bool × Bool)
    (env : SEnv) (details : JobDetails) (mn rn mx : ℕ) (nm : Finset ℕ)
    (hfail : (run_with_step step env details mn rn mx nm).1 = false) :
    (run_with_step step env details mn rn mx nm).2.1 = ∅ ∨
    (∃ knd nm', required_phase env details
        (simple_entry env details mn rn mx nm) = .fail knd nm' ∧
      (run_with_step step env details mn rn mx nm).2.1 = nm') ∨
    (∃ nm', required_phase env details
        (simple_entry env details mn rn mx nm) = .fail_max_nodes nm' ∧
      (run_with_step step env details mn rn mx nm).2.1 = nm') ∨
    (∃ nm', required_phase env details
        (simple_entry env details mn rn mx nm) = .fail_max_cpus nm' ∧
      (run_with_step step env details mn rn mx nm).2.1 = nm') := by
  unfold run_with_step at hfail ⊢
  revert hfail
  cases hreq : required_phase env details (simple_entry env details mn rn mx nm) with
  | early_success nm' =>
    intro hfail
    simp at hfail
  | fail knd nm' =>
    intro hfail
    exact Or.inr (Or.inl ⟨knd, nm', rfl, rfl⟩)
  | fail_max_nodes nm' =>
    intro hfail
    exact Or.inr (Or.inr (Or.inl ⟨nm', rfl, rfl⟩))
  | fail_max_cpus nm' =>
    intro hfail
    exact Or.inr (Or.inr (Or.inr ⟨nm', rfl, rfl⟩))
  | proceed st orig =>
    intro hfail
    replace hfail :
        (finish env (accum_phase step env (idx_range nm) orig st)).1 = false :=
      hfail
    left
    show (finish env (accum_phase step env (idx_range nm) orig st)).2.1 = ∅
    set r := accum_phase step env (idx_range nm) orig st with hr
    unfold finish simple_epilogue at hfail ⊢
    by_cases hs : r.2 = true
    · rw [if_pos hs] at hfail
      simp at hfail
    · rw [if_neg hs] at hfail ⊢
      by_cases hres : 0 < r.1.rem_cpus ∨ 0 < r.1.min_rem_nodes ∨ env.gres_test = false
      · rw [if_pos hres]
      · rw [if_neg hres] at hfail
        simp at hfail

/-- **C2, counterexample.** The lln strategy, given required node 0 whose
availability record shows zero CPUs, returns failure with
`node_map = {0, 1}` — not cleared: the `goto fini` on the
required-node-admission path (line 2078) precedes any clearing. -/
theorem counterexample_C2 :
    run_simple .lln envC2 detailsC2 1 1 2 {0, 1} = (false, {0, 1}, []) ∧
    ({0, 1} : Finset ℕ) ≠ ∅ := by
  constructor
  · decide
  · decide

/-- **C2, amended.** For each of the busy, lln, serial and spread
strategies, a failure return leaves the output map entirely cleared
*unless* the failure arose in the required-node admission phase (required
node lacking resources, probe yielding zero, `max_nodes` exhausted, or the
job `max_cpus` ceiling exceeded by the required nodes), in which case the
map is returned as the phase left it — partially pruned, required bits
still set. -/
theorem claim_C2_amended (k : SimpleKind) (env : SEnv) (details : JobDetails)
    (mn rn mx : ℕ) (nm : Finset ℕ)
    (hfail : (run_simple k env details mn rn mx nm).1 = false) :
    (run_simple k env details mn rn mx nm).2.1 = ∅ ∨
    (∃ knd nm', required_phase env details
        (simple_entry env details mn rn mx nm) = .fail knd nm' ∧
      (run_simple k env details mn rn mx nm).2.1 = nm') ∨
    (∃ nm', required_phase env details
        (simple_entry env details mn rn mx nm) = .fail_max_nodes nm' ∧
      (run_simple k env details mn rn mx nm).2.1 = nm') ∨
    (∃ nm', required_phase env details
        (simple_entry env details mn rn mx nm) = .fail_max_cpus nm' ∧
      (run_simple k env details mn rn mx nm).2.1 = nm') := by
  cases k
  · exact run_with_step_fail_shape _ env details mn rn mx nm hfail
  · exact run_with_step_fail_shape _ env details mn rn mx nm hfail
  · exact run_with_step_fail_shape _ env details mn rn mx nm hfail
  · exact run_with_step_fail_shape _ env details mn rn mx nm hfail

/-- Witness for `claim_C2_amended` at the concrete failing lln input. -/
theorem claim_C2_amended_witness :
    (run_simple .lln envC2 detailsC2 1 1 2 {0, 1}).2.1 = ∅ ∨
    (∃ knd nm', required_phase envC2 detailsC2
        (simple_entry envC2 detailsC2 1 1 2 {0, 1}) = .fail knd nm' ∧
      (run_simple .lln envC2 detailsC2 1 1 2 {0, 1}).2.1 = nm') ∨
    (∃ nm', required_phase envC2 detailsC2
        (simple_entry envC2 detailsC2 1 1 2 {0, 1}) = .fail_max_nodes nm' ∧
      (run_simple .lln envC2 detailsC2 1 1 2 {0, 1}).2.1 = nm') ∨
    (∃ nm', required_phase envC2 detailsC2
        (simple_entry envC2 detailsC2 1 1 2 {0, 1}) = .fail_max_cpus nm' ∧
      (run_simple .lln envC2 detailsC2 1 1 2 {0, 1}).2.1 = nm') :=
  claim_C2_amended .lln envC2 detailsC2 1 1 2 {0, 1} (by decide)

/-- The required-node admission loop only erases non-required bits: the
map shrinks, and every required bit present at entry survives. -/
theorem required_admit_loop_ok_map (env : SEnv) (req : Finset ℕ) :
    ∀ (idx : List ℕ) (st st' : SimpleSt),
      required_admit_loop env req idx st = .ok st' →
      st'.node_map ⊆ st.node_map ∧
      ∀ x ∈ st.node_map, x ∈ req → x ∈ st'.node_map := by
  intro idx
  induction idx with
  | nil =>
    intro st st' h
    simp only [required_admit_loop] at h
    cases h
    exact ⟨Finset.Subset.refl _, fun x hx _ => hx⟩
  | cons i rest ih =>
    intro st st' h
    simp only [required_admit_loop] at h
    split at h
    · case isTrue hi =>
      obtain ⟨h1, h2⟩ := ih _ _ h
      constructor
      · exact h1.trans (Finset.erase_subset _ _)
      · intro x hx hxr
        exact h2 x (Finset.mem_erase.mpr ⟨fun hxi => hi (hxi ▸ hxr), hx⟩) hxr
    · split at h
      · cases h
      · split at h
        · cases h
        · split at h
          · cases h
          · have hstep := ih _ st' h
            exact hstep

/-- Properties of a `proceed` outcome of the required phase: the surviving
map and the handed-over candidate pool are inside the entry map, and every
required bit of the entry map is in the surviving map. -/
theorem required_phase_proceed_map (env : SEnv) (details : JobDetails)
    (st0 st : SimpleSt) (orig : Finset ℕ)
    (h : required_phase env details st0 = .proceed st orig) :
    st.node_map ⊆ st0.node_map ∧ orig ⊆ st0.node_map ∧
    ∀ r, details.req_node_bitmap = some r →
      ∀ x ∈ st0.node_map, x ∈ r → x ∈ st.node_map := by
  obtain ⟨mc, xc, nt, mg, mjg, rq⟩ := details
  cases rq with
  | some req =>
    simp only [required_phase] at h
    cases hloop : required_admit_loop env req (idx_range st0.node_map) st0 with
    | error e =>
      rcases e with ⟨k, st1⟩
      simp only [hloop] at h
      cases h
    | ok st1 =>
      simp only [hloop] at h
      split at h
      · cases h
      · split at h
        · cases h
        · split at h
          · cases h
          · cases h
            obtain ⟨h1, h2⟩ := required_admit_loop_ok_map env req _ st0 _ hloop
            refine ⟨h1, Finset.sdiff_subset, ?_⟩
            intro r hr x hx hxr
            injection hr with hr
            subst hr
            exact h2 x hx hxr
  | none =>
    simp only [required_phase] at h
    split at h
    · cases h
    · cases h
      refine ⟨by simp, Finset.Subset.refl _, ?_⟩
      intro r hr
      cases hr

/-- Properties of an `early_success` outcome: the result is inside the
entry map and contains every required bit of the entry map. -/
theorem required_phase_early_map (env : SEnv) (details : JobDetails)
    (st0 : SimpleSt) (nm' : Finset ℕ)
    (h : required_phase env details st0 = .early_success nm') :
    nm' ⊆ st0.node_map ∧
    ∀ r, details.req_node_bitmap = some r →
      ∀ x ∈ st0.node_map, x ∈ r → x ∈ nm' := by
  obtain ⟨mc, xc, nt, mg, mjg, rq⟩ := details
  cases rq with
  | some req =>
    simp only [required_phase] at h
    cases hloop : required_admit_loop env req (idx_range st0.node_map) st0 with
    | error e =>
      rcases e with ⟨k, st1⟩
      simp only [hloop] at h
      cases h
    | ok st1 =>
      simp only [hloop] at h
      split at h
      · cases h
        obtain ⟨h1, h2⟩ := required_admit_loop_ok_map env req _ st0 st1 hloop
        constructor
        · exact (Finset.inter_subset_left).trans h1
        · intro r hr x hx hxr
          injection hr with hr
          subst hr
          exact Finset.mem_inter.mpr ⟨h2 x hx hxr, hxr⟩
      · split at h
        · cases h
        · split at h
          · cases h
          · cases h
  | none =>
    simp only [required_phase] at h
    split at h
    · cases h
    · cases h

/-- Every weight tier is a subset of the bitmap it was built from. -/
theorem build_node_weight_list_subset (env : SEnv) (bm : Finset ℕ) :
    ∀ t ∈ build_node_weight_list env bm, t ⊆ bm := by
  intro t ht
  unfold build_node_weight_list at ht
  simp only [List.mem_map] at ht
  obtain ⟨w, _, rfl⟩ := ht
  exact Finset.filter_subset _ _

/-- A node produced by the lln scan belongs to the tier and is not yet
selected (given that the carried best, if any, does). -/
theorem lln_scan_mem (env : SEnv) (tier nm : Finset ℕ) (last : ℤ) :
    ∀ (idx : List ℕ) (best : Option (ℕ × ℕ)) (i a : ℕ),
      lln_scan env tier nm last idx best = some (i, a) →
      (∀ b ba, best = some (b, ba) → b ∈ tier ∧ b ∉ nm) →
      i ∈ tier ∧ i ∉ nm := by
  intro idx
  induction idx with
  | nil =>
    intro best i a h hb
    exact hb i a h
  | cons j rest ih =>
    intro best i a h hb
    simp only [lln_scan] at h
    split at h
    · exact ih best i a h hb
    · case isFalse hcond =>
      rw [not_or, not_not] at hcond
      split at h
      · exact ih best i a h hb
      · split at h
        · -- best was none
          split at h
          · cases h
            exact hcond
          · refine ih _ i a h ?_
            intro b ba hb'
            injection hb' with hb'
            cases hb'
            exact hcond
        · -- best was some
          split at h
          · split at h
            · cases h
              exact hcond
            · refine ih _ i a h ?_
              intro b ba hb'
              injection hb' with hb'
              cases hb'
              exact hcond
          · exact ih _ i a h hb

/-- The lln per-tier loop only grows the map, and only by tier nodes. -/
theorem lln_tier_loop_map (env : SEnv) (idx : List ℕ) (tier : Finset ℕ) :
    ∀ (fuel : ℕ) (st : SimpleSt) (last : ℤ),
      st.node_map ⊆ (lln_tier_loop env idx tier fuel st last).1.node_map ∧
      (lln_tier_loop env idx tier fuel st last).1.node_map ⊆
        st.node_map ∪ tier := by
  intro fuel
  induction fuel with
  | zero =>
    intro st last
    simp only [lln_tier_loop]
    exact ⟨Finset.Subset.refl _, Finset.subset_union_left⟩
  | succ n ih =>
    intro st last
    simp only [lln_tier_loop]
    cases hscan : lln_scan env tier st.node_map last idx none with
    | none =>
      simp only [hscan]
      exact ⟨Finset.Subset.refl _, Finset.subset_union_left⟩
    | some p =>
      rcases p with ⟨i, a⟩
      simp only [hscan]
      have hi : i ∈ tier ∧ i ∉ st.node_map :=
        lln_scan_mem env tier st.node_map last idx none i a hscan
          (by intro b ba hb; cases hb)
      have hins : insert i st.node_map ⊆ st.node_map ∪ tier := by
        intro x hx
        rcases Finset.mem_insert.mp hx with rfl | hx
        · exact Finset.mem_union_right _ hi.1
        · exact Finset.mem_union_left _ hx
      by_cases ha : a = 0
      · rw [if_pos ha]
        exact ⟨Finset.Subset.refl _, Finset.subset_union_left⟩
      · rw [if_neg ha]
        set a2 := if env.gres_per_job then env.gres_add a else a with ha2
        by_cases hsuf : sufficient env (admit_node st i a2)
        · rw [if_pos hsuf]
          exact ⟨Finset.subset_insert _ _, hins⟩
        · rw [if_neg hsuf]
          by_cases hmax : (admit_node st i a2).max_nodes = 0
          · rw [if_pos hmax]
            exact ⟨Finset.subset_insert _ _, hins⟩
          · rw [if_neg hmax]
            obtain ⟨ih1, ih2⟩ := ih (admit_node st i a2) (env.max_cpus i : ℤ)
            constructor
            · exact (Finset.subset_insert _ _).trans ih1
            · refine ih2.trans ?_
              intro x hx
              rcases Finset.mem_union.mp hx with hx | hx
              · exact hins hx
              · exact Finset.mem_union_right _ hx

/-- The tier fold only grows the map and only by nodes of the tiers. -/
theorem tier_fold_map
    (step : Finset ℕ → SimpleSt → Bool → SimpleSt × Bool × Bool)
    (orig : Finset ℕ)
    (hstep : ∀ t st suc, t ⊆ orig →
      st.node_map ⊆ (step t st suc).1.node_map ∧
      (step t st suc).1.node_map ⊆ st.node_map ∪ t) :
    ∀ (tiers : List (Finset ℕ)) (st : SimpleSt) (suc : Bool),
      (∀ t ∈ tiers, t ⊆ orig) →
      st.node_map ⊆ (tier_fold step tiers st suc).1.node_map ∧
      (tier_fold step tiers st suc).1.node_map ⊆ st.node_map ∪ orig := by
  intro tiers
  induction tiers with
  | nil =>
    intro st suc _
    exact ⟨Finset.Subset.refl _, Finset.subset_union_left⟩
  | cons t rest ih =>
    intro st suc htiers
    have ht : t ⊆ orig := htiers t (by simp)
    have hrest : ∀ u ∈ rest, u ⊆ orig := fun u hu => htiers u (by simp [hu])
    obtain ⟨hs1, hs2⟩ := hstep t st suc ht
    have hs2' : (step t st suc).1.node_map ⊆ st.node_map ∪ orig :=
      hs2.trans (Finset.union_subset_union (Finset.Subset.refl _) ht)
    simp only [tier_fold]
    cases hstp : step t st suc with
    | mk st' q =>
      rcases q with ⟨suc', done⟩
      rw [hstp] at hs1 hs2'
      split
      · exact ⟨hs1, hs2'⟩
      · obtain ⟨ih1, ih2⟩ := ih st' suc' hrest
        constructor
        · exact hs1.trans ih1
        · refine ih2.trans ?_
          intro x hx
          rcases Finset.mem_union.mp hx with hx | hx
          · exact hs2' hx
          · exact Finset.mem_union_right _ hx

/-- Behind the dispatcher's entry checks (`eval_nodes_precheck`,
lines 3302-3308), a successful simple-strategy evaluation whose per-tier
step only grows the map and only by tier nodes returns a map with
`req_node_bitmap ⊆ selected ⊆ candidates_in`. -/
theorem run_with_step_success_map
    (step : List ℕ → Finset ℕ → SimpleSt → Bool → SimpleSt × Bool × Bool)
    (env : SEnv) (details : JobDetails) (mn rn mx : ℕ) (nm : Finset ℕ)
    (hstep : ∀ t st1 suc,
      st1.node_map ⊆ (step (idx_range nm) t st1 suc).1.node_map ∧
      (step (idx_range nm) t st1 suc).1.node_map ⊆ st1.node_map ∪ t)
    (hpre : eval_nodes_precheck nm mn details.req_node_bitmap = true)
    (hsuc : (run_with_step step env details mn rn mx nm).1 = true) :
    (run_with_step step env details mn rn mx nm).2.1 ⊆ nm ∧
    ∀ r, details.req_node_bitmap = some r →
      r ⊆ (run_with_step step env details mn rn mx nm).2.1 := by
  have hreq_sub : ∀ r, details.req_node_bitmap = some r → r ⊆ nm := by
    intro r hr
    unfold eval_nodes_precheck at hpre
    rw [hr] at hpre
    split at hpre
    · cases hpre
    · simpa using hpre
  unfold run_with_step at hsuc ⊢
  revert hsuc
  cases hreq : required_phase env details (simple_entry env details mn rn mx nm) with
  | early_success nm' =>
    intro _
    obtain ⟨h1, h2⟩ := required_phase_early_map env details _ nm' hreq
    constructor
    · exact h1
    · intro r hr x hxr
      exact h2 r hr x (hreq_sub r hr hxr) hxr
  | fail knd nm' =>
    intro hsuc
    simp at hsuc
  | fail_max_nodes nm' =>
    intro hsuc
    simp at hsuc
  | fail_max_cpus nm' =>
    intro hsuc
    simp at hsuc
  | proceed st orig =>
    intro hsuc
    replace hsuc :
        (finish env (accum_phase step env (idx_range nm) orig st)).1
          = true := hsuc
    obtain ⟨hst, horig, hreqp⟩ :=
      required_phase_proceed_map env details _ st orig hreq
    have hstep' : ∀ t st1 suc, t ⊆ orig →
        st1.node_map ⊆ (step (idx_range nm) t st1 suc).1.node_map ∧
        (step (idx_range nm) t st1 suc).1.node_map ⊆
          st1.node_map ∪ t := fun t st1 suc _ => hstep t st1 suc
    have hacc := tier_fold_map _ orig hstep' (build_node_weight_list env orig)
      st false (build_node_weight_list_subset env orig)
    set p := accum_phase step env (idx_range nm) orig st with hp
    have hmono : st.node_map ⊆ p.1.node_map ∧
        p.1.node_map ⊆ st.node_map ∪ orig := by
      rw [hp]
      unfold accum_phase
      split
      · exact ⟨Finset.Subset.refl _, Finset.subset_union_left⟩
      · exact hacc
    have hfin_sub : p.1.node_map ⊆ nm :=
      hmono.2.trans (Finset.union_subset hst horig)
    have hfin_req : ∀ r, details.req_node_bitmap = some r → r ⊆ p.1.node_map := by
      intro r hr x hxr
      exact hmono.1 (hreqp r hr x (hreq_sub r hr hxr) hxr)
    show (finish env p).2.1 ⊆ nm ∧
      ∀ r, details.req_node_bitmap = some r → r ⊆ (finish env p).2.1
    unfold finish simple_epilogue at hsuc ⊢
    by_cases hs : p.2 = true
    · rw [if_pos hs]
      exact ⟨hfin_sub, hfin_req⟩
    · rw [if_neg hs] at hsuc ⊢
      by_cases hres : 0 < p.1.rem_cpus ∨ 0 < p.1.min_rem_nodes ∨
          env.gres_test = false
      · rw [if_pos hres] at hsuc
        simp at hsuc
      · rw [if_neg hres]
        exact ⟨hfin_sub, hfin_req⟩

/-- The serial per-tier loop only grows the map, and only by tier nodes. -/
theorem serial_tier_map (env : SEnv) (tier : Finset ℕ) :
    ∀ (idx : List ℕ) (st : SimpleSt),
      st.node_map ⊆ (serial_tier env tier idx st).1.node_map ∧
      (serial_tier env tier idx st).1.node_map ⊆ st.node_map ∪ tier := by
  intro idx
  induction idx with
  | nil =>
    intro st
    simp only [serial_tier]
    exact ⟨Finset.Subset.refl _, Finset.subset_union_left⟩
  | cons i rest ih =>
    intro st
    simp only [serial_tier]
    by_cases hmax : st.max_nodes = 0
    · rw [if_pos hmax]
      exact ⟨Finset.Subset.refl _, Finset.subset_union_left⟩
    · rw [if_neg hmax]
      by_cases hav : env.avail i = 0
      · rw [if_pos hav]
        exact ih st
      · rw [if_neg hav]
        by_cases hskip : i ∉ tier ∨ i ∈ st.node_map
        · rw [if_pos hskip]
          exact ih st
        · rw [if_neg hskip]
          rw [not_or, not_not] at hskip
          by_cases hpz : env.probe i = 0
          · rw [if_pos hpz]
            exact ih st
          · rw [if_neg hpz]
            have hins : insert i st.node_map ⊆ st.node_map ∪ tier := by
              intro x hx
              rcases Finset.mem_insert.mp hx with rfl | hx
              · exact Finset.mem_union_right _ hskip.1
              · exact Finset.mem_union_left _ hx
            by_cases hsuf : sufficient env (admit_node st i (env.probe i))
            · rw [if_pos hsuf]
              exact ⟨Finset.subset_insert _ _, hins⟩
            · rw [if_neg hsuf]
              by_cases hm2 : (admit_node st i (env.probe i)).max_nodes = 0
              · rw [if_pos hm2]
                exact ⟨Finset.subset_insert _ _, hins⟩
              · rw [if_neg hm2]
                obtain ⟨ih1, ih2⟩ := ih (admit_node st i (env.probe i))
                refine ⟨(Finset.subset_insert _ _).trans ih1, ih2.trans ?_⟩
                intro x hx
                rcases Finset.mem_union.mp hx with hx | hx
                · exact hins hx
                · exact Finset.mem_union_right _ hx

/-- The spread per-tier loop only grows the map, and only by tier nodes. -/
theorem spread_tier_map (env : SEnv) (tier : Finset ℕ) :
    ∀ (idx : List ℕ) (st : SimpleSt),
      st.node_map ⊆ (spread_tier env tier idx st).1.node_map ∧
      (spread_tier env tier idx st).1.node_map ⊆ st.node_map ∪ tier := by
  intro idx
  induction idx with
  | nil =>
    intro st
    simp only [spread_tier]
    exact ⟨Finset.Subset.refl _, Finset.subset_union_left⟩
  | cons i rest ih =>
    intro st
    simp only [spread_tier]
    by_cases hav : env.avail i = 0
    · rw [if_pos hav]
      exact ih st
    · rw [if_neg hav]
      by_cases hskip : i ∉ tier ∨ i ∈ st.node_map
      · rw [if_pos hskip]
        exact ih st
      · rw [if_neg hskip]
        rw [not_or, not_not] at hskip
        by_cases hpz : adj_probe env i = 0
        · rw [if_pos hpz]
          exact ih st
        · rw [if_neg hpz]
          have hins : insert i st.node_map ⊆ st.node_map ∪ tier := by
            intro x hx
            rcases Finset.mem_insert.mp hx with rfl | hx
            · exact Finset.mem_union_right _ hskip.1
            · exact Finset.mem_union_left _ hx
          by_cases hsuf : sufficient env (admit_node st i (adj_probe env i))
          · rw [if_pos hsuf]
            exact ⟨Finset.subset_insert _ _, hins⟩
          · rw [if_neg hsuf]
            by_cases hm2 : (admit_node st i (adj_probe env i)).max_nodes = 0
            · rw [if_pos hm2]
              exact ⟨Finset.subset_insert _ _, hins⟩
            · rw [if_neg hm2]
              obtain ⟨ih1, ih2⟩ := ih (admit_node st i (adj_probe env i))
              refine ⟨(Finset.subset_insert _ _).trans ih1, ih2.trans ?_⟩
              intro x hx
              rcases Finset.mem_union.mp hx with hx | hx
              · exact hins hx
              · exact Finset.mem_union_right _ hx

/-- A busy sub-pass only grows the map, and only by tier nodes. -/
theorem busy_pass_map (env : SEnv) (idle_pass : Bool) (tier : Finset ℕ) :
    ∀ (idx : List ℕ) (st : SimpleSt) (suc : Bool),
      st.node_map ⊆ (busy_pass env idle_pass tier idx st suc).1.node_map ∧
      (busy_pass env idle_pass tier idx st suc).1.node_map ⊆
        st.node_map ∪ tier := by
  intro idx
  induction idx with
  | nil =>
    intro st suc
    simp only [busy_pass]
    exact ⟨Finset.Subset.refl _, Finset.subset_union_left⟩
  | cons i rest ih =>
    intro st suc
    simp only [busy_pass]
    by_cases hav : env.avail i = 0
    · rw [if_pos hav]
      exact ih st suc
    · rw [if_neg hav]
      by_cases hskip : i ∉ tier ∨ i ∈ st.node_map
      · rw [if_pos hskip]
        exact ih st suc
      · rw [if_neg hskip]
        rw [not_or, not_not] at hskip
        by_cases hidle : (idle_pass = false ∧ env.idle i = true) ∨
            (idle_pass = true ∧ env.idle i = false)
        · rw [if_pos hidle]
          exact ih st suc
        · rw [if_neg hidle]
          by_cases hpz : adj_probe env i = 0
          · rw [if_pos hpz]
            exact ih st suc
          · rw [if_neg hpz]
            have hins : insert i st.node_map ⊆ st.node_map ∪ tier := by
              intro x hx
              rcases Finset.mem_insert.mp hx with rfl | hx
              · exact Finset.mem_union_right _ hskip.1
              · exact Finset.mem_union_left _ hx
            by_cases hsuf : sufficient env (admit_node st i (adj_probe env i))
            · rw [if_pos hsuf]
              exact ⟨Finset.subset_insert _ _, hins⟩
            · rw [if_neg hsuf]
              by_cases hm2 : (admit_node st i (adj_probe env i)).max_nodes = 0
              · rw [if_pos hm2]
                exact ⟨Finset.subset_insert _ _, hins⟩
              · rw [if_neg hm2]
                obtain ⟨ih1, ih2⟩ := ih (admit_node st i (adj_probe env i)) suc
                refine ⟨(Finset.subset_insert _ _).trans ih1, ih2.trans ?_⟩
                intro x hx
                rcases Finset.mem_union.mp hx with hx | hx
                · exact hins hx
                · exact Finset.mem_union_right _ hx

/-- The busy per-tier loop only grows the map, and only by tier nodes. -/
theorem busy_tier_map (env : SEnv) (idx : List ℕ) (tier : Finset ℕ)
    (st : SimpleSt) (suc : Bool) :
    st.node_map ⊆ (busy_tier env idx tier st suc).1.node_map ∧
    (busy_tier env idx tier st suc).1.node_map ⊆ st.node_map ∪ tier := by
  obtain ⟨h1, h2⟩ := busy_pass_map env false tier idx st suc
  obtain ⟨h3, h4⟩ := busy_pass_map env true tier idx
    (busy_pass env false tier idx st suc).1
    (busy_pass env false tier idx st suc).2.1
  have hfst : (busy_tier env idx tier st suc).1 =
      (busy_pass env true tier idx (busy_pass env false tier idx st suc).1
        (busy_pass env false tier idx st suc).2.1).1 := rfl
  rw [hfst]
  refine ⟨h1.trans h3, h4.trans ?_⟩
  intro x hx
  rcases Finset.mem_union.mp hx with hx | hx
  · exact h2 hx
  · exact Finset.mem_union_right _ hx

/-- Strict transitivity of the cross-multiplied ratio comparison. -/
theorem cross_lt_trans {ma ca mb cb mc cc : ℕ}
    (h1 : ma * cb < mb * ca) (h2 : mb * cc < mc * cb) :
    ma * cc < mc * ca := by
  have hb : 0 < mb := by
    rcases Nat.eq_zero_or_pos mb with h | h
    · subst h
      simp at h1
    · exact h
  have hcb : 0 < cb := by
    rcases Nat.eq_zero_or_pos cb with h | h
    · subst h
      simp at h2
    · exact h
  have key : (mb * cb) * (ma * cc) < (mb * cb) * (mc * ca) := by
    calc (mb * cb) * (ma * cc) = (ma * cb) * (mb * cc) := by ring
    _ < (mb * ca) * (mc * cb) :=
      mul_lt_mul'' h1 h2 (Nat.zero_le _) (Nat.zero_le _)
    _ = (mb * cb) * (mc * ca) := by ring
  exact Nat.lt_of_mul_lt_mul_left key

/-- Transitivity of the non-strict cross-multiplied comparison; needs the
middle denominator positive. -/
theorem cross_le_trans {mi ci mb cb mj cj : ℕ} (hcb : 0 < cb)
    (h1 : mb * ci ≤ mi * cb) (h2 : mj * cb ≤ mb * cj) :
    mj * ci ≤ mi * cj := by
  rcases Nat.eq_zero_or_pos mb with hb | hb
  · subst hb
    have h0 : mj * cb = 0 := Nat.le_antisymm (by simpa using h2) (Nat.zero_le _)
    have hj : mj = 0 := by
      rcases Nat.mul_eq_zero.mp h0 with h | h
      · exact h
      · omega
    subst hj
    simp
  · have key : (mb * cb) * (mj * ci) ≤ (mb * cb) * (mi * cj) := by
      calc (mb * cb) * (mj * ci) = (mj * cb) * (mb * ci) := by ring
      _ ≤ (mb * cj) * (mi * cb) := Nat.mul_le_mul h2 h1
      _ = (mb * cb) * (mi * cj) := by ring
    exact Nat.le_of_mul_le_mul_left key (Nat.mul_pos hb hcb)

/-- With `last_max_cpu_cnt = -1` — the state at the first admission of a
weight tier — the lln scan cannot break early, and its result maximizes
the `max_cpus/cpus` ratio over all usable candidates of the scanned range
(denominators positive: a node record has at least one CPU). -/
theorem lln_scan_argmax (env : SEnv) (tier nm : Finset ℕ)
    (hpos : ∀ j, 0 < env.cpus j) :
    ∀ (idx : List ℕ) (best : Option (ℕ × ℕ)) (i a : ℕ),
      lln_scan env tier nm (-1) idx best = some (i, a) →
      (∀ j ∈ idx, j ∈ tier → j ∉ nm → env.probe j ≠ 0 →
        ¬(env.max_cpus i * env.cpus j < env.max_cpus j * env.cpus i)) ∧
      (∀ b ba, best = some (b, ba) →
        ¬(env.max_cpus i * env.cpus b < env.max_cpus b * env.cpus i)) := by
  intro idx
  induction idx with
  | nil =>
    intro best i a h
    simp only [lln_scan] at h
    constructor
    · intro j hj
      simp at hj
    · intro b ba hb
      rw [h] at hb
      injection hb with hb
      cases hb
      exact lt_irrefl _
  | cons j rest ih =>
    intro best i a h
    cases best with
    | none =>
      simp only [lln_scan] at h
      split at h
      case isTrue hskip =>
        obtain ⟨ih1, ih2⟩ := ih none i a h
        refine ⟨?_, ih2⟩
        intro k hk hkt hknm hkp
        rcases List.mem_cons.mp hk with rfl | hk
        · rcases hskip with h' | h'
          · exact absurd hkt h'
          · exact absurd h' hknm
        · exact ih1 k hk hkt hknm hkp
      case isFalse hcond =>
        rw [not_or, not_not] at hcond
        split at h
        case isTrue hp0 =>
          obtain ⟨ih1, ih2⟩ := ih none i a h
          refine ⟨?_, ih2⟩
          intro k hk hkt hknm hkp
          rcases List.mem_cons.mp hk with rfl | hk
          · exact absurd hp0 hkp
          · exact ih1 k hk hkt hknm hkp
        case isFalse hp0 =>
          obtain ⟨ih1, ih2⟩ := ih (some (j, env.probe j)) i a h
          have hij := ih2 j (env.probe j) rfl
          refine ⟨?_, ?_⟩
          · intro k hk hkt hknm hkp
            rcases List.mem_cons.mp hk with rfl | hk
            · exact hij
            · exact ih1 k hk hkt hknm hkp
          · intro b ba hb
            cases hb
    | some p =>
      rcases p with ⟨b, ba⟩
      simp only [lln_scan] at h
      split at h
      case isTrue hskip =>
        obtain ⟨ih1, ih2⟩ := ih (some (b, ba)) i a h
        refine ⟨?_, ih2⟩
        intro k hk hkt hknm hkp
        rcases List.mem_cons.mp hk with rfl | hk
        · rcases hskip with h' | h'
          · exact absurd hkt h'
          · exact absurd h' hknm
        · exact ih1 k hk hkt hknm hkp
      case isFalse hcond =>
        rw [not_or, not_not] at hcond
        split at h
        case isTrue hp0 =>
          obtain ⟨ih1, ih2⟩ := ih (some (b, ba)) i a h
          refine ⟨?_, ih2⟩
          intro k hk hkt hknm hkp
          rcases List.mem_cons.mp hk with rfl | hk
          · exact absurd hp0 hkp
          · exact ih1 k hk hkt hknm hkp
        case isFalse hp0 =>
          split at h
          case isTrue hlt =>
            obtain ⟨ih1, ih2⟩ := ih (some (j, env.probe j)) i a h
            have hij := ih2 j (env.probe j) rfl
            refine ⟨?_, ?_⟩
            · intro k hk hkt hknm hkp
              rcases List.mem_cons.mp hk with rfl | hk
              · exact hij
              · exact ih1 k hk hkt hknm hkp
            · intro b' ba' hb'
              injection hb' with hb'
              cases hb'
              intro hib
              exact hij (cross_lt_trans hib hlt)
          case isFalse hnlt =>
            obtain ⟨ih1, ih2⟩ := ih (some (b, ba)) i a h
            have hib := ih2 b ba rfl
            refine ⟨?_, ?_⟩
            · intro k hk hkt hknm hkp
              rcases List.mem_cons.mp hk with rfl | hk
              · intro hij
                have := cross_le_trans (hpos b) (Nat.not_lt.mp hib)
                  (Nat.not_lt.mp hnlt)
                omega
              · exact ih1 k hk hkt hknm hkp
            · intro b' ba' hb'
              injection hb' with hb'
              cases hb'
              exact hib

/-- **C5, counterexample.** Three usable equal-weight candidates: after
admitting node 0 the scan stops at node 1 (whose `max_cpus` equals the
previously admitted node's) even though node 2's available-to-total ratio
is strictly higher — the admission order is `[0, 1, 2]`, so the
higher-ratio node 2 is not admitted before node 1. -/
theorem counterexample_C5 :
    (eval_nodes_lln env3 details3 3 3 3 {0, 1, 2}).2.2 = [0, 1, 2] ∧
    env3.max_cpus 1 * env3.cpus 2 < env3.max_cpus 2 * env3.cpus 1 ∧
    env3.probe 1 ≠ 0 ∧ env3.probe 2 ≠ 0 ∧
    env3.weight 1 = env3.weight 2 := by
  refine ⟨by decide, by decide, by decide, by decide, rfl⟩

/-- **C5, amended.** The FIRST admission of each weight tier (scan run
with `last_max_cpu_cnt = -1`) picks a node whose available-to-total CPU
ratio, compared by integer cross-multiplication, is maximal among all
usable not-yet-selected candidates of the tier — in particular, with
A (avail 4 of 8) and B (avail 3 of 4) of equal weight and a job wanting
one node and one CPU, B is chosen first because `3·8 > 4·4`.  Later
admissions of the same tier may stop the scan early at a node whose
`max_cpus` equals the previously admitted node's, admitting it ahead of a
strictly higher-ratio node. -/
theorem claim_C5_amended :
    (∀ (env : SEnv), (∀ j, 0 < env.cpus j) →
      ∀ (tier nm : Finset ℕ) (idx : List ℕ) (i a : ℕ),
        lln_scan env tier nm (-1) idx none = some (i, a) →
        ∀ j ∈ idx, j ∈ tier → j ∉ nm → env.probe j ≠ 0 →
          ¬(env.max_cpus i * env.cpus j < env.max_cpus j * env.cpus i)) ∧
    (eval_nodes_lln envAB detailsAB 1 1 2 {0, 1} = (true, {1}, [1]) ∧
      envAB.max_cpus 0 * envAB.cpus 1 < envAB.max_cpus 1 * envAB.cpus 0) := by
  constructor
  · intro env hpos tier nm idx i a h
    exact (lln_scan_argmax env tier nm hpos idx none i a h).1
  · exact ⟨by decide, by decide⟩

/-- Witness for `claim_C5_amended`: the scan over A and B returns B, and B
is indeed not ratio-beaten by A. -/
theorem claim_C5_amended_witness :
    ¬(envAB.max_cpus 1 * envAB.cpus 0 < envAB.max_cpus 0 * envAB.cpus 1) :=
  claim_C5_amended.1 envAB
    (by intro j; simp only [envAB]; split <;> omega)
    {0, 1} ∅ [0, 1] 1 3 (by decide)
    0 (by decide) (by decide) (by decide) (by decide)

/-- When the spread per-tier loop exhausts the index range without a stop
(`all_done` not set), it has admitted exactly the usable tier candidates —
nonzero availability record, in the tier, not already selected, nonzero
adjusted probe — in index order, low to high. -/
theorem spread_tier_exhaust (env : SEnv) (tier : Finset ℕ) :
    ∀ (idx : List ℕ) (st st' : SimpleSt) (suc' : Bool),
      idx.Nodup →
      spread_tier env tier idx st = (st', suc', false) →
      st'.node_map = st.node_map ∪
        (idx.filter (fun i => decide (env.avail i ≠ 0 ∧ i ∈ tier ∧
          i ∉ st.node_map ∧ adj_probe env i ≠ 0))).toFinset ∧
      st'.admitted = st.admitted ++
        idx.filter (fun i => decide (env.avail i ≠ 0 ∧ i ∈ tier ∧
          i ∉ st.node_map ∧ adj_probe env i ≠ 0)) := by
  intro idx
  induction idx with
  | nil =>
    intro st st' suc' _ h
    simp only [spread_tier] at h
    injection h with h1 h2
    subst h1
    simp
  | cons i rest ih =>
    intro st st' suc' hnd h
    obtain ⟨hni, hnd'⟩ := List.nodup_cons.mp hnd
    simp only [spread_tier] at h
    split at h
    case isTrue ha =>
      obtain ⟨e1, e2⟩ := ih st st' suc' hnd' h
      have hp : (fun i => decide (env.avail i ≠ 0 ∧ i ∈ tier ∧
          i ∉ st.node_map ∧ adj_probe env i ≠ 0)) i = false := by
        simp [ha]
      rw [List.filter_cons_of_neg (by simpa using hp)]
      exact ⟨e1, e2⟩
    case isFalse ha =>
      split at h
      case isTrue hsel =>
        obtain ⟨e1, e2⟩ := ih st st' suc' hnd' h
        have hp : (fun i => decide (env.avail i ≠ 0 ∧ i ∈ tier ∧
            i ∉ st.node_map ∧ adj_probe env i ≠ 0)) i = false := by
          rcases hsel with h' | h' <;> simp [h']
        rw [List.filter_cons_of_neg (by simpa using hp)]
        exact ⟨e1, e2⟩
      case isFalse hsel =>
        rw [not_or, not_not] at hsel
        split at h
        case isTrue hz =>
          obtain ⟨e1, e2⟩ := ih st st' suc' hnd' h
          have hp : (fun i => decide (env.avail i ≠ 0 ∧ i ∈ tier ∧
              i ∉ st.node_map ∧ adj_probe env i ≠ 0)) i = false := by
            simp [hz]
          rw [List.filter_cons_of_neg (by simpa using hp)]
          exact ⟨e1, e2⟩
        case isFalse hz =>
          split at h
          case isTrue hsuf =>
            simp at h
          case isFalse hsuf =>
            split at h
            case isTrue hmax =>
              simp at h
            case isFalse hmax =>
              obtain ⟨e1, e2⟩ :=
                ih (admit_node st i (adj_probe env i)) st' suc' hnd' h
              have hp : (fun i => decide (env.avail i ≠ 0 ∧ i ∈ tier ∧
                  i ∉ st.node_map ∧ adj_probe env i ≠ 0)) i = true := by
                simp [ha, hsel.1, hsel.2, hz]
              rw [List.filter_cons_of_pos (by simpa using hp)]
              have hfilt : rest.filter (fun k => decide (env.avail k ≠ 0 ∧
                  k ∈ tier ∧
                  k ∉ (admit_node st i (adj_probe env i)).node_map ∧
                  adj_probe env k ≠ 0)) =
                rest.filter (fun k => decide (env.avail k ≠ 0 ∧ k ∈ tier ∧
                  k ∉ st.node_map ∧ adj_probe env k ≠ 0)) := by
                apply List.filter_congr
                intro k hk
                have hki : k ≠ i := fun hki => hni (hki ▸ hk)
                simp only [decide_eq_decide]
                constructor
                · rintro ⟨q1, q2, q3, q4⟩
                  refine ⟨q1, q2, ?_, q4⟩
                  intro hkm
                  exact q3 (Finset.mem_insert_of_mem hkm)
                · rintro ⟨q1, q2, q3, q4⟩
                  refine ⟨q1, q2, ?_, q4⟩
                  intro hkm
                  rcases Finset.mem_insert.mp hkm with h' | h'
                  · exact hki h'
                  · exact q3 h'
              rw [hfilt] at e1 e2
              constructor
              · rw [e1]
                show insert i st.node_map ∪ _ = _
                rw [List.toFinset_cons, Finset.insert_union, Finset.union_insert]
              · rw [e2]
                show (st.admitted ++ [i]) ++ _ = _
                rw [List.append_assoc]
                rfl

/-- When the spread per-tier loop sets `all_done`, it did so either by
satisfying the sufficiency test after an admission (latching success) or
by exhausting `max_nodes`. -/
theorem spread_tier_stop (env : SEnv) (tier : Finset ℕ) :
    ∀ (idx : List ℕ) (st st' : SimpleSt) (suc' : Bool),
      spread_tier env tier idx st = (st', suc', true) →
      (suc' = true ∧ sufficient env st') ∨
      (suc' = false ∧ st'.max_nodes = 0) := by
  intro idx
  induction idx with
  | nil =>
    intro st st' suc' h
    simp only [spread_tier] at h
    simp at h
  | cons i rest ih =>
    intro st st' suc' h
    simp only [spread_tier] at h
    split at h
    · exact ih st st' suc' h
    · split at h
      · exact ih st st' suc' h
      · split at h
        · exact ih st st' suc' h
        · split at h
          case isTrue hsuf =>
            obtain ⟨h1, h2, h3⟩ : admit_node st i (adj_probe env i) = st' ∧
                true = suc' ∧ true = true := by
              simpa using h
            subst h1
            exact Or.inl ⟨h2.symm, hsuf⟩
          case isFalse hsuf =>
            split at h
            case isTrue hmax =>
              obtain ⟨h1, h2, h3⟩ : admit_node st i (adj_probe env i) = st' ∧
                  false = suc' ∧ true = true := by
                simpa using h
              subst h1
              exact Or.inr ⟨h2.symm, hmax⟩
            case isFalse hmax =>
              exact ih _ st' suc' h

/-- **C6, counterexample.** Spread with three passing candidates and a
job satisfied by one node stops at the first admission: the selected count
is 1, not the number of passing candidates (3, under `max_nodes = 3`) —
the strategy does stop early on sufficiency. -/
theorem counterexample_C6 :
    eval_nodes_spread envC6 detailsC6 1 1 3 {0, 1, 2} = (true, {0}, [0]) ∧
    (∀ i ∈ [0, 1, 2], envC6.avail i ≠ 0 ∧ adj_probe envC6 i ≠ 0) ∧
    ({0} : Finset ℕ).card = 1 ∧ 1 ≠ min 3 3 := by
  refine ⟨by decide, by decide, by decide, by decide⟩

/-- **C6, amended.** Within a weight tier the spread strategy iterates
indices low to high, admitting every distinct candidate whose availability
record and (GRES-adjusted) probe are nonzero, but it stops as soon as an
admission satisfies the sufficiency test (latching success) or exhausts
`max_nodes`; the selected count equals the number of distinct passing
candidates only when neither stop fires inside the candidate set — as in
the concrete run where 5 passing candidates are all selected while the
job's 6-node preferred target is still unmet. -/
theorem claim_C6_amended :
    (∀ (env : SEnv) (tier : Finset ℕ) (idx : List ℕ) (st st' : SimpleSt)
      (suc' : Bool), idx.Nodup →
      spread_tier env tier idx st = (st', suc', false) →
      st'.node_map = st.node_map ∪
        (idx.filter (fun i => decide (env.avail i ≠ 0 ∧ i ∈ tier ∧
          i ∉ st.node_map ∧ adj_probe env i ≠ 0))).toFinset ∧
      st'.admitted = st.admitted ++
        idx.filter (fun i => decide (env.avail i ≠ 0 ∧ i ∈ tier ∧
          i ∉ st.node_map ∧ adj_probe env i ≠ 0))) ∧
    (∀ (env : SEnv) (tier : Finset ℕ) (idx : List ℕ) (st st' : SimpleSt)
      (suc' : Bool),
      spread_tier env tier idx st = (st', suc', true) →
      (suc' = true ∧ sufficient env st') ∨
      (suc' = false ∧ st'.max_nodes = 0)) ∧
    eval_nodes_spread envC6b detailsC6b 2 6 7 {0, 1, 2, 3, 4} =
      (true, {0, 1, 2, 3, 4}, [0, 1, 2, 3, 4]) := by
  refine ⟨?_, ?_, by decide⟩
  · intro env tier idx st st' suc' hnd h
    exact spread_tier_exhaust env tier idx st st' suc' hnd h
  · intro env tier idx st st' suc' h
    exact spread_tier_stop env tier idx st st' suc' h

/-- Witness for `claim_C6_amended` at a concrete tier walk: five passing
candidates from the empty map are all admitted, in index order. -/
theorem claim_C6_amended_witness :
    (⟨{4, 3, 2, 1, 0}, 0, 1, -3, 2, 0, 5, [0, 1, 2, 3, 4]⟩ : SimpleSt).node_map =
      (∅ : Finset ℕ) ∪
        (([0, 1, 2, 3, 4].filter (fun i => decide (envC6b.avail i ≠ 0 ∧
          i ∈ ({0, 1, 2, 3, 4} : Finset ℕ) ∧ i ∉ (∅ : Finset ℕ) ∧
          adj_probe envC6b i ≠ 0))).toFinset) ∧
    (⟨{4, 3, 2, 1, 0}, 0, 1, -3, 2, 0, 5, [0, 1, 2, 3, 4]⟩ : SimpleSt).admitted =
      [] ++ [0, 1, 2, 3, 4].filter (fun i => decide (envC6b.avail i ≠ 0 ∧
        i ∈ ({0, 1, 2, 3, 4} : Finset ℕ) ∧ i ∉ (∅ : Finset ℕ) ∧
        adj_probe envC6b i ≠ 0)) :=
  claim_C6_amended.1 envC6b {0, 1, 2, 3, 4} [0, 1, 2, 3, 4]
    ⟨∅, 5, 6, 2, 7, 5, 0, []⟩ ⟨{4, 3, 2, 1, 0}, 0, 1, -3, 2, 0, 5, [0, 1, 2, 3, 4]⟩
    false (by decide) (by rfl)

/-! ## The consec / dfly / topo / block strategies

The four topology-aware strategies are embedded below with the same
conventions as the simple four: bitmaps are `Finset ℕ`, `int` counters are
`ℤ`, the `uint32_t` `max_nodes` is `ℕ` decremented through `dec_u32`, and
the collaborators the module interface declares opaque are environment
parameters — `eval_nodes_select_cores` as `sc` (with its `min_rem_nodes`
argument), `eval_nodes_cpus_to_use` as `ctu` (with its `rem_max_cpus` and
`min_rem_nodes` arguments; the identity for `whole_node = 1` jobs, whose
write-back to the availability record then also does not fire),
`gres_sched_add` as `gres_add`, `gres_sched_test` as the fixed verdict
`gres_test`, `gres_sched_consec` as accumulation of the node index into a
bucket list, and `gres_sched_sufficient` as the oracles
`gres_sufficient` (on a bucket) and `gres_node_sufficient` (on one node's
socket list).  Mutable per-node arrays (`avail_cpu_per_node`) are total
functions updated pointwise. -/

/-- Environment of the topology-aware strategies. `avail i` is the static
`avail_res_array[i]->avail_cpus` read, `present i` whether the record is
non-NULL. -/
structure TEnv where
  n : ℕ
  weight : ℕ → ℕ
  avail : ℕ → ℕ
  present : ℕ → Bool
  sc : ℕ → ℤ → ℕ
  ctu : ℕ → ℤ → ℤ → ℕ → ℕ
  gres_per_job : Bool
  gres_add : ℕ → ℕ → ℕ
  gres_test : Bool
  gres_sufficient : List ℕ → Bool
  gres_node_sufficient : ℕ → Bool

/-- Bookkeeping state of a topology-aware strategy run.  `total_cpus` is
consulted by consec only. -/
structure TSt where
  node_map : Finset ℕ
  rem_cpus : ℤ
  rem_nodes : ℤ
  min_rem_nodes : ℤ
  max_nodes : ℕ
  rem_max_cpus : ℤ
  total_cpus : ℤ
  avail_cpu_per_node : ℕ → ℕ

/-- Ascending member list of a bitmap below the node-table bound, the
order `next_node_bitmap` iterates. -/
def bm_list (n : ℕ) (bm : Finset ℕ) : List ℕ :=
  (List.range n).filter (fun i => i ∈ bm)

/-- `eval_nodes_enough_nodes` (lines 3571-3581). -/
def eval_nodes_enough_nodes (avail_nodes rem_nodes : ℤ)
    (min_nodes req_nodes : ℕ) : Bool :=
  let needed : ℤ :=
    if (min_nodes : ℤ) < (req_nodes : ℤ) then
      rem_nodes + (min_nodes : ℤ) - (req_nodes : ℤ)
    else rem_nodes
  decide (needed ≤ avail_nodes)

/-- The per-job fields consulted only by the consec strategy. -/
structure ConsecExtras where
  arbitrary_tpn : Option (List ℕ)
  cpus_per_task : Option ℕ
  pn_min_cpus : ℕ

/-- One record of the consec strategy's table of consecutive-node sets
(lines 869-908): CPU and node counters, index range, first required index
(`-1` ≡ `none`), weight (`NO_VAL64` ≡ `none`), GRES bucket. -/
structure ConsecRun where
  cpus : ℤ
  nodes : ℕ
  start : ℕ
  stop : ℕ
  req : Option ℕ
  weight : Option ℕ
  gres : List ℕ
deriving DecidableEq

/-- `uint64_t` comparison with `NO_VAL64` as the sentinel maximum. -/
def wlt : Option ℕ → Option ℕ → Bool
  | none, _ => false
  | some _, none => true
  | some a, some b => a < b

/-- Entry bookkeeping of `_eval_nodes_consec` (lines 915-923): no
`num_tasks` clamp; `rem_nodes` MIN/MAX on the GRES flag. -/
def consec_entry (tenv : TEnv) (details : JobDetails)
    (min_nodes req_nodes max_nodes : ℕ) (node_map : Finset ℕ) : TSt :=
  let rem_nodes : ℕ :=
    if tenv.gres_per_job then min min_nodes req_nodes
    else max min_nodes req_nodes
  { node_map := node_map
    rem_cpus := details.min_cpus
    rem_nodes := rem_nodes
    min_rem_nodes := min_nodes
    max_nodes := max_nodes
    rem_max_cpus := eval_nodes_get_rem_max_cpus details rem_nodes
    total_cpus := 0
    avail_cpu_per_node := fun _ => 0 }

/-- The consec required-node loop (lines 929-984): walk the required bits
while `max_nodes` lasts; under `arbitrary_tpn` replace the probe by the
per-node task-count demand (failing when the probe cannot cover it),
otherwise clamp through `cpus_to_use`; apply `gres_sched_add`; fail on a
zero result; charge the remainders and record `avail_cpu_per_node`.
Exhausting `max_nodes` exits the loop silently.  `count` is the
`arbitrary_tpn` cursor. -/
def consec_required_loop (tenv : TEnv) (details : JobDetails)
    (ce : ConsecExtras) :
    List ℕ → ℕ → TSt → Except TSt TSt
  | [], _, st => .ok st
  | i :: rest, count, st =>
    if st.max_nodes = 0 then .ok st
    else
      let a := tenv.sc i st.min_rem_nodes
      match ce.arbitrary_tpn with
      | some tpn =>
        let req_cpus0 := tpn.getD count 0
        let req_cpus1 :=
          match ce.cpus_per_task with
          | some cpt => if cpt ≠ 0 then req_cpus0 * cpt else req_cpus0
          | none => req_cpus0
        let req_cpus := max (max req_cpus1 ce.pn_min_cpus) details.min_gres_cpu
        if a < req_cpus then .error st
        else
          let avail := if tenv.gres_per_job then tenv.gres_add i req_cpus
            else req_cpus
          if avail = 0 then .error st
          else
            consec_required_loop tenv details ce rest (count + 1)
              { st with
                avail_cpu_per_node := Function.update st.avail_cpu_per_node i avail
                total_cpus := st.total_cpus + avail
                rem_cpus := st.rem_cpus - avail
                rem_max_cpus := st.rem_max_cpus - avail
                rem_nodes := st.rem_nodes - 1
                min_rem_nodes := st.min_rem_nodes - 1
                max_nodes := dec_u32 st.max_nodes }
      | none =>
        let a2 := tenv.ctu i st.rem_max_cpus st.min_rem_nodes a
        let avail := if tenv.gres_per_job then tenv.gres_add i a2 else a2
        if avail = 0 then .error st
        else
          consec_required_loop tenv details ce rest count
            { st with
              avail_cpu_per_node := Function.update st.avail_cpu_per_node i avail
              total_cpus := st.total_cpus + avail
              rem_cpus := st.rem_cpus - avail
              rem_max_cpus := st.rem_max_cpus - avail
              rem_nodes := st.rem_nodes - 1
              min_rem_nodes := st.min_rem_nodes - 1
              max_nodes := dec_u32 st.max_nodes }

/-- Whether the consec build treats node `i` as required (line 1012-1015). -/
def consec_required_node (req : Option (Finset ℕ)) (i : ℕ) : Bool :=
  match req with
  | some r => decide (i ∈ r)
  | none => false

/-- The `node_ptr` classification and availability probe of the consec
build (lines 1016-1028): absent candidates yield no node; required ones
keep their recorded availability; others are probed, a zero probe clearing
the candidate bit, and the probe recorded either way (line 1027). -/
def consec_probe (tenv : TEnv) (required_node : Bool) (i : ℕ) (st : TSt) :
    Bool × TSt :=
  if i ∉ st.node_map then (false, st)
  else if required_node then (true, st)
  else
    let a := tenv.sc i st.min_rem_nodes
    let st :=
      { st with
        avail_cpu_per_node := Function.update st.avail_cpu_per_node i a }
    if a = 0 then (false, { st with node_map := st.node_map.erase i })
    else (true, st)

/-- The weight-change run split of the consec build (lines 1033-1046): an
empty current run is reused with its anchor reset; otherwise the run is
closed at `i - 1` and the fresh slot starts with a calloc-zero weight. -/
def consec_wsplit (tenv : TEnv) (contiguous : Bool) (i : ℕ)
    (node_present : Bool) (runs : List ConsecRun) (cur : ConsecRun) :
    List ConsecRun × ConsecRun :=
  if node_present = true ∧ contiguous = false ∧ cur.weight ≠ none ∧
      some (tenv.weight i) ≠ cur.weight then
    if cur.nodes = 0 then (runs, { cur with req := none })
    else (runs ++ [{ cur with stop := i - 1 }],
      (⟨0, 0, 0, 0, none, some 0, []⟩ : ConsecRun))
  else (runs, cur)

/-- One step of the consec table build (the body of lines 998-1082):
classify node `i`, split the current run on a weight change or a gap, add
the node (required nodes keep their bit and only anchor `req`; others are
cleared from the map and counted), and return the updated runs, current
run and state. -/
def consec_build_step (tenv : TEnv) (contiguous : Bool)
    (req : Option (Finset ℕ)) (i : ℕ) :
    List ConsecRun × ConsecRun × TSt → List ConsecRun × ConsecRun × TSt :=
  fun (runs, cur, st) =>
    let required_node := consec_required_node req i
    let pr := consec_probe tenv required_node i st
    let node_present := pr.1
    let st := pr.2
    let sp := consec_wsplit tenv contiguous i node_present runs cur
    let runs := sp.1
    let cur := sp.2
    if node_present then
      let cur := if cur.nodes = 0 then { cur with start := i } else cur
      if required_node then
        (runs, (if cur.req = none then { cur with req := some i } else cur), st)
      else
        let a := st.avail_cpu_per_node i
        (runs,
          { cur with
            cpus := cur.cpus + a
            nodes := cur.nodes + 1
            gres := if tenv.gres_per_job then cur.gres ++ [i] else cur.gres
            weight := some (tenv.weight i) },
          { st with node_map := st.node_map.erase i })
    else if cur.nodes = 0 then
      (runs, { cur with req := none, weight := none }, st)
    else
      (runs ++ [{ cur with stop := i - 1 }],
        (⟨0, 0, 0, 0, none, none, []⟩ : ConsecRun), st)

/-- The consec table build (lines 998-1085): fold the step over all node
indices, then close a non-empty current run at `n - 1`. -/
def consec_build (tenv : TEnv) (contiguous : Bool) (req : Option (Finset ℕ))
    (st : TSt) : List ConsecRun × TSt :=
  let r := (List.range tenv.n).foldl
    (fun acc i => consec_build_step tenv contiguous req i acc)
    ([], (⟨0, 0, 0, 0, none, none, []⟩ : ConsecRun), st)
  if r.2.1.nodes ≠ 0 then
    (r.1 ++ [{ r.2.1 with stop := tenv.n - 1 }], r.2.2)
  else (r.1, r.2.2)

/-- The best-fit tracking variables of the consec selection loop
(lines 884-887); `weight` is `best_weight`, which — like `index` — persists
across iterations of the outer while loop, while `cpus`, `nodes`, `req`
and `suff` are reset each iteration (lines 1129-1130). -/
structure BestFit where
  cpus : ℤ
  nodes : ℕ
  index : ℕ
  req : Option ℕ
  suff : Bool
  weight : Option ℕ
deriving DecidableEq

/-- One pass of the consec best-fit scan (lines 1131-1204): skip empty
runs and, under contiguous+required, runs without a required anchor; compute
sufficiency; take a new best on first fit, first required anchor, lower
weight, or the equal-weight refinements; under contiguous+required abort
with `nodes = 0` while a later run still has a required anchor. -/
def consec_scan (tenv : TEnv) (mn rn : ℕ) (contiguous has_req : Bool)
    (rem_cpus rem_nodes : ℤ) :
    List ConsecRun → ℕ → BestFit → BestFit
  | [], _, b => b
  | run :: rest, i, b =>
    if run.nodes = 0 then
      consec_scan tenv mn rn contiguous has_req rem_cpus rem_nodes rest (i + 1) b
    else if contiguous ∧ has_req ∧ run.req = none then
      consec_scan tenv mn rn contiguous has_req rem_cpus rem_nodes rest (i + 1) b
    else
      let suff0 := rem_cpus ≤ run.cpus ∧
        eval_nodes_enough_nodes run.nodes rem_nodes mn rn = true
      let suff : Bool :=
        if suff0 ∧ tenv.gres_per_job then tenv.gres_sufficient run.gres
        else decide suff0
      let nb : Bool :=
        (b.nodes = 0 ∨ (b.req = none ∧ run.req ≠ none) ∨
          wlt run.weight b.weight = true) ∨
        (run.weight = b.weight ∧
          ((suff = true ∧ b.suff = false) ∨
           (suff = true ∧ run.cpus < b.cpus) ∨
           (suff = false ∧ b.cpus < run.cpus))) ∨
        (b.suff = false ∧ contiguous ∧ suff = true)
      let b' := if nb then
          (⟨run.cpus, run.nodes, i, run.req, suff, run.weight⟩ : BestFit)
        else b
      if contiguous ∧ has_req ∧ rest.any (fun r2 => r2.req ≠ none) then
        { b' with nodes := 0 }
      else consec_scan tenv mn rn contiguous has_req rem_cpus rem_nodes rest (i + 1) b'

/-- The counter charging of one admission without the bit set
(the req2 loops, lines 1745-1749 and 3021-3025). -/
def t_charge_only (st : TSt) (avail : ℕ) : TSt :=
  { st with
    rem_nodes := st.rem_nodes - 1
    min_rem_nodes := st.min_rem_nodes - 1
    max_nodes := dec_u32 st.max_nodes
    rem_cpus := st.rem_cpus - (avail : ℤ)
    rem_max_cpus := st.rem_max_cpus - (avail : ℤ) }

/-- The counter charging and bit set of one admission (the shared
`rem_nodes--; ...; bit_set(node_map, j)` block of the topology-aware
admission walks). -/
def t_charge (st : TSt) (j avail : ℕ) : TSt :=
  { t_charge_only st avail with node_map := insert j st.node_map }

/-- The consec admission additionally accumulates `total_cpus`
(line 1248/1286/1375). -/
def consec_charge (st : TSt) (j avail : ℕ) : TSt :=
  { t_charge st j avail with total_cpus := st.total_cpus + (avail : ℤ) }

/-- The admission body shared by the consec upward and downward walks from
the required anchor (lines 1216-1293): stop on exhausted `max_nodes` or
satisfied demand, skip selected nodes and zero availability entries,
otherwise clamp, add GRES, charge and set the bit. -/
def consec_admit_updown (tenv : TEnv) : List ℕ → TSt → TSt
  | [], st => st
  | i :: rest, st =>
    if st.max_nodes = 0 ∨
        (st.rem_nodes ≤ 0 ∧ st.rem_cpus ≤ 0 ∧
          (tenv.gres_per_job = false ∨ tenv.gres_test = true)) then st
    else if i ∈ st.node_map then consec_admit_updown tenv rest st
    else if st.avail_cpu_per_node i = 0 then consec_admit_updown tenv rest st
    else
      let a := tenv.ctu i st.rem_max_cpus st.min_rem_nodes (st.avail_cpu_per_node i)
      let avail := if tenv.gres_per_job then tenv.gres_add i a else a
      consec_admit_updown tenv rest (consec_charge st i avail)

/-- The consec single-best-node pre-scan (lines 1300-1321): among
unselected present nodes of the run whose recorded availability covers
`rem_cpus` (and GRES suffices), keep the smallest availability, stopping
early on an exact fit. -/
def consec_single_scan (tenv : TEnv) (st : TSt) :
    List ℕ → Option (ℕ × ℕ) → Option (ℕ × ℕ)
  | [], b => b
  | i :: rest, b =>
    if i ∈ st.node_map ∨ tenv.present i = false then
      consec_single_scan tenv st rest b
    else if (st.avail_cpu_per_node i : ℤ) < st.rem_cpus then
      consec_single_scan tenv st rest b
    else if tenv.gres_per_job = true ∧ tenv.gres_node_sufficient i = false then
      consec_single_scan tenv st rest b
    else
      let take :=
        match b with
        | none => true
        | some (_, bs) => st.avail_cpu_per_node i < bs
      if take then
        if (st.avail_cpu_per_node i : ℤ) = st.rem_cpus then
          some (i, st.avail_cpu_per_node i)
        else consec_single_scan tenv st rest (some (i, st.avail_cpu_per_node i))
      else consec_single_scan tenv st rest b

/-- The consec no-required admission walk (lines 1335-1382): same stops as
the anchored walks, additionally skipping nodes with no availability
record, zero recorded availability, or too few CPUs when only one more
node may be taken. -/
def consec_admit_noreq (tenv : TEnv) : List ℕ → TSt → TSt
  | [], st => st
  | i :: rest, st =>
    if st.max_nodes = 0 ∨
        (st.rem_nodes ≤ 0 ∧ st.rem_cpus ≤ 0 ∧
          (tenv.gres_per_job = false ∨ tenv.gres_test = true)) then st
    else if i ∈ st.node_map ∨ tenv.present i = false then
      consec_admit_noreq tenv rest st
    else if st.avail_cpu_per_node i = 0 then consec_admit_noreq tenv rest st
    else if st.max_nodes = 1 ∧ (st.avail_cpu_per_node i : ℤ) < st.rem_cpus then
      consec_admit_noreq tenv rest st
    else
      let a := tenv.ctu i st.rem_max_cpus st.min_rem_nodes (st.avail_cpu_per_node i)
      let avail := if tenv.gres_per_job then tenv.gres_add i a else a
      consec_admit_noreq tenv rest (consec_charge st i avail)

/-- The admission taken for the selected best run (lines 1210-1383): walk
up then down from the required anchor when there is one; otherwise run the
single-node pre-scan (zeroing all other availability entries of the run on
a hit) and admit left to right. -/
def consec_admit_run (tenv : TEnv) (b : BestFit) (run : ConsecRun) (st : TSt) : TSt :=
  match b.req with
  | some r =>
    let st1 := consec_admit_updown tenv (List.range' r (run.stop + 1 - r)) st
    consec_admit_updown tenv ((List.range' run.start (r - run.start)).reverse) st1
  | none =>
    let first := run.start
    let last := run.stop
    let idx := List.range' first (last + 1 - first)
    let st :=
      if st.rem_nodes ≤ 1 then
        match consec_single_scan tenv st idx none with
        | some (bf, _) =>
          { st with
            avail_cpu_per_node := fun j =>
              if first ≤ j ∧ j ≤ last ∧ j ≠ bf then 0
              else st.avail_cpu_per_node j }
        | none => st
      else st
    consec_admit_noreq tenv idx st

/-- The consec accumulation loop (lines 1128-1392).  `fuel` bounds the
iterations exactly as the source terminates: every iteration that neither
breaks nor succeeds zeroes the node count of the run it consumed
(lines 1390-1391), so at most `runs.length` productive iterations occur
and `runs.length + 1` fuel is never exhausted. -/
def consec_best_fit_loop (tenv : TEnv) (mn rn : ℕ) (contiguous has_req : Bool) :
    ℕ → List ConsecRun → BestFit → TSt → Bool × TSt
  | 0, _, _, st => (false, st)
  | fuel + 1, runs, prev, st =>
    if runs.length = 0 ∨ st.max_nodes = 0 then (false, st)
    else
      let b := consec_scan tenv mn rn contiguous has_req st.rem_cpus st.rem_nodes
        runs 0 { prev with cpus := 0, nodes := 0, suff := false, req := none }
      if b.nodes = 0 then (false, st)
      else if contiguous ∧ b.suff = false then (false, st)
      else
        let run := runs.getD b.index ⟨0, 0, 0, 0, none, none, []⟩
        let st := consec_admit_run tenv b run st
        if st.rem_nodes ≤ 0 ∧ st.rem_cpus ≤ 0 ∧ tenv.gres_test = true then
          (true, st)
        else
          consec_best_fit_loop tenv mn rn contiguous has_req fuel
            (runs.set b.index { run with cpus := 0, nodes := 0 }) b st

/-- `_eval_nodes_consec` from the table build on (lines 998-1397): build
the run table, reject when the required nodes already exceed the job CPU
ceiling, accumulate, and apply the zero-extra-nodes fallback success. -/
def consec_rest (tenv : TEnv) (details : JobDetails) (contiguous : Bool)
    (req : Option (Finset ℕ)) (mn rn : ℕ) (st : TSt) : Bool × TSt :=
  let br := consec_build tenv contiguous req st
  let runs := br.1
  let st := br.2
  if over_max_cpus details st.total_cpus then (false, st)
  else
    let r := consec_best_fit_loop tenv mn rn contiguous req.isSome
      (runs.length + 1) runs ⟨0, 0, 0, none, false, some 0⟩ st
    if r.1 then r
    else if r.2.rem_cpus ≤ 0 ∧ tenv.gres_test = true ∧
        eval_nodes_enough_nodes 0 r.2.rem_nodes mn rn = true then
      (true, r.2)
    else (false, r.2)

/-- `_eval_nodes_consec` (lines 866-1413): entry bookkeeping, the
required-node loop with its early success `bit_and(node_map, req_map)`
and its `max_nodes` error, then the table build and accumulation. -/
def eval_nodes_consec (tenv : TEnv) (details : JobDetails) (ce : ConsecExtras)
    (contiguous : Bool) (min_nodes req_nodes max_nodes : ℕ)
    (node_map : Finset ℕ) : Bool × TSt :=
  let st0 := consec_entry tenv details min_nodes req_nodes max_nodes node_map
  match details.req_node_bitmap with
  | some req =>
    match consec_required_loop tenv details ce (bm_list tenv.n req) 0 st0 with
    | .error st => (false, st)
    | .ok st =>
      if st.rem_nodes ≤ 0 ∧ st.rem_cpus ≤ 0 ∧ tenv.gres_test = true then
        (true, { st with node_map := st.node_map ∩ req })
      else if st.max_nodes = 0 then (false, st)
      else consec_rest tenv details contiguous (some req) min_nodes req_nodes st
  | none => consec_rest tenv details contiguous none min_nodes req_nodes st0

/-! ### The dfly strategy -/

/-- One `switch_record_t` as consulted here: its level (0 = leaf), its
static node bitmap, its parent index (self at a root) and its distance row
`switches_dist` (with `INFINITE` written out as the `uint32_t` value). -/
structure SwitchCfg where
  level : ℕ
  nodes : Finset ℕ
  parent : ℕ
  dist : ℕ → ℕ

/-- `INFINITE` (`0xFFFFFFFF`). -/
def INFINITE : ℕ := 4294967295

/-- `node_weight_list` as built by dfly (lines 1541-1552) and topo
(2773-2785) over the current candidate map, then sorted by weight
(`eval_nodes_topo_weight_sort`): one `(weight, member bitmap)` pair per
distinct weight, ascending. -/
def topo_weight_tiers (tenv : TEnv) (bm : Finset ℕ) : List (ℕ × Finset ℕ) :=
  let members := bm_list tenv.n bm
  let ws := (members.map tenv.weight).dedup
  (List.insertionSort (· ≤ ·) ws).map
    (fun w => (w, bm.filter (fun i => tenv.weight i = w)))

/-- Outcome of an admission walk that can latch success or error mid-walk
(the shared `rc = SLURM_SUCCESS/ERROR; goto fini` exits). -/
inductive TOut where
  | success (st : TSt)
  | error (st : TSt)
  | cont (st : TSt)

/-- The state carried by a `TOut`. -/
def TOut.st : TOut → TSt
  | .success st => st
  | .error st => st
  | .cont st => st

/-- Entry bookkeeping shared by dfly (lines 1468-1474) and topo
(2699-2705). -/
def topo_entry (tenv : TEnv) (details : JobDetails)
    (min_nodes req_nodes max_nodes : ℕ) (node_map : Finset ℕ) : TSt :=
  let rem_nodes : ℕ :=
    if tenv.gres_per_job then min min_nodes req_nodes
    else max min_nodes req_nodes
  { node_map := node_map
    rem_cpus := details.min_cpus
    rem_nodes := rem_nodes
    min_rem_nodes := min_nodes
    max_nodes := max_nodes
    rem_max_cpus := eval_nodes_get_rem_max_cpus details rem_nodes
    total_cpus := 0
    avail_cpu_per_node := fun _ => 0 }

/-- The required-node admission embedded in the weight-list build loop of
dfly (lines 1515-1539): probe, clamp, add GRES, fail on zero, charge the
counters and record the availability; `node_map` is not modified. -/
def dfly_req_adm (tenv : TEnv) : List ℕ → TSt → Except TSt TSt
  | [], st => .ok st
  | i :: rest, st =>
    let a := tenv.sc i st.min_rem_nodes
    let a2 := tenv.ctu i st.rem_max_cpus st.min_rem_nodes a
    let avail := if tenv.gres_per_job then tenv.gres_add i a2 else a2
    if avail = 0 then .error st
    else
      dfly_req_adm tenv rest
        { st with
          avail_cpu_per_node := Function.update st.avail_cpu_per_node i avail
          rem_nodes := st.rem_nodes - 1
          min_rem_nodes := st.min_rem_nodes - 1
          max_nodes := dec_u32 st.max_nodes
          rem_cpus := st.rem_cpus - avail
          rem_max_cpus := st.rem_max_cpus - avail }

/-- The switch classification loop of dfly (lines 1587-1614): mark
switches holding required nodes (counting required leaves) and elect the
highest-level marked switch; without required nodes a switch qualifies
when any weight tier overlaps it. -/
def dfly_top_switch (req : Option (Finset ℕ)) (tiers : List (ℕ × Finset ℕ)) :
    List SwitchCfg → ℕ → (List Bool × ℕ × Option (ℕ × ℕ)) →
    List Bool × ℕ × Option (ℕ × ℕ)
  | [], _, acc => acc
  | s :: rest, i, (swreq, leaf_cnt, top) =>
    let hit : Bool :=
      match req with
      | some r => decide (r ∩ s.nodes ≠ ∅)
      | none => false
    let qual : Bool :=
      match req with
      | none => tiers.any (fun t => decide (t.2 ∩ s.nodes ≠ ∅))
      | some _ => false
    let leaf_cnt := if hit = true ∧ s.level = 0 then leaf_cnt + 1 else leaf_cnt
    let top :=
      if hit = true ∨ qual = true then
        match top with
        | none => some (i, s.level)
        | some (_, tl) => if tl < s.level then some (i, s.level) else top
      else top
    dfly_top_switch req tiers rest (i + 1) (swreq ++ [hit], leaf_cnt, top)

/-- One weight tier of the dfly best-nodes accumulation (the inner loop of
lines 1671-1690): skip required nodes (nonzero recorded availability) and
nodes outside the top switch, drop zero probes, otherwise record the node
into `best_nodes_bitmap`, its availability, the running CPU/node counts
and the GRES bucket.  The source also clears zero-probe bits from the tier
bitmap; dfly never reads the tier bitmaps again, so that write is not
carried. -/
def dfly_accum_tier (tenv : TEnv) (top_bm : Finset ℕ) :
    List ℕ → TSt × Finset ℕ × ℤ × ℕ × List ℕ → TSt × Finset ℕ × ℤ × ℕ × List ℕ
  | [], acc => acc
  | i :: rest, (st, best, cpu, cnt, bucket) =>
    if st.avail_cpu_per_node i ≠ 0 then
      dfly_accum_tier tenv top_bm rest (st, best, cpu, cnt, bucket)
    else if i ∉ top_bm then
      dfly_accum_tier tenv top_bm rest (st, best, cpu, cnt, bucket)
    else
      let a := tenv.sc i st.min_rem_nodes
      if a = 0 then dfly_accum_tier tenv top_bm rest (st, best, cpu, cnt, bucket)
      else
        dfly_accum_tier tenv top_bm rest
          ({ st with
             avail_cpu_per_node := Function.update st.avail_cpu_per_node i a },
           insert i best, cpu + a, cnt + 1,
           if tenv.gres_per_job then bucket ++ [i] else bucket)

/-- The dfly best-nodes loop over weight tiers (lines 1657-1699): before
each further tier fold the previous best set into `req2_nodes_bitmap`,
accumulate the tier, and latch sufficiency. -/
def dfly_accum (tenv : TEnv) (mn rn : ℕ) (rem_cpus rem_nodes : ℤ)
    (top_bm : Finset ℕ) :
    List (ℕ × Finset ℕ) →
    TSt × Finset ℕ × Option (Finset ℕ) × ℤ × ℕ × List ℕ × Bool →
    TSt × Finset ℕ × Option (Finset ℕ) × ℤ × ℕ × List ℕ × Bool
  | [], acc => acc
  | (_, bm) :: rest, (st, best, req2, cpu, cnt, bucket, suff) =>
    if suff then (st, best, req2, cpu, cnt, bucket, suff)
    else
      let req2 := if 0 < cnt then some ((req2.getD ∅) ∪ best) else req2
      let r := dfly_accum_tier tenv top_bm (bm_list tenv.n bm)
        (st, best, cpu, cnt, bucket)
      let suff0 := rem_cpus ≤ r.2.2.1 ∧
        eval_nodes_enough_nodes r.2.2.2.1 rem_nodes mn rn = true
      let suff : Bool :=
        if suff0 ∧ tenv.gres_per_job then tenv.gres_sufficient r.2.2.2.2
        else decide suff0
      dfly_accum tenv mn rn rem_cpus rem_nodes top_bm rest
        (r.1, r.2.1, req2, r.2.2.1, r.2.2.2.1, r.2.2.2.2, suff)

/-- The req2 charging loop of dfly (lines 1733-1750): while `max_nodes`
lasts, clamp the recorded availability, add GRES and charge the counters;
the bits themselves join `node_map` afterwards in one `bit_or`. -/
def dfly_req2_charge (tenv : TEnv) : List ℕ → TSt → TSt
  | [], st => st
  | i :: rest, st =>
    if st.max_nodes = 0 then st
    else
      let a := tenv.ctu i st.rem_max_cpus st.min_rem_nodes
        (st.avail_cpu_per_node i)
      let avail := if tenv.gres_per_job then tenv.gres_add i a else a
      dfly_req2_charge tenv rest (t_charge_only st avail)

/-- Switch marking after req2 admission (lines 1752-1763): mark every
yet-unmarked switch overlapping `req2`, counting new marked leaves. -/
def dfly_mark_req2 (req2 : Finset ℕ) (sw : List SwitchCfg)
    (swb : List (Finset ℕ)) (swreq : List Bool) (leaf_cnt : ℕ) :
    List Bool × ℕ :=
  let idx := List.range sw.length
  idx.foldl
    (fun (acc : List Bool × ℕ) i =>
      if acc.1.getD i false then acc
      else if req2 ∩ swb.getD i ∅ ≠ ∅ then
        (acc.1.set i true,
         if (sw.getD i ⟨0, ∅, 0, fun _ => 0⟩).level = 0 then acc.2 + 1
         else acc.2)
      else acc)
    (swreq, leaf_cnt)

/-- The sufficiency census of the single-leaf completion (lines 1845-1869):
over the first marked leaf switch, total the recorded availability of
yet-unselected nodes. -/
def dfly_leaf_census (tenv : TEnv) (st : TSt) :
    List ℕ → ℤ × ℕ × List ℕ → ℤ × ℕ × List ℕ
  | [], acc => acc
  | j :: rest, (cpu, cnt, bucket) =>
    if j ∈ st.node_map ∨ st.avail_cpu_per_node j = 0 then
      dfly_leaf_census tenv st rest (cpu, cnt, bucket)
    else
      dfly_leaf_census tenv st rest
        (cpu + st.avail_cpu_per_node j, cnt + 1,
         if tenv.gres_per_job then bucket ++ [j] else bucket)

/-- The admission walk of the single-leaf completion (lines 1879-1914) and
of one switch of the round-robin loop (lines 1931-1967, which breaks to
the next switch after one admission — `rr` true): clamp (the source passes
the switch loop index `i`, not the node, to `eval_nodes_cpus_to_use`; kept
as is), add GRES, charge, set the bit, then latch success or the
`max_nodes` error. -/
def dfly_leaf_adm (tenv : TEnv) (i : ℕ) (rr : Bool) : List ℕ → TSt → TOut
  | [], st => .cont st
  | j :: rest, st =>
    if j ∈ st.node_map ∨ st.avail_cpu_per_node j = 0 then
      dfly_leaf_adm tenv i rr rest st
    else
      let a := tenv.ctu i st.rem_max_cpus st.min_rem_nodes
        (st.avail_cpu_per_node j)
      let avail := if tenv.gres_per_job then tenv.gres_add j a else a
      let st := t_charge st j avail
      if st.rem_nodes ≤ 0 ∧ st.rem_cpus ≤ 0 ∧
          (tenv.gres_per_job = false ∨ tenv.gres_test = true) then
        .success st
      else if st.max_nodes = 0 then .error st
      else if rr then .cont st
      else dfly_leaf_adm tenv i rr rest st

/-- One pass of the dfly round-robin loop (lines 1927-1968): per leaf
switch, admit the first admissible node. -/
def dfly_rr_pass (tenv : TEnv) (n : ℕ) :
    List (ℕ × ℕ × Finset ℕ) → TSt → TOut
  | [], st => .cont st
  | (i, lvl, bm) :: rest, st =>
    if lvl ≠ 0 then dfly_rr_pass tenv n rest st
    else
      match dfly_leaf_adm tenv i true (bm_list n bm) st with
      | .success st => .success st
      | .error st => .error st
      | .cont st => dfly_rr_pass tenv n rest st

/-- The dfly round-robin loop (lines 1922-1969), stalling when a full pass
changes no `rem_nodes`.  Each productive pass admits at least one fresh
node out of the switch bitmaps, so total switch-bitmap cardinality plus
one bounds the passes and the fuel is never exhausted. -/
def dfly_rr_loop (tenv : TEnv) (swl : List (ℕ × ℕ × Finset ℕ)) :
    ℕ → ℤ → TSt → TOut
  | 0, _, st => .cont st
  | fuel + 1, prev, st =>
    if prev = st.rem_nodes then .cont st
    else
      match dfly_rr_pass tenv tenv.n swl st with
      | .success st' => .success st'
      | .error st' => .error st'
      | .cont st' => dfly_rr_loop tenv swl fuel st.rem_nodes st'

/-- The dfly req2 admission block (lines 1732-1780): charge, mark
switches, fold the bits into the map, and report the `max_nodes` error or
anomaly success (`none` = fall through). -/
def dfly_after_req2 (tenv : TEnv) (sw : List SwitchCfg)
    (swb1 : List (Finset ℕ)) (swreq0 : List Bool) (leaf0 : ℕ)
    (req2 : Option (Finset ℕ)) (st : TSt) :
    Option Bool × TSt × List Bool × ℕ :=
  match req2 with
  | some r2 =>
    let st := dfly_req2_charge tenv (bm_list tenv.n r2) st
    let mk := dfly_mark_req2 r2 sw swb1 swreq0 leaf0
    let st := { st with node_map := st.node_map ∪ r2 }
    if st.max_nodes = 0 then (some false, st, mk.1, mk.2)
    else if st.rem_nodes ≤ 0 ∧ st.rem_cpus ≤ 0 ∧
        (tenv.gres_per_job = false ∨ tenv.gres_test = true) then
      (some true, st, mk.1, mk.2)
    else (none, st, mk.1, mk.2)
  | none => (none, st, swreq0, leaf0)

/-- The lone-leaf election (lines 1824-1838). -/
def dfly_elect (sw : List SwitchCfg) (swb : List (Finset ℕ))
    (swreq : List Bool) (leaf_cnt : ℕ) : List Bool × ℕ :=
  if leaf_cnt = 0 then
    let pick := (List.range sw.length).foldl
      (fun (b : Option ℕ) i =>
        if (sw.getD i ⟨0, ∅, 0, fun _ => 0⟩).level ≠ 0 then b
        else
          match b with
          | none => some i
          | some bi =>
            if (swb.getD bi ∅).card < (swb.getD i ∅).card then some i
            else b)
      none
    match pick with
    | some bi => (swreq.set bi true, 1)
    | none => (swreq, leaf_cnt)
  else (swreq, leaf_cnt)

/-- The single-leaf completion (lines 1844-1916): census the first marked
leaf, and on sufficiency admit its nodes. -/
def dfly_one_leaf (tenv : TEnv) (sw : List SwitchCfg) (mn rn : ℕ)
    (swreq : List Bool) (swb : List (Finset ℕ)) (leaf_cnt : ℕ)
    (st : TSt) : TOut :=
  if leaf_cnt = 1 then
    let found := (List.range sw.length).find?
      (fun i => swreq.getD i false ∧
        (sw.getD i ⟨0, ∅, 0, fun _ => 0⟩).level = 0)
    match found with
    | some i =>
      let census := dfly_leaf_census tenv st
        (bm_list tenv.n (swb.getD i ∅)) (0, 0, [])
      let suff0 := st.rem_cpus ≤ census.1 ∧
        eval_nodes_enough_nodes census.2.1 st.rem_nodes mn rn = true
      let suffL : Bool :=
        if suff0 ∧ tenv.gres_per_job then tenv.gres_sufficient census.2.2
        else decide suff0
      if suffL then
        dfly_leaf_adm tenv i false (bm_list tenv.n (swb.getD i ∅)) st
      else .cont st
    | none => .cont st
  else .cont st

/-- The dfly round-robin stage (lines 1922-1969) with its fuel. -/
def dfly_rr (tenv : TEnv) (sw : List SwitchCfg) (swb : List (Finset ℕ))
    (st : TSt) : TOut :=
  let swl := (List.range sw.length).map
    (fun i => (i, (sw.getD i ⟨0, ∅, 0, fun _ => 0⟩).level, swb.getD i ∅))
  let fuel := (swb.foldl (fun a b => a + b.card) 0) + 1
  dfly_rr_loop tenv swl fuel (st.rem_nodes + 1) st

/-- The closing stages of the dfly core: the single-leaf completion, the
round-robin loop and the final verdict (lines 1844-1976). -/
def dfly_tail (tenv : TEnv) (sw : List SwitchCfg) (mn rn : ℕ)
    (swb : List (Finset ℕ)) (el : List Bool × ℕ) (st : TSt) : Bool × TSt :=
  match dfly_one_leaf tenv sw mn rn el.1 swb el.2 st with
  | .success st => (true, st)
  | .error st => (false, st)
  | .cont st =>
    match dfly_rr tenv sw swb st with
    | .success st => (true, st)
    | .error st => (false, st)
    | .cont st =>
      if st.min_rem_nodes ≤ 0 ∧ st.rem_cpus ≤ 0 ∧
          (tenv.gres_per_job = false ∨ tenv.gres_test = true) then
        (true, st)
      else (false, st)

/-- The tail of `_eval_nodes_dfly` after the top switch is fixed
(lines 1642-1976): restrict switches to the top subtree, accumulate best
nodes, admit req2, restrict switches to the best set, check required
coverage, elect a lone leaf if none is marked, try the single-leaf
completion, round-robin, and take the final verdict.  Returns the verdict,
the state and the switch bitmaps current at the exit (for the fini
epilogue). -/
def dfly_core (tenv : TEnv) (sw : List SwitchCfg) (req : Option (Finset ℕ))
    (mn rn : ℕ) (top : ℕ) (swreq0 : List Bool) (leaf0 : ℕ)
    (tiers : List (ℕ × Finset ℕ)) (st : TSt) :
    Bool × TSt × List (Finset ℕ) :=
  let swb0 := sw.map (fun s => s.nodes)
  let top_bm := swb0.getD top ∅
  -- lines 1642-1647: everything outside the top subtree drops out
  let swb1 := (List.range sw.length).map
    (fun i => if i = top then swb0.getD i ∅ else swb0.getD i ∅ ∩ top_bm)
  let acc := dfly_accum tenv mn rn st.rem_cpus st.rem_nodes top_bm tiers
    (st, ∅, none, 0, 0, [], false)
  if acc.2.2.2.2.2.2 = false then (false, acc.1, swb1)
  else
    let ar := dfly_after_req2 tenv sw swb1 swreq0 leaf0 acc.2.2.1 acc.1
    match ar.1 with
    | some v => (v, ar.2.1, swb1)
    | none =>
      let st := ar.2.1
      -- lines 1786-1793
      let best := acc.2.1 ∪ st.node_map
      let swb := swb1.map (fun b => b ∩ best)
      let avail_all := swb.foldl (fun a b => a ∪ b) ∅
      let req_ok :=
        match req with
        | some r => decide (r ⊆ avail_all)
        | none => true
      if req_ok = false then (false, st, swb)
      else
        let t := dfly_tail tenv sw mn rn swb
          (dfly_elect sw swb ar.2.2.1 ar.2.2.2) st
        (t.1, t.2, swb)

/-- The dfly verdicts taken right after required-node admission
(lines 1545-1560): intersect the map with the required set, accept when
nothing remains, reject when `max_nodes` ran out; without required nodes,
clear the map. -/
def dfly_req2_verdict (tenv : TEnv) (req : Option (Finset ℕ)) (st : TSt) :
    Option Bool × TSt :=
  match req with
  | some r =>
    let st := { st with node_map := st.node_map ∩ r }
    if st.rem_nodes ≤ 0 ∧ st.rem_cpus ≤ 0 ∧ tenv.gres_test = true then
      (some true, st)
    else if st.max_nodes = 0 then (some false, st)
    else (none, st)
  | none => (none, { st with node_map := ∅ })

/-- The dfly stages following required-node admission (lines 1545-1976):
the immediate verdicts, the top-switch election, the required-coverage
check of the elected subtree, and the core.  The third component carries
the switch bitmaps when the core ran (the fini epilogue needs them). -/
def dfly_after_adm (tenv : TEnv) (sw : List SwitchCfg)
    (req : Option (Finset ℕ)) (mn rn : ℕ) (tiers : List (ℕ × Finset ℕ))
    (st : TSt) : Bool × TSt × Option (List (Finset ℕ)) :=
  let ar := dfly_req2_verdict tenv req st
  match ar.1 with
  | some v => (v, ar.2, none)
  | none =>
    let st := ar.2
    let cls := dfly_top_switch req tiers sw 0 ([], 0, none)
    match cls.2.2 with
    | none => (false, st, none)
    | some (top, _) =>
      let top_ok :=
        match req with
        | some r => decide (r ⊆ (sw.map (fun s => s.nodes)).getD top ∅)
        | none => true
      if top_ok = false then (false, st, none)
      else
        let core := dfly_core tenv sw req mn rn top cls.1 cls.2.1 tiers st
        (core.1, core.2.1, some core.2.2)

/-- The dfly fini epilogue, skipped when the switch tables were not yet
allocated at the exit (the `switch_node_bitmap` guard of line 1990). -/
def dfly_fini_opt (sw : List SwitchCfg) (swbo : Option (List (Finset ℕ)))
    (map : Finset ℕ) (rsw tw w4s : ℕ) (v : Bool) : FiniOutcome :=
  match swbo with
  | none => .unchanged
  | some swb =>
    dfly_fini ((List.zip (sw.map (fun s => s.level)) swb).map
      (fun p => SwitchRec.mk p.1 p.2)) map rsw tw w4s v true

/-- `_eval_nodes_dfly` (lines 1419-2026): req_switch normalization, entry
bookkeeping, required validation, merged weight build and required
admission, the early verdicts, the top-switch election and the core, and
the `best_switch` fini epilogue (skipped when the switch tables were not
yet allocated at the exit). -/
def eval_nodes_dfly_full (tenv : TEnv) (sw : List SwitchCfg)
    (details : JobDetails) (req_switch wait4switch time_waiting : ℕ)
    (min_nodes req_nodes max_nodes : ℕ) (node_map : Finset ℕ) :
    Bool × TSt × FiniOutcome :=
  let rsw := dfly_normalize_req_switch req_switch
  let st0 := topo_entry tenv details min_nodes req_nodes max_nodes node_map
  let reqChecks :=
    match details.req_node_bitmap with
    | some r =>
      decide (r ⊆ node_map) && decide (r.card ≠ 0) &&
        decide (r.card ≤ max_nodes)
    | none => true
  if reqChecks = false then (false, st0, .unchanged)
  else if node_map.card = 0 then (false, st0, .unchanged)
  else
    let req := details.req_node_bitmap
    let tiers := topo_weight_tiers tenv node_map
    let reqList :=
      match req with
      | some r => (bm_list tenv.n node_map).filter (fun i => i ∈ r)
      | none => []
    match dfly_req_adm tenv reqList st0 with
    | .error st => (false, st, .unchanged)
    | .ok st =>
      let b := dfly_after_adm tenv sw req min_nodes req_nodes tiers st
      (b.1, b.2.1,
        dfly_fini_opt sw b.2.2 b.2.1.node_map rsw time_waiting wait4switch b.1)

/-! ### The topo strategy -/

/-- The value an `int` takes when converted to `uint32_t` (the C usual
arithmetic conversions apply to `switch_cpu_cnt[i] >= rem_cpus` at
line 2584 and `rem_cpus > switch_cpu_cnt[i]` at line 2829: the signed
operand converts to unsigned, so a negative remainder wraps). -/
def u32z (z : ℤ) : ℤ :=
  z % 4294967296

/-- `_topo_add_dist` (lines 2565-2576): add switch `inx`'s distance row
into the running distances, saturating at `INFINITE`. -/
def topo_add_dist (sw : List SwitchCfg) (dist : List ℕ) (inx : ℕ) : List ℕ :=
  (List.range dist.length).map (fun i =>
    let d := (sw.getD inx ⟨0, ∅, 0, fun _ => 0⟩).dist i
    let cur := dist.getD i 0
    if d = INFINITE ∨ cur = INFINITE then INFINITE else cur + d)

/-- The tail comparison of `_topo_compare_switches` (lines 2611-2619). -/
def topo_cmp_final (sw : List SwitchCfg) (node_cnt : List ℕ) (i j : ℕ) : ℤ :=
  if node_cnt.getD j 0 < node_cnt.getD i 0 then 1
  else if node_cnt.getD i 0 < node_cnt.getD j 0 then -1
  else if (sw.getD i ⟨0, ∅, 0, fun _ => 0⟩).level <
      (sw.getD j ⟨0, ∅, 0, fun _ => 0⟩).level then 1
  else if (sw.getD j ⟨0, ∅, 0, fun _ => 0⟩).level <
      (sw.getD i ⟨0, ∅, 0, fun _ => 0⟩).level then -1
  else 0

/-- `_topo_compare_switches` (lines 2578-2621): climb parents until one
side fits the remaining request or the parents merge; fuel bounds the
climb (one more than the switch count covers any acyclic parent table;
exhaustion behaves as the loop's `break`). -/
def topo_compare_switches (sw : List SwitchCfg) (rem_nodes : ℤ)
    (node_cnt : List ℕ) (rem_cpus : ℤ) (cpu_cnt : List ℕ) :
    ℕ → ℕ → ℕ → ℤ
  | 0, i, j => topo_cmp_final sw node_cnt i j
  | fuel + 1, i, j =>
    let i_fit := rem_nodes ≤ (node_cnt.getD i 0 : ℤ) ∧
      u32z rem_cpus ≤ (cpu_cnt.getD i 0 : ℤ)
    let j_fit := rem_nodes ≤ (node_cnt.getD j 0 : ℤ) ∧
      u32z rem_cpus ≤ (cpu_cnt.getD j 0 : ℤ)
    if i_fit ∧ j_fit then
      if node_cnt.getD i 0 < node_cnt.getD j 0 then 1
      else if node_cnt.getD j 0 < node_cnt.getD i 0 then -1
      else topo_cmp_final sw node_cnt i j
    else if i_fit then 1
    else if j_fit then -1
    else
      let pi := (sw.getD i ⟨0, ∅, 0, fun _ => 0⟩).parent
      let pj := (sw.getD j ⟨0, ∅, 0, fun _ => 0⟩).parent
      if (pi ≠ i ∨ pj ≠ j) ∧ pi ≠ pj then
        topo_compare_switches sw rem_nodes node_cnt rem_cpus cpu_cnt fuel pi pj
      else topo_cmp_final sw node_cnt i j

/-- `_topo_choose_best_switch` (lines 2623-2648). -/
def topo_choose_best_switch (sw : List SwitchCfg) (dist : List ℕ)
    (node_cnt : List ℕ) (rem_nodes : ℤ) (cpu_cnt : List ℕ) (rem_cpus : ℤ)
    (i : ℕ) (best : Option ℕ) : Option ℕ :=
  match best with
  | none =>
    if node_cnt.getD i 0 ≠ 0 ∧ dist.getD i 0 < INFINITE then some i else none
  | some b =>
    if dist.getD i 0 = INFINITE ∨ node_cnt.getD i 0 = 0 then best
    else
      let tcs := topo_compare_switches sw rem_nodes node_cnt rem_cpus cpu_cnt
        (sw.length + 1) i b
      if (dist.getD i 0 < dist.getD b 0 ∧ 0 ≤ tcs) ∨
          (dist.getD i 0 = dist.getD b 0 ∧ 0 < tcs) then some i
      else best

/-- The accumulators of the topo best-nodes loop (lines 2916-2975). -/
structure AccumSt where
  st : TSt
  best : Finset ℕ
  req2 : Option (Finset ℕ)
  cpu : ℤ
  cnt : ℕ
  bucket : List ℕ
  suff : Bool
  requested : Bool

/-- One weight tier of the topo best-nodes accumulation (the inner loop of
lines 2937-2957): skip required nodes and nodes outside the top switch,
clear zero probes from the tier bitmap (the list persists into later
retries), otherwise record the node. -/
def topo_accum_tier (tenv : TEnv) (req : Option (Finset ℕ)) (top_bm : Finset ℕ) :
    List ℕ → Finset ℕ × TSt × Finset ℕ × ℤ × ℕ × List ℕ →
    Finset ℕ × TSt × Finset ℕ × ℤ × ℕ × List ℕ
  | [], acc => acc
  | i :: rest, (tbm, st, best, cpu, cnt, bucket) =>
    if (match req with | some r => decide (i ∈ r) | none => false) = true then
      topo_accum_tier tenv req top_bm rest (tbm, st, best, cpu, cnt, bucket)
    else if i ∉ top_bm then
      topo_accum_tier tenv req top_bm rest (tbm, st, best, cpu, cnt, bucket)
    else
      let a := tenv.sc i st.min_rem_nodes
      if a = 0 then
        topo_accum_tier tenv req top_bm rest (tbm.erase i, st, best, cpu, cnt, bucket)
      else
        topo_accum_tier tenv req top_bm rest
          (tbm,
           { st with
             avail_cpu_per_node := Function.update st.avail_cpu_per_node i a },
           insert i best, cpu + a, cnt + 1,
           if tenv.gres_per_job then bucket ++ [i] else bucket)

/-- The topo best-nodes loop over weight tiers (lines 2916-2975): merge
the previous best set into `req2_nodes_bitmap`, skip emptied tiers,
accumulate, latch `sufficient` (which, unlike in dfly, stays latched once
true — including across retries) and stop once `requested`.  Returns the
tier list with its in-place bitmap clearings alongside the accumulators. -/
def topo_accum (tenv : TEnv) (req : Option (Finset ℕ)) (top_bm : Finset ℕ)
    (mn rn : ℕ) (rem_cpus rem_nodes : ℤ) :
    List (ℕ × Finset ℕ) → AccumSt → List (ℕ × Finset ℕ) × AccumSt
  | [], acc => ([], acc)
  | (w, bm) :: rest, acc =>
    if acc.requested then ((w, bm) :: rest, acc)
    else
      let req2 := if 0 < acc.cnt then some (acc.req2.getD ∅ ∪ acc.best)
        else acc.req2
      if bm = ∅ then
        let r := topo_accum tenv req top_bm mn rn rem_cpus rem_nodes rest
          { acc with req2 := req2 }
        ((w, bm) :: r.1, r.2)
      else
        let t := topo_accum_tier tenv req top_bm (bm_list tenv.n bm)
          (bm, acc.st, acc.best, acc.cpu, acc.cnt, acc.bucket)
        let cpu := t.2.2.2.1
        let cnt := t.2.2.2.2.1
        let bucket := t.2.2.2.2.2
        let suff : Bool :=
          if acc.suff then true
          else
            let s0 := rem_cpus ≤ cpu ∧
              eval_nodes_enough_nodes cnt rem_nodes mn rn = true
            if s0 ∧ tenv.gres_per_job then tenv.gres_sufficient bucket
            else decide s0
        let requested : Bool :=
          decide (rem_nodes ≤ (cnt : ℤ) ∧ rem_cpus ≤ cpu) &&
            (!tenv.gres_per_job || tenv.gres_sufficient bucket)
        let r := topo_accum tenv req top_bm mn rn rem_cpus rem_nodes rest
          ⟨t.2.1, t.2.2.1, req2, cpu, cnt, bucket, suff, requested⟩
        ((w, t.1) :: r.1, r.2)

/-- The admission walk over one already-required leaf switch
(lines 3092-3121): no `max_nodes` stop at all (the decrement may wrap),
the clamp again receives the switch loop index. -/
def topo_req_leaf_adm (tenv : TEnv) (i : ℕ) : List ℕ → TSt → TOut
  | [], st => .cont st
  | j :: rest, st =>
    if j ∈ st.node_map ∨ st.avail_cpu_per_node j = 0 then
      topo_req_leaf_adm tenv i rest st
    else
      let a := tenv.ctu i st.rem_max_cpus st.min_rem_nodes
        (st.avail_cpu_per_node j)
      let avail := if tenv.gres_per_job then tenv.gres_add j a else a
      let st := t_charge st j avail
      if st.rem_nodes ≤ 0 ∧ st.rem_cpus ≤ 0 ∧
          (tenv.gres_per_job = false ∨ tenv.gres_test = true) then
        .success st
      else topo_req_leaf_adm tenv i rest st

/-- The sweep over required leaf switches (lines 3086-3123). -/
def topo_req_leaves (tenv : TEnv) (sw : List SwitchCfg) (swreq : List Bool)
    (swb : List (Finset ℕ)) : List ℕ → TSt → TOut
  | [], st => .cont st
  | i :: rest, st =>
    if swreq.getD i false = false ∨
        (sw.getD i ⟨0, ∅, 0, fun _ => 0⟩).level ≠ 0 then
      topo_req_leaves tenv sw swreq swb rest st
    else
      match topo_req_leaf_adm tenv i (bm_list tenv.n (swb.getD i ∅)) st with
      | .success st => .success st
      | .error st => .error st
      | .cont st => topo_req_leaves tenv sw swreq swb rest st

/-- The admission walk over the elected expansion leaf (lines 3157-3186):
stops when `max_nodes` is exhausted, latches success, no error exit. -/
def topo_leaf_adm (tenv : TEnv) : List ℕ → TSt → TOut
  | [], st => .cont st
  | i :: rest, st =>
    if st.max_nodes = 0 then .cont st
    else if i ∈ st.node_map ∨ st.avail_cpu_per_node i = 0 then
      topo_leaf_adm tenv rest st
    else
      let a := tenv.ctu i st.rem_max_cpus st.min_rem_nodes
        (st.avail_cpu_per_node i)
      let avail := if tenv.gres_per_job then tenv.gres_add i a else a
      let st := t_charge st i avail
      if st.rem_nodes ≤ 0 ∧ st.rem_cpus ≤ 0 ∧
          (tenv.gres_per_job = false ∨ tenv.gres_test = true) then
        .success st
      else topo_leaf_adm tenv rest st

/-- The election of lines 3139-3147: run `_topo_choose_best_switch` over
every unrequired leaf. -/
def topo_leaf_pick (sw : List SwitchCfg) (swreq : List Bool) (dist : List ℕ)
    (node_cnt : List ℕ) (rem_nodes : ℤ) (cpu_cnt : List ℕ)
    (rem_cpus : ℤ) : Option ℕ :=
  (List.range sw.length).foldl
    (fun b i =>
      if swreq.getD i false = true ∨
          (sw.getD i ⟨0, ∅, 0, fun _ => 0⟩).level ≠ 0 then b
      else topo_choose_best_switch sw dist node_cnt rem_nodes cpu_cnt rem_cpus i b)
    none

/-- The leaf-expansion loop (lines 3132-3188): stall detection, best-leaf
election, distance update, admission, and the consumed leaf's node count
zeroed.  Each productive iteration zeroes the nonzero node count that let
its leaf be elected, so switch count plus one bounds the iterations and
the fuel is never exhausted. -/
def topo_expand (tenv : TEnv) (sw : List SwitchCfg) (swreq : List Bool)
    (swb : List (Finset ℕ)) (cpu_cnt : List ℕ) :
    ℕ → ℤ → List ℕ → List ℕ → TSt → TOut
  | 0, _, _, _, st => .cont st
  | fuel + 1, prev, dist, node_cnt, st =>
    if prev = st.rem_nodes then .cont st
    else
      match topo_leaf_pick sw swreq dist node_cnt st.rem_nodes cpu_cnt
        st.rem_cpus with
      | none => .cont st
      | some b =>
        let dist := topo_add_dist sw dist b
        match topo_leaf_adm tenv (bm_list tenv.n (swb.getD b ∅)) st with
        | .success st' => .success st'
        | .error st' => .error st'
        | .cont st' =>
          topo_expand tenv sw swreq swb cpu_cnt fuel st.rem_nodes dist
            (node_cnt.set b 0) st'

/-- The topo req2 admission block (lines 2984-3057): charge the best
nodes, mark their switches required, merge them into the map, then the
success verdict (checked before the `max_nodes` error, the opposite order
from dfly). -/
def topo_req2_verdict (tenv : TEnv) (sw : List SwitchCfg)
    (swb : List (Finset ℕ)) (swreq : List Bool) (req2 : Option (Finset ℕ))
    (st : TSt) : Option Bool × TSt × List Bool :=
  match req2 with
  | some r2 =>
    let st := dfly_req2_charge tenv (bm_list tenv.n r2) st
    let swreq2 := (dfly_mark_req2 r2 sw swb swreq 0).1
    let st := { st with node_map := st.node_map ∪ r2 }
    if st.rem_nodes ≤ 0 ∧ st.rem_cpus ≤ 0 ∧
        (tenv.gres_per_job = false ∨ tenv.gres_test = true) then
      (some true, st, swreq2)
    else if st.max_nodes = 0 then (some false, st, swreq2)
    else (none, st, swreq2)
  | none => (none, st, swreq)

/-- The leaf-expansion stage and final verdict of a topo attempt
(lines 3126-3195). -/
def topo_expand_verdict (tenv : TEnv) (sw : List SwitchCfg)
    (cpu_cnt : List ℕ) (swreq : List Bool) (swb : List (Finset ℕ))
    (st : TSt) : Bool × TSt :=
  let node_cnt := swb.map Finset.card
  let dist0 := (List.range sw.length).foldl
    (fun d i => if swreq.getD i false then topo_add_dist sw d i else d)
    (List.replicate sw.length 0)
  match topo_expand tenv sw swreq swb cpu_cnt (sw.length + 1)
    (st.rem_nodes + 1) dist0 node_cnt st with
  | .success st => (true, st)
  | .error st => (false, st)
  | .cont st =>
    if st.min_rem_nodes ≤ 0 ∧ st.rem_cpus ≤ 0 ∧
        (tenv.gres_per_job = false ∨ tenv.gres_test = true) then
      (true, st)
    else (false, st)

/-- The closing stages of a topo attempt (lines 3080-3195): required-leaf
completion, distance-guided leaf expansion and the final verdict. -/
def topo_tail (tenv : TEnv) (sw : List SwitchCfg) (walk_req : Bool)
    (cpu_cnt : List ℕ) (swreq : List Bool) (swb : List (Finset ℕ))
    (st : TSt) : Bool × TSt :=
  let leafStep : TOut :=
    if walk_req = true then
      topo_req_leaves tenv sw swreq swb (List.range sw.length) st
    else .cont st
  match leafStep with
  | .success st => (true, st)
  | .error st => (false, st)
  | .cont st => topo_expand_verdict tenv sw cpu_cnt swreq swb st

/-- One `try_again` attempt of `_eval_nodes_topo` (lines 2907-3195):
best-nodes accumulation, req2 admission (success checked before the
`max_nodes` error, the opposite order from dfly), restriction of the
switch bitmaps to the best set, required-leaf completion, distance-guided
leaf expansion, final verdict.  Returns the verdict, the state, the
switch bitmaps at the exit, and the tier list and `sufficient` latch that
persist into a retry. -/
def topo_attempt (tenv : TEnv) (sw : List SwitchCfg) (req : Option (Finset ℕ))
    (mn rn : ℕ) (top : ℕ) (cpu_cnt : List ℕ) (tiers : List (ℕ × Finset ℕ))
    (suff0 : Bool) (swreq : List Bool) (swb : List (Finset ℕ)) (st : TSt) :
    Bool × TSt × List (Finset ℕ) × List (ℕ × Finset ℕ) × Bool :=
  let top_bm := swb.getD top ∅
  let ar := topo_accum tenv req top_bm mn rn st.rem_cpus st.rem_nodes tiers
    ⟨st, ∅, none, 0, 0, [], suff0, false⟩
  let tiers := ar.1
  let acc := ar.2
  if acc.suff = false then (false, acc.st, swb, tiers, acc.suff)
  else
    let v := topo_req2_verdict tenv sw swb swreq acc.req2 acc.st
    match v.1 with
    | some b => (b, v.2.1, swb, tiers, acc.suff)
    | none =>
      let st := v.2.1
      let swreq := v.2.2
      let best := acc.best ∪ st.node_map
      let swb := swb.map (fun b => b ∩ best)
      let t := topo_tail tenv sw (req.isSome || acc.req2.isSome) cpu_cnt
        swreq swb st
      (t.1, t.2, swb, tiers, acc.suff)

/-- The attempt-and-retry driver around `try_again` (lines 2907-3254): run
an attempt, apply the fini epilogue, and on its retry arm restore the
checkpoint, shrink `req_nodes`, and go again.  `req_nodes` strictly
decreases while staying above `min_nodes`, so `req_nodes + 1` fuel is
never exhausted. -/
def topo_try_loop (tenv : TEnv) (sw : List SwitchCfg) (req : Option (Finset ℕ))
    (mn org_max req_cnt req_switch wait4switch time_waiting top : ℕ)
    (cpu_cnt : List ℕ) (start_map : Finset ℕ) (start_swreq : List Bool)
    (start_swb : List (Finset ℕ)) (start_rem_cpus start_rem_max : ℤ) :
    ℕ → ℕ → TSt → List (ℕ × Finset ℕ) → Bool → List Bool →
    List (Finset ℕ) → Bool × TSt × FiniOutcome
  | 0, _, st, _, _, _, _ => (false, st, .unchanged)
  | fuel + 1, rn_cur, st, tiers, suff, swreq, swb =>
    let r := topo_attempt tenv sw req mn rn_cur top cpu_cnt tiers suff swreq
      swb st
    let rc := r.1
    let st := r.2.1
    let swb := r.2.2.1
    if req_switch > 0 ∧ rc = true then
      let tbl := (List.zip (sw.map (fun s => s.level)) swb).map
        (fun p => SwitchRec.mk p.1 p.2)
      let leaf := count_leaf_switches tbl st.node_map
      if wait4switch ≤ time_waiting then (rc, st, .setBest true)
      else if req_switch < leaf then
        if mn < rn_cur then
          let rn2 := rn_cur - 1
          let st2 : TSt :=
            { node_map := start_map
              rem_cpus := start_rem_cpus
              rem_nodes := (rn2 : ℤ) - (req_cnt : ℤ)
              min_rem_nodes := (mn : ℤ) - (req_cnt : ℤ)
              max_nodes := org_max - req_cnt
              rem_max_cpus := start_rem_max
              total_cpus := 0
              avail_cpu_per_node := fun _ => 0 }
          topo_try_loop tenv sw req mn org_max req_cnt req_switch wait4switch
            time_waiting top cpu_cnt start_map start_swreq start_swb
            start_rem_cpus start_rem_max fuel rn2 st2 r.2.2.2.1 r.2.2.2.2
            start_swreq start_swb
        else (rc, st, .setBest false)
      else (rc, st, .setBest true)
    else (rc, st, .unchanged)

/-- The switch-table build and top-switch election of `_eval_nodes_topo`
(lines 2803-2843): per switch, the node bitmap intersected with the
candidate map, its node count and CPU sum (a `uint32_t`), the required
mark and the level-based required election; switches passing the size
thresholds (with the wrapped `rem_cpus` comparison) compete in the
weight-based election via the first overlapping tier. -/
def topo_switch_build (tenv : TEnv) (sw : List SwitchCfg)
    (req : Option (Finset ℕ)) (tiers : List (ℕ × Finset ℕ)) (mn rn : ℕ)
    (node_map : Finset ℕ) (rem_cpus rem_nodes : ℤ) :
    List (Finset ℕ) × List ℕ × List Bool × Option ℕ :=
  let swb := sw.map (fun s => s.nodes ∩ node_map)
  let cpu_cnt := swb.map
    (fun b => ((bm_list tenv.n b).foldl (fun a j => a + tenv.avail j) 0) %
      4294967296)
  let step := (List.range sw.length).foldl
    (fun (acc : List Bool × Option (ℕ × ℕ) × Option ℕ) i =>
      let (swreq, topW, topR) := acc
      let lvl := (sw.getD i ⟨0, ∅, 0, fun _ => 0⟩).level
      let hit : Bool :=
        match req with
        | some r => decide (r ∩ swb.getD i ∅ ≠ ∅)
        | none => false
      let topR :=
        if hit then
          match topR with
          | none => some i
          | some t =>
            if (sw.getD t ⟨0, ∅, 0, fun _ => 0⟩).level < lvl then some i
            else topR
        else topR
      let big := eval_nodes_enough_nodes (swb.getD i ∅).card rem_nodes mn rn
        = true ∧ u32z rem_cpus ≤ (cpu_cnt.getD i 0 : ℤ)
      let topW :=
        if req.isNone ∧ big then
          match tiers.find? (fun t => decide (t.2 ∩ swb.getD i ∅ ≠ ∅)) with
          | some nwv =>
            match topW with
            | none => some (i, nwv.1)
            | some (t, lw) =>
              if (sw.getD t ⟨0, ∅, 0, fun _ => 0⟩).level ≤ lvl ∧ nwv.1 ≤ lw then
                some (i, nwv.1)
              else topW
          | none => topW
        else topW
      (swreq ++ [hit], topW, topR))
    ([], none, none)
  let top :=
    match req with
    | some _ => step.2.2
    | none => step.2.1.map Prod.fst
  (swb, cpu_cnt, step.1, top)

/-- The pre-attempt verdicts of `_eval_nodes_topo` (lines 2860-2878):
intersect the map with the required set, accept when nothing remains,
reject when `max_nodes` ran out. -/
def topo_pre_verdict (tenv : TEnv) (req : Option (Finset ℕ)) (st : TSt) :
    Option Bool × TSt :=
  match req with
  | some r =>
    let st := { st with node_map := st.node_map ∩ r }
    if st.rem_nodes ≤ 0 ∧ st.rem_cpus ≤ 0 ∧ tenv.gres_test = true then
      (some true, st)
    else if st.max_nodes = 0 then (some false, st)
    else (none, st)
  | none => (none, st)

/-- `_eval_nodes_topo` (lines 2651-3279): entry bookkeeping, required
validation, merged weight build and required admission, the switch-table
build and top-switch election, the subtree restriction, the pre-attempt
verdicts (whose epilogue can never retry: `best_nodes_bitmap` is still
NULL), the checkpoint, and the attempt-and-retry driver. -/
def eval_nodes_topo_full (tenv : TEnv) (sw : List SwitchCfg)
    (details : JobDetails) (req_switch wait4switch time_waiting : ℕ)
    (min_nodes req_nodes max_nodes : ℕ) (node_map : Finset ℕ) :
    Bool × TSt × FiniOutcome :=
  let st0 := topo_entry tenv details min_nodes req_nodes max_nodes node_map
  let reqChecks :=
    match details.req_node_bitmap with
    | some r =>
      decide (r ⊆ node_map) && decide (r.card ≠ 0) &&
        decide (r.card ≤ max_nodes)
    | none => true
  if reqChecks = false then (false, st0, .unchanged)
  else if node_map.card = 0 then (false, st0, .unchanged)
  else
    let req := details.req_node_bitmap
    let req_cnt := (req.getD ∅).card
    let tiers := topo_weight_tiers tenv node_map
    let reqList :=
      match req with
      | some r => (bm_list tenv.n node_map).filter (fun i => i ∈ r)
      | none => []
    match dfly_req_adm tenv reqList st0 with
    | .error st => (false, st, .unchanged)
    | .ok st =>
      let build := topo_switch_build tenv sw req tiers min_nodes req_nodes
        node_map st.rem_cpus st.rem_nodes
      let swb0 := build.1
      let cpu_cnt := build.2.1
      let swreq := build.2.2.1
      let st := if req.isNone then { st with node_map := ∅ } else st
      match build.2.2.2 with
      | none => (false, st, .unchanged)
      | some top =>
        let top_ok :=
          match req with
          | some r => decide (r ⊆ swb0.getD top ∅)
          | none => true
        if top_ok = false then (false, st, .unchanged)
        else
          let top_bm0 := swb0.getD top ∅
          let swb1 := (List.range sw.length).map
            (fun i => if i = top then swb0.getD i ∅ else swb0.getD i ∅ ∩ top_bm0)
          let start_rem_cpus := st.rem_cpus
          let start_rem_max := st.rem_max_cpus
          let pre := topo_pre_verdict tenv req st
          match pre.1 with
          | some v =>
            let tbl := (List.zip (sw.map (fun s => s.level)) swb1).map
              (fun p => SwitchRec.mk p.1 p.2)
            (v, pre.2,
              topo_fini tbl pre.2.node_map req_switch time_waiting wait4switch
                v false)
          | none =>
            topo_try_loop tenv sw req min_nodes max_nodes req_cnt req_switch
              wait4switch time_waiting top cpu_cnt pre.2.node_map swreq swb1
              start_rem_cpus start_rem_max (req_nodes + 1) req_nodes pre.2
              tiers false swreq swb1

/-! ### The block strategy -/

/-- The block-plugin configuration: the base-block node bitmaps
(`block_record_table`), the base-block size, the allowed aggregation
exponents and the global `blocks_nodes_bitmap`. -/
structure BlockCfg where
  bblocks : List (Finset ℕ)
  bblock_node_cnt : ℕ
  block_levels : Finset ℕ
  blocks_nodes : Finset ℕ

/-- The aggregated block bitmaps (lines 278-288): base block `i` belongs
to block `i / bblock_per_block`. -/
def block_big_bitmaps (bblocks : List (Finset ℕ)) (bpb block_cnt : ℕ) :
    List (Finset ℕ) :=
  (List.range block_cnt).map (fun b =>
    ((List.range bblocks.length).filter (fun i => i / bpb = b)).foldl
      (fun a i => a ∪ bblocks.getD i ∅) ∅)

/-- The no-required-node block election (lines 290-326): a block qualifies
through the size thresholds (with the wrapped `rem_cpus` comparison of
line 312) and its first overlapping weight tier; a strictly lower tier
weight wins, an equal weight with a node count at most the incumbent's
also wins. -/
def block_pick_noreq (tenv : TEnv) (tiers : List (ℕ × Finset ℕ)) (mn rn : ℕ)
    (nm : Finset ℕ) (rem_cpus rem_nodes : ℤ) (bigs : List (Finset ℕ)) :
    Option ℕ :=
  ((List.range bigs.length).foldl
    (fun (acc : Option (ℕ × ℕ)) i =>
      let bm := bigs.getD i ∅ ∩ nm
      let cpu := ((bm_list tenv.n bm).foldl (fun a j => a + tenv.avail j) 0) %
        4294967296
      if eval_nodes_enough_nodes bm.card rem_nodes mn rn = false ∨
          (cpu : ℤ) < u32z rem_cpus then acc
      else
        match tiers.find? (fun t => decide (t.2 ∩ bm ≠ ∅)) with
        | none => acc
        | some t =>
          match acc with
          | none => some (i, t.1)
          | some (bi, lw) =>
            if t.1 < lw ∨
                (t.1 = lw ∧ bm.card ≤ (bigs.getD bi ∅ ∩ nm).card) then
              some (i, t.1)
            else acc)
    none).map Prod.fst

/-- The admission walk over one required base block (lines 535-562): no
`max_nodes` stop and no selected-node test (the walked bitmap already
excludes `node_map`); the clamp receives the base-block loop index. -/
def block_req_bblock_adm (tenv : TEnv) (i : ℕ) : List ℕ → TSt → TOut
  | [], st => .cont st
  | j :: rest, st =>
    if st.avail_cpu_per_node j = 0 then block_req_bblock_adm tenv i rest st
    else
      let a := tenv.ctu i st.rem_max_cpus st.min_rem_nodes
        (st.avail_cpu_per_node j)
      let avail := if tenv.gres_per_job then tenv.gres_add j a else a
      let st := t_charge st j avail
      if st.rem_nodes ≤ 0 ∧ st.rem_cpus ≤ 0 ∧
          (tenv.gres_per_job = false ∨ tenv.gres_test = true) then
        .success st
      else block_req_bblock_adm tenv i rest st

/-- The sweep over already-required base blocks (lines 519-564): for each
required base block, walk its nodes restricted to the selected block, the
best set and the yet-unselected nodes. -/
def block_req_bblocks (tenv : TEnv) (bblocks : List (Finset ℕ))
    (breq : List Bool) (blk best : Finset ℕ) : List ℕ → TSt → TOut
  | [], st => .cont st
  | i :: rest, st =>
    if breq.getD i false = false then
      block_req_bblocks tenv bblocks breq blk best rest st
    else
      let bbm := ((bblocks.getD i ∅ ∩ blk) ∩ best) \ st.node_map
      match block_req_bblock_adm tenv i (bm_list tenv.n bbm) st with
      | .success st => .success st
      | .error st => .error st
      | .cont st => block_req_bblocks tenv bblocks breq blk best rest st

/-- The best-fit base-block scan (lines 588-605): among in-block,
not-yet-required base blocks, prefer a fitting one (node count at least
`rem_nodes`), then the tightest fitting or, with no fit yet, the
largest. -/
def block_greedy_scan (bpb binx : ℕ) (breq : List Bool) (non : List ℕ)
    (rem_nodes : ℤ) (cnt : ℕ) : Option (ℕ × Bool) :=
  (List.range cnt).foldl
    (fun (b : Option (ℕ × Bool)) i =>
      if i / bpb ≠ binx ∨ breq.getD i false = true then b
      else
        let fit : Bool := decide (rem_nodes ≤ (non.getD i 0 : ℤ))
        match b with
        | none => some (i, fit)
        | some (bi, bf) =>
          if (fit = true ∧ bf = false) ∨
              (fit = false ∧ bf = false ∧ non.getD bi 0 < non.getD i 0) ∨
              (fit = true ∧ non.getD i 0 ≤ non.getD bi 0) then
            some (i, fit)
          else b)
    none

/-- The admission walk over the chosen best-fit base block
(lines 619-646): `max_nodes`-guarded per node, no selected-node test, the
clamp receives the node index here. -/
def block_greedy_adm (tenv : TEnv) : List ℕ → TSt → TOut
  | [], st => .cont st
  | i :: rest, st =>
    if st.max_nodes = 0 then .cont st
    else if st.avail_cpu_per_node i = 0 then block_greedy_adm tenv rest st
    else
      let a := tenv.ctu i st.rem_max_cpus st.min_rem_nodes
        (st.avail_cpu_per_node i)
      let avail := if tenv.gres_per_job then tenv.gres_add i a else a
      let st := t_charge st i avail
      if st.rem_nodes ≤ 0 ∧ st.rem_cpus ≤ 0 ∧
          (tenv.gres_per_job = false ∨ tenv.gres_test = true) then
        .success st
      else block_greedy_adm tenv rest st

/-- The best-fit base-block loop (lines 580-647): stall detection, the
scan, the in-place `bit_and_not` on the stored base-block bitmap, the
required mark (making the consumed base block unscannable) and the
admission.  Each productive iteration marks one base block, so their count
plus one bounds the iterations and the fuel is never exhausted. -/
def block_greedy_loop (tenv : TEnv) (bpb binx bcnt : ℕ) :
    ℕ → ℤ → List (Finset ℕ) → List ℕ → List Bool → TSt → TOut
  | 0, _, _, _, _, st => .cont st
  | fuel + 1, prev, bbmt, non, breq, st =>
    if prev = st.rem_nodes then .cont st
    else
      match block_greedy_scan bpb binx breq non st.rem_nodes bcnt with
      | none => .cont st
      | some (bi, _) =>
        let bbm := (bbmt.getD bi ∅) \ st.node_map
        let bbmt := bbmt.set bi bbm
        let breq := breq.set bi true
        match block_greedy_adm tenv (bm_list tenv.n bbm) st with
        | .success st' => .success st'
        | .error st' => .error st'
        | .cont st' =>
          block_greedy_loop tenv bpb binx bcnt fuel st.rem_nodes bbmt non
            breq st'

/-- The block req2 admission block (lines 432-516): charge the best
nodes, merge them into the map, the verdicts (success checked before the
`max_nodes` error), and the required marking of the base blocks holding
req2 nodes. -/
def block_req2_verdict (tenv : TEnv) (bblocks : List (Finset ℕ))
    (bpb binx : ℕ) (breq0 : List Bool) (req2 : Option (Finset ℕ))
    (st : TSt) : Option Bool × TSt × List Bool :=
  match req2 with
  | some r2 =>
    let st := dfly_req2_charge tenv (bm_list tenv.n r2) st
    let st := { st with node_map := st.node_map ∪ r2 }
    if st.rem_nodes ≤ 0 ∧ st.rem_cpus ≤ 0 ∧
        (tenv.gres_per_job = false ∨ tenv.gres_test = true) then
      (some true, st, breq0)
    else if st.max_nodes = 0 then (some false, st, breq0)
    else
      let breq := (List.range bblocks.length).foldl
        (fun (b : List Bool) i =>
          if binx ≠ i / bpb then b
          else if b.getD i false then b
          else if r2 ∩ bblocks.getD i ∅ ≠ ∅ then b.set i true
          else b)
        breq0
      (none, st, breq)
  | none => (none, st, breq0)

/-- The best-fit base-block stage and final verdict of the block strategy
(lines 566-663). -/
def block_expand_verdict (tenv : TEnv) (bblocks : List (Finset ℕ))
    (bpb binx : ℕ) (blk best : Finset ℕ) (breq : List Bool) (st : TSt) :
    Bool × TSt :=
  let bbmt := (List.range bblocks.length).map
    (fun i =>
      if i / bpb = binx ∧ breq.getD i false = false then
        (bblocks.getD i ∅ ∩ blk) ∩ best
      else ∅)
  let non := bbmt.map Finset.card
  match block_greedy_loop tenv bpb binx bblocks.length
    (bblocks.length + 1) (st.rem_nodes + 1) bbmt non breq st with
  | .success st => (true, st)
  | .error st => (false, st)
  | .cont st =>
    if st.min_rem_nodes ≤ 0 ∧ st.rem_cpus ≤ 0 ∧
        (tenv.gres_per_job = false ∨ tenv.gres_test = true) then
      (true, st)
    else (false, st)

/-- The closing stages of the block strategy (lines 519-663):
required-base-block completion, the best-fit loop and the final
verdict. -/
def block_tail (tenv : TEnv) (bblocks : List (Finset ℕ)) (bpb binx : ℕ)
    (walk_req : Bool) (blk best : Finset ℕ) (breq : List Bool) (st : TSt) :
    Bool × TSt :=
  let leafStep : TOut :=
    if walk_req = true then
      block_req_bblocks tenv bblocks breq blk best
        (List.range bblocks.length) st
    else .cont st
  match leafStep with
  | .success st => (true, st)
  | .error st => (false, st)
  | .cont st => block_expand_verdict tenv bblocks bpb binx blk best breq st

/-- The block entry state (lines 150-165): `rem_nodes` always starts at
`MIN(min_nodes, req_nodes)`. -/
def block_entry (tenv : TEnv) (details : JobDetails)
    (min_nodes req_nodes max_nodes : ℕ) (node_map : Finset ℕ) : TSt :=
  let rem0 := min min_nodes req_nodes
  { node_map := node_map
    rem_cpus := details.min_cpus
    rem_nodes := rem0
    min_rem_nodes := min_nodes
    max_nodes := max_nodes
    rem_max_cpus := eval_nodes_get_rem_max_cpus details rem0
    total_cpus := 0
    avail_cpu_per_node := fun _ => 0 }

/-- `_eval_nodes_block` (lines 109-682): entry bookkeeping (always
`MIN(min_nodes, req_nodes)`), the `bblock_per_block` computation, required
validation (including membership in `blocks_nodes_bitmap`), the merged
weight build and required admission, block aggregation and election, the
pre-accumulation verdicts, best-nodes accumulation, req2 admission
(success checked before the `max_nodes` error), required-base-block
marking and completion, and the best-fit base-block loop. -/
def eval_nodes_block_full (tenv : TEnv) (cfg : BlockCfg)
    (details : JobDetails) (min_nodes req_nodes max_nodes : ℕ)
    (node_map : Finset ℕ) : Bool × TSt :=
  let rem0 := min min_nodes req_nodes
  let st0 := block_entry tenv details min_nodes req_nodes max_nodes node_map
  let bbc := bblock_per_block_calc rem0 cfg.bblock_node_cnt cfg.block_levels
    cfg.bblocks.length
  let bpb := bbc.1
  let bcnt := bbc.2
  let reqChecks :=
    match details.req_node_bitmap with
    | some r =>
      decide (r ⊆ node_map) && decide (r ⊆ cfg.blocks_nodes) &&
        decide (r.card ≠ 0) && decide (r.card ≤ max_nodes)
    | none => true
  if reqChecks = false then (false, st0)
  else if node_map.card = 0 then (false, st0)
  else
    let req := details.req_node_bitmap
    let tiers := topo_weight_tiers tenv node_map
    let reqList :=
      match req with
      | some r => (bm_list tenv.n node_map).filter (fun i => i ∈ r)
      | none => []
    match dfly_req_adm tenv reqList st0 with
    | .error st => (false, st)
    | .ok st =>
      let bigs := block_big_bitmaps cfg.bblocks bpb bcnt
      let binx :=
        match req with
        | some r =>
          (List.range bcnt).find? (fun i => decide (r ∩ (bigs.getD i ∅ ∩ node_map) ≠ ∅))
        | none =>
          block_pick_noreq tenv tiers min_nodes req_nodes node_map
            st.rem_cpus st.rem_nodes bigs
      let st := if req.isNone then { st with node_map := ∅ } else st
      match binx with
      | none => (false, st)
      | some binx =>
        let blk := bigs.getD binx ∅ ∩ node_map
        let blk_ok :=
          match req with
          | some r => decide (r ⊆ blk)
          | none => true
        if blk_ok = false then (false, st)
        else
          let pre := topo_pre_verdict tenv req st
          match pre.1 with
          | some v => (v, pre.2)
          | none =>
            let st := pre.2
            let breq0 :=
              match req with
              | some r =>
                (List.range cfg.bblocks.length).map
                  (fun i => decide (i / bpb = binx) &&
                    decide (r ∩ cfg.bblocks.getD i ∅ ≠ ∅))
              | none => List.replicate cfg.bblocks.length false
            let ar := topo_accum tenv req blk min_nodes req_nodes st.rem_cpus
              st.rem_nodes tiers ⟨st, ∅, none, 0, 0, [], false, false⟩
            let acc := ar.2
            if acc.suff = false then (false, acc.st)
            else
              let v := block_req2_verdict tenv cfg.bblocks bpb binx breq0
                acc.req2 acc.st
              match v.1 with
              | some b => (b, v.2.1)
              | none =>
                block_tail tenv cfg.bblocks bpb binx
                  (req.isSome || acc.req2.isSome) blk acc.best v.2.2 v.2.1

/-- `eval_nodes` (lines 3281-3359): the up-front candidate-count and
required-subset checks, then the strategy dispatch into the eight
strategies.  Returns the verdict and the final candidate map (projected
out of each strategy's state). -/
def eval_nodes_run (c : DispatchIn) (env : SEnv) (tenv : TEnv)
    (sw : List SwitchCfg) (cfg : BlockCfg) (details : JobDetails)
    (ce : ConsecExtras) (wait4switch time_waiting : ℕ)
    (min_nodes req_nodes max_nodes : ℕ) (node_map : Finset ℕ) :
    Bool × Finset ℕ :=
  if eval_nodes_precheck node_map min_nodes details.req_node_bitmap = false then
    (false, node_map)
  else
    match eval_nodes_dispatch c with
    | .block =>
      let r := eval_nodes_block_full tenv cfg details min_nodes req_nodes
        max_nodes node_map
      (r.1, r.2.node_map)
    | .spread =>
      let r := eval_nodes_spread env details min_nodes req_nodes max_nodes
        node_map
      (r.1, r.2.1)
    | .busy =>
      let r := eval_nodes_busy env details min_nodes req_nodes max_nodes
        node_map
      (r.1, r.2.1)
    | .lln =>
      let r := eval_nodes_lln env details min_nodes req_nodes max_nodes
        node_map
      (r.1, r.2.1)
    | .serial =>
      let r := eval_nodes_serial env details min_nodes req_nodes max_nodes
        node_map
      (r.1, r.2.1)
    | .dfly =>
      let r := eval_nodes_dfly_full tenv sw details c.req_switch wait4switch
        time_waiting min_nodes req_nodes max_nodes node_map
      (r.1, r.2.1.node_map)
    | .topo =>
      let r := eval_nodes_topo_full tenv sw details c.req_switch wait4switch
        time_waiting min_nodes req_nodes max_nodes node_map
      (r.1, r.2.1.node_map)
    | .consec =>
      let r := eval_nodes_consec tenv details ce c.contiguous min_nodes
        req_nodes max_nodes node_map
      (r.1, r.2.node_map)

/-! ### Bitmap containment of the consec strategy -/

/-- The state carried by either side of an `Except TSt TSt`. -/
def exceptSt : Except TSt TSt → TSt
  | .ok st => st
  | .error st => st

/-- A pointwise update at a point of `S` keeps the nonzero support of an
availability table inside `S`. -/
theorem update_supp {f : ℕ → ℕ} {S : Finset ℕ}
    (hf : ∀ j, f j ≠ 0 → j ∈ S) (i : ℕ) (hi : i ∈ S) (v : ℕ) :
    ∀ j, Function.update f i v j ≠ 0 → j ∈ S := by
  intro j hj
  by_cases h : j = i
  · subst h
    exact hi
  · rw [Function.update_noteq h] at hj
    exact hf j hj

/-- The consec required loop leaves `node_map` unchanged and keeps the
availability support inside any `S` containing the walked indices. -/
theorem consec_required_loop_inv (tenv : TEnv) (details : JobDetails)
    (ce : ConsecExtras) (S : Finset ℕ) :
    ∀ (l : List ℕ) (count : ℕ) (st : TSt),
      (∀ j, st.avail_cpu_per_node j ≠ 0 → j ∈ S) → (∀ j ∈ l, j ∈ S) →
      (exceptSt (consec_required_loop tenv details ce l count st)).node_map =
        st.node_map ∧
      (∀ j, (exceptSt (consec_required_loop tenv details ce l count st)).avail_cpu_per_node j ≠ 0 →
        j ∈ S) := by
  intro l
  induction l with
  | nil =>
    intro count st hsupp _
    exact ⟨rfl, hsupp⟩
  | cons i rest ih =>
    intro count st hsupp hl
    have hiS : i ∈ S := hl i (by simp)
    have hrest : ∀ j ∈ rest, j ∈ S := fun j hj => hl j (by simp [hj])
    simp only [consec_required_loop]
    split
    · exact ⟨rfl, hsupp⟩
    · split
      · -- arbitrary_tpn branch
        split
        · exact ⟨rfl, hsupp⟩
        · split
          · split
            · exact ⟨rfl, hsupp⟩
            · exact ih _ _ (update_supp hsupp i hiS _) hrest
          · split
            · exact ⟨rfl, hsupp⟩
            · exact ih _ _ (update_supp hsupp i hiS _) hrest
      · -- cpus_to_use branch
        split
        · split
          · exact ⟨rfl, hsupp⟩
          · exact ih _ _ (update_supp hsupp i hiS _) hrest
        · split
          · exact ⟨rfl, hsupp⟩
          · exact ih _ _ (update_supp hsupp i hiS _) hrest

/-- The consec probe shrinks the map, keeps the availability support
inside any `S` containing the map, keeps bits outside the probed index,
and leaves the state alone on a required node. -/
theorem consec_probe_inv (tenv : TEnv) (rn : Bool) (i : ℕ) (st : TSt)
    (S : Finset ℕ) (h1 : st.node_map ⊆ S)
    (h2 : ∀ j, st.avail_cpu_per_node j ≠ 0 → j ∈ S) :
    (consec_probe tenv rn i st).2.node_map ⊆ st.node_map ∧
    (∀ j, (consec_probe tenv rn i st).2.avail_cpu_per_node j ≠ 0 → j ∈ S) ∧
    (∀ r : Finset ℕ, i ∉ r → r ⊆ st.node_map →
      r ⊆ (consec_probe tenv rn i st).2.node_map) ∧
    (rn = true → (consec_probe tenv rn i st).2 = st) := by
  simp only [consec_probe]
  by_cases hmem : i ∉ st.node_map
  · rw [if_pos hmem]
    exact ⟨Finset.Subset.refl _, h2, fun _ _ h => h, fun _ => rfl⟩
  · rw [if_neg hmem]
    rw [not_not] at hmem
    by_cases hr : rn = true
    · rw [if_pos hr]
      exact ⟨Finset.Subset.refl _, h2, fun _ _ h => h, fun _ => rfl⟩
    · rw [if_neg hr]
      have hsupp' := update_supp h2 i (h1 hmem) (tenv.sc i st.min_rem_nodes)
      by_cases hz : tenv.sc i st.min_rem_nodes = 0
      · rw [if_pos hz]
        refine ⟨Finset.erase_subset _ _, hsupp', ?_, fun h => absurd h hr⟩
        intro r hir hrs y hy
        exact Finset.mem_erase.mpr ⟨fun he => hir (he ▸ hy), hrs hy⟩
      · rw [if_neg hz]
        exact ⟨Finset.Subset.refl _, hsupp', fun _ _ h => h,
          fun h => absurd h hr⟩

/-- One consec build step shrinks the map, keeps required bits, and keeps
the availability support inside any `S` containing the map. -/
theorem consec_build_step_inv (tenv : TEnv) (contiguous : Bool)
    (req : Option (Finset ℕ)) (i : ℕ) (x : List ConsecRun × ConsecRun × TSt)
    (S : Finset ℕ) (h1 : x.2.2.node_map ⊆ S)
    (h2 : ∀ j, x.2.2.avail_cpu_per_node j ≠ 0 → j ∈ S) :
    (consec_build_step tenv contiguous req i x).2.2.node_map ⊆ x.2.2.node_map ∧
    (∀ j, (consec_build_step tenv contiguous req i x).2.2.avail_cpu_per_node j ≠ 0 → j ∈ S) ∧
    (∀ r, req = some r → r ⊆ x.2.2.node_map →
      r ⊆ (consec_build_step tenv contiguous req i x).2.2.node_map) := by
  obtain ⟨runs, cur, st⟩ := x
  obtain ⟨hp1, hp2, hp3, hp4⟩ :=
    consec_probe_inv tenv (consec_required_node req i) i st S h1 h2
  simp only [consec_build_step]
  by_cases hnp : (consec_probe tenv (consec_required_node req i) i st).1 = true
  · rw [if_pos hnp]
    by_cases hrn : consec_required_node req i = true
    · rw [if_pos hrn]
      rw [hp4 hrn]
      refine ⟨Finset.Subset.refl _, h2, fun r _ h => h⟩
    · rw [if_neg hrn]
      have hir : ∀ r, req = some r → i ∉ r := by
        intro r hr hmem
        apply hrn
        simp only [consec_required_node, hr, decide_eq_true_eq]
        exact hmem
      refine ⟨?_, hp2, ?_⟩
      · exact (Finset.erase_subset _ _).trans hp1
      · intro r hr hrs y hy
        exact Finset.mem_erase.mpr
          ⟨fun he => (hir r hr) (he ▸ hy), hp3 r (hir r hr) hrs hy⟩
  · rw [if_neg hnp]
    have hreqpres : ∀ r, req = some r → r ⊆ st.node_map →
        r ⊆ (consec_probe tenv (consec_required_node req i) i st).2.node_map := by
      intro r hr hrs
      by_cases hireq : i ∈ r
      · have hrn : consec_required_node req i = true := by
          simp only [consec_required_node, hr, decide_eq_true_eq]
          exact hireq
        rw [hp4 hrn]
        exact hrs
      · exact hp3 r hireq hrs
    refine ⟨?_, ?_, ?_⟩
    · split
      · exact hp1
      · exact hp1
    · intro j
      split
      · exact hp2 j
      · exact hp2 j
    · intro r hr hrs
      split
      · exact hreqpres r hr hrs
      · exact hreqpres r hr hrs

/-- The consec table build shrinks the map, keeps required bits, and
keeps the availability support inside any `S` containing the map. -/
theorem consec_build_inv (tenv : TEnv) (contiguous : Bool)
    (req : Option (Finset ℕ)) (S : Finset ℕ) :
    ∀ (l : List ℕ) (acc : List ConsecRun × ConsecRun × TSt),
      acc.2.2.node_map ⊆ S →
      (∀ j, acc.2.2.avail_cpu_per_node j ≠ 0 → j ∈ S) →
      (l.foldl (fun a i => consec_build_step tenv contiguous req i a) acc).2.2.node_map ⊆
        acc.2.2.node_map ∧
      (∀ j, (l.foldl (fun a i => consec_build_step tenv contiguous req i a) acc).2.2.avail_cpu_per_node j ≠ 0 →
        j ∈ S) ∧
      (∀ r, req = some r → r ⊆ acc.2.2.node_map →
        r ⊆ (l.foldl (fun a i => consec_build_step tenv contiguous req i a) acc).2.2.node_map) := by
  intro l
  induction l with
  | nil =>
    intro acc _ h2
    exact ⟨Finset.Subset.refl _, h2, fun _ _ h => h⟩
  | cons i rest ih =>
    intro acc h1 h2
    obtain ⟨hs1, hs2, hs3⟩ := consec_build_step_inv tenv contiguous req i acc S h1 h2
    obtain ⟨hr1, hr2, hr3⟩ := ih (consec_build_step tenv contiguous req i acc)
      (hs1.trans h1) hs2
    refine ⟨hr1.trans hs1, hr2, ?_⟩
    intro r hr hrs
    exact hr3 r hr (hs3 r hr hrs)

/-- The consec anchored admission walk grows the map only by nodes of the
availability support and does not touch the availability table. -/
theorem consec_admit_updown_inv (tenv : TEnv) (S : Finset ℕ) :
    ∀ (l : List ℕ) (st : TSt), st.node_map ⊆ S →
      (∀ j, st.avail_cpu_per_node j ≠ 0 → j ∈ S) →
      st.node_map ⊆ (consec_admit_updown tenv l st).node_map ∧
      (consec_admit_updown tenv l st).node_map ⊆ S ∧
      (∀ j, (consec_admit_updown tenv l st).avail_cpu_per_node j ≠ 0 → j ∈ S) := by
  intro l
  induction l with
  | nil =>
    intro st h1 h2
    exact ⟨Finset.Subset.refl _, h1, h2⟩
  | cons i rest ih =>
    intro st h1 h2
    simp only [consec_admit_updown]
    split
    · exact ⟨Finset.Subset.refl _, h1, h2⟩
    · split
      · exact ih st h1 h2
      · by_cases hz : st.avail_cpu_per_node i = 0
        · rw [if_pos hz]
          exact ih st h1 h2
        · rw [if_neg hz]
          have hiS : i ∈ S := h2 i hz
          have hrec : ∀ av : ℕ,
              st.node_map ⊆
                (consec_admit_updown tenv rest (consec_charge st i av)).node_map ∧
              (consec_admit_updown tenv rest (consec_charge st i av)).node_map ⊆ S ∧
              (∀ j, (consec_admit_updown tenv rest (consec_charge st i av)).avail_cpu_per_node j ≠ 0 → j ∈ S) := by
            intro av
            obtain ⟨k1, k2, k3⟩ := ih (consec_charge st i av)
              (Finset.insert_subset hiS h1) h2
            exact ⟨(Finset.subset_insert _ _).trans k1, k2, k3⟩
          exact hrec _

/-- The consec no-anchor admission walk grows the map only by nodes of
the availability support and does not touch the availability table. -/
theorem consec_admit_noreq_inv (tenv : TEnv) (S : Finset ℕ) :
    ∀ (l : List ℕ) (st : TSt), st.node_map ⊆ S →
      (∀ j, st.avail_cpu_per_node j ≠ 0 → j ∈ S) →
      st.node_map ⊆ (consec_admit_noreq tenv l st).node_map ∧
      (consec_admit_noreq tenv l st).node_map ⊆ S ∧
      (∀ j, (consec_admit_noreq tenv l st).avail_cpu_per_node j ≠ 0 → j ∈ S) := by
  intro l
  induction l with
  | nil =>
    intro st h1 h2
    exact ⟨Finset.Subset.refl _, h1, h2⟩
  | cons i rest ih =>
    intro st h1 h2
    simp only [consec_admit_noreq]
    split
    · exact ⟨Finset.Subset.refl _, h1, h2⟩
    · split
      · exact ih st h1 h2
      · by_cases hz : st.avail_cpu_per_node i = 0
        · rw [if_pos hz]
          exact ih st h1 h2
        · rw [if_neg hz]
          split
          · exact ih st h1 h2
          · have hiS : i ∈ S := h2 i hz
            have hrec : ∀ av : ℕ,
                st.node_map ⊆
                  (consec_admit_noreq tenv rest (consec_charge st i av)).node_map ∧
                (consec_admit_noreq tenv rest (consec_charge st i av)).node_map ⊆ S ∧
                (∀ j, (consec_admit_noreq tenv rest (consec_charge st i av)).avail_cpu_per_node j ≠ 0 → j ∈ S) := by
              intro av
              obtain ⟨k1, k2, k3⟩ := ih (consec_charge st i av)
                (Finset.insert_subset hiS h1) h2
              exact ⟨(Finset.subset_insert _ _).trans k1, k2, k3⟩
            exact hrec _

/-- The consec per-run admission grows the map only inside `S` and keeps
the availability support inside `S`. -/
theorem consec_admit_run_inv (tenv : TEnv) (b : BestFit) (run : ConsecRun)
    (st : TSt) (S : Finset ℕ) (h1 : st.node_map ⊆ S)
    (h2 : ∀ j, st.avail_cpu_per_node j ≠ 0 → j ∈ S) :
    st.node_map ⊆ (consec_admit_run tenv b run st).node_map ∧
    (consec_admit_run tenv b run st).node_map ⊆ S ∧
    (∀ j, (consec_admit_run tenv b run st).avail_cpu_per_node j ≠ 0 → j ∈ S) := by
  unfold consec_admit_run
  cases b.req with
  | some r =>
    obtain ⟨k1, k2, k3⟩ := consec_admit_updown_inv tenv S
      (List.range' r (run.stop + 1 - r)) st h1 h2
    obtain ⟨m1, m2, m3⟩ := consec_admit_updown_inv tenv S
      ((List.range' run.start (r - run.start)).reverse) _ k2 k3
    exact ⟨k1.trans m1, m2, m3⟩
  | none =>
    set st1 := (if st.rem_nodes ≤ 1 then
        match consec_single_scan tenv st
          (List.range' run.start (run.stop + 1 - run.start)) none with
        | some (bf, _) =>
          { st with
            avail_cpu_per_node := fun j =>
              if run.start ≤ j ∧ j ≤ run.stop ∧ j ≠ bf then 0
              else st.avail_cpu_per_node j }
        | none => st
      else st) with hst1
    have hmap1 : st1.node_map = st.node_map := by
      rw [hst1]
      split
      · split <;> rfl
      · rfl
    have hsupp1 : ∀ j, st1.avail_cpu_per_node j ≠ 0 → j ∈ S := by
      rw [hst1]
      split
      · split
        · case _ bf bs _ =>
          intro j hj
          have hj' : (if run.start ≤ j ∧ j ≤ run.stop ∧ j ≠ bf then 0
              else st.avail_cpu_per_node j) ≠ 0 := hj
          by_cases hcond : run.start ≤ j ∧ j ≤ run.stop ∧ j ≠ bf
          · rw [if_pos hcond] at hj'
            exact absurd rfl hj'
          · rw [if_neg hcond] at hj'
            exact h2 j hj'
        · exact h2
      · exact h2
    obtain ⟨k1, k2, k3⟩ := consec_admit_noreq_inv tenv S
      (List.range' run.start (run.stop + 1 - run.start)) st1
      (by rw [hmap1]; exact h1) hsupp1
    rw [hmap1] at k1
    exact ⟨k1, k2, k3⟩

/-- The consec accumulation loop grows the map only inside `S` and keeps
the availability support inside `S`. -/
theorem consec_best_fit_loop_inv (tenv : TEnv) (mn rn : ℕ)
    (contiguous has_req : Bool) (S : Finset ℕ) :
    ∀ (fuel : ℕ) (runs : List ConsecRun) (prev : BestFit) (st : TSt),
      st.node_map ⊆ S → (∀ j, st.avail_cpu_per_node j ≠ 0 → j ∈ S) →
      st.node_map ⊆ (consec_best_fit_loop tenv mn rn contiguous has_req fuel runs prev st).2.node_map ∧
      (consec_best_fit_loop tenv mn rn contiguous has_req fuel runs prev st).2.node_map ⊆ S := by
  intro fuel
  induction fuel with
  | zero =>
    intro runs prev st h1 _
    exact ⟨Finset.Subset.refl _, h1⟩
  | succ n ih =>
    intro runs prev st h1 h2
    simp only [consec_best_fit_loop]
    split
    · exact ⟨Finset.Subset.refl _, h1⟩
    · split
      · exact ⟨Finset.Subset.refl _, h1⟩
      · split
        · exact ⟨Finset.Subset.refl _, h1⟩
        · obtain ⟨k1, k2, k3⟩ := consec_admit_run_inv tenv _ _ st S h1 h2
          split
          · exact ⟨k1, k2⟩
          · obtain ⟨m1, m2⟩ := ih _ _ _ k2 k3
            exact ⟨k1.trans m1, m2⟩

/-- The consec tail (build through fallback) keeps the final map inside
`S` and keeps required bits present. -/
theorem consec_rest_inv (tenv : TEnv) (details : JobDetails)
    (contiguous : Bool) (req : Option (Finset ℕ)) (mn rn : ℕ) (st : TSt)
    (S : Finset ℕ) (h1 : st.node_map ⊆ S)
    (h2 : ∀ j, st.avail_cpu_per_node j ≠ 0 → j ∈ S) :
    (consec_rest tenv details contiguous req mn rn st).2.node_map ⊆ S ∧
    (∀ r, req = some r → r ⊆ st.node_map →
      r ⊆ (consec_rest tenv details contiguous req mn rn st).2.node_map) := by
  obtain ⟨b1, b2, b3⟩ := consec_build_inv tenv contiguous req S
    (List.range tenv.n)
    ([], (⟨0, 0, 0, 0, none, none, []⟩ : ConsecRun), st) h1 h2
  have hq2 : (consec_build tenv contiguous req st).2 =
      ((List.range tenv.n).foldl
        (fun a i => consec_build_step tenv contiguous req i a)
        ([], (⟨0, 0, 0, 0, none, none, []⟩ : ConsecRun), st)).2.2 := by
    simp only [consec_build]
    split <;> rfl
  have hb1 : (consec_build tenv contiguous req st).2.node_map ⊆ S := by
    rw [hq2]
    exact b1.trans h1
  have hb2 : ∀ j, (consec_build tenv contiguous req st).2.avail_cpu_per_node j ≠ 0 →
      j ∈ S := by
    rw [hq2]
    exact b2
  have hbreq : ∀ r, req = some r → r ⊆ st.node_map →
      r ⊆ (consec_build tenv contiguous req st).2.node_map := by
    rw [hq2]
    exact b3
  have hloop := consec_best_fit_loop_inv tenv mn rn contiguous req.isSome S
    ((consec_build tenv contiguous req st).1.length + 1)
    (consec_build tenv contiguous req st).1
    ⟨0, 0, 0, none, false, some 0⟩
    (consec_build tenv contiguous req st).2 hb1 hb2
  simp only [consec_rest]
  by_cases hov : over_max_cpus details (consec_build tenv contiguous req st).2.total_cpus = true
  · rw [if_pos hov]
    exact ⟨hb1, fun r hr hrs => hbreq r hr hrs⟩
  · rw [if_neg hov]
    refine ⟨?_, ?_⟩
    · split
      · exact hloop.2
      · split
        · exact hloop.2
        · exact hloop.2
    · intro r hr hrs
      have hthis := (hbreq r hr hrs).trans hloop.1
      split
      · exact hthis
      · split
        · exact hthis
        · exact hthis

/-- On consec success, the final map is inside the candidates and holds
every required bit. -/
theorem eval_nodes_consec_map (tenv : TEnv) (details : JobDetails)
    (ce : ConsecExtras) (contiguous : Bool) (mn rn mx : ℕ) (nm : Finset ℕ)
    (hreq_sub : ∀ r, details.req_node_bitmap = some r → r ⊆ nm)
    (hsuc : (eval_nodes_consec tenv details ce contiguous mn rn mx nm).1 = true) :
    (eval_nodes_consec tenv details ce contiguous mn rn mx nm).2.node_map ⊆ nm ∧
    ∀ r, details.req_node_bitmap = some r →
      r ⊆ (eval_nodes_consec tenv details ce contiguous mn rn mx nm).2.node_map := by
  obtain ⟨mc, xc, nt, mg, mjg, rq⟩ := details
  have hst0map : (consec_entry tenv ⟨mc, xc, nt, mg, mjg, rq⟩ mn rn mx nm).node_map = nm := rfl
  have hst0supp : ∀ j,
      (consec_entry tenv ⟨mc, xc, nt, mg, mjg, rq⟩ mn rn mx nm).avail_cpu_per_node j ≠ 0 →
      j ∈ nm := by
    intro j hj
    exact absurd rfl hj
  cases rq with
  | none =>
    obtain ⟨c1, c2⟩ := consec_rest_inv tenv ⟨mc, xc, nt, mg, mjg, none⟩
      contiguous none mn rn
      (consec_entry tenv ⟨mc, xc, nt, mg, mjg, none⟩ mn rn mx nm) nm
      (by rw [hst0map]) hst0supp
    exact ⟨c1, fun r hr => by cases hr⟩
  | some r0 =>
    have hr0 : r0 ⊆ nm := hreq_sub r0 rfl
    have hlsub : ∀ j ∈ bm_list tenv.n r0, j ∈ nm := by
      intro j hj
      simp only [bm_list, List.mem_filter, List.mem_range,
        decide_eq_true_eq] at hj
      exact hr0 hj.2
    cases hloop : consec_required_loop tenv ⟨mc, xc, nt, mg, mjg, some r0⟩ ce
      (bm_list tenv.n r0) 0
      (consec_entry tenv ⟨mc, xc, nt, mg, mjg, some r0⟩ mn rn mx nm) with
    | error st =>
      simp only [eval_nodes_consec, hloop] at hsuc
      simp at hsuc
    | ok st =>
      simp only [eval_nodes_consec, hloop] at hsuc ⊢
      obtain ⟨hmapeq, hsupp⟩ := consec_required_loop_inv tenv
        ⟨mc, xc, nt, mg, mjg, some r0⟩ ce nm (bm_list tenv.n r0) 0
        (consec_entry tenv ⟨mc, xc, nt, mg, mjg, some r0⟩ mn rn mx nm)
        hst0supp hlsub
      rw [hloop] at hmapeq hsupp
      simp only [exceptSt] at hmapeq hsupp
      rw [hst0map] at hmapeq
      by_cases hsu : st.rem_nodes ≤ 0 ∧ st.rem_cpus ≤ 0 ∧ tenv.gres_test = true
      · rw [if_pos hsu]
        constructor
        · intro x hx
          have hx1 : x ∈ st.node_map := Finset.mem_inter.mp hx |>.1
          rw [hmapeq] at hx1
          exact hx1
        · intro r hr
          injection hr with hr
          subst hr
          intro x hx
          exact Finset.mem_inter.mpr ⟨by rw [hmapeq]; exact hr0 hx, hx⟩
      · rw [if_neg hsu] at hsuc ⊢
        by_cases hm0 : st.max_nodes = 0
        · rw [if_pos hm0] at hsuc
          simp at hsuc
        · rw [if_neg hm0] at hsuc ⊢
          obtain ⟨c1, c2⟩ := consec_rest_inv tenv ⟨mc, xc, nt, mg, mjg, some r0⟩
            contiguous (some r0) mn rn st nm (by rw [hmapeq]) hsupp
          refine ⟨c1, ?_⟩
          intro r hr
          injection hr with hr
          subst hr
          exact c2 r0 rfl (by rw [hmapeq]; exact hr0)

/-! ### Bitmap containment of the dfly strategy -/

/-- `getD` with the empty default stays inside any bound on the list
elements. -/
theorem getD_subset : ∀ (l : List (Finset ℕ)) (S : Finset ℕ),
    (∀ b ∈ l, b ⊆ S) → ∀ i, l.getD i ∅ ⊆ S := by
  intro l
  induction l with
  | nil =>
    intro S _ i
    cases i <;> exact Finset.empty_subset _
  | cons b rest ih =>
    intro S h i
    cases i with
    | zero =>
      rw [List.getD_cons_zero]
      exact h b (by simp)
    | succ k =>
      rw [List.getD_cons_succ]
      exact ih S (fun x hx => h x (by simp [hx])) k

/-- Members of `bm_list` lie in the bitmap. -/
theorem bm_list_subset (n : ℕ) (bm S : Finset ℕ) (h : bm ⊆ S) :
    ∀ j ∈ bm_list n bm, j ∈ S := by
  intro j hj
  simp only [bm_list, List.mem_filter, List.mem_range, decide_eq_true_eq] at hj
  exact h hj.2

/-- The dfly required admission leaves `node_map` unchanged. -/
theorem dfly_req_admit_map (tenv : TEnv) :
    ∀ (l : List ℕ) (st : TSt),
      (exceptSt (dfly_req_adm tenv l st)).node_map = st.node_map := by
  intro l
  induction l with
  | nil =>
    intro st
    rfl
  | cons i rest ih =>
    intro st
    simp only [dfly_req_adm]
    split
    · split
      · rfl
      · exact ih _
    · split
      · rfl
      · exact ih _

/-- One dfly accumulation tier keeps the map and grows `best` only by
walked indices. -/
theorem dfly_accum_tier_inv (tenv : TEnv) (top_bm S : Finset ℕ) :
    ∀ (l : List ℕ) (acc : TSt × Finset ℕ × ℤ × ℕ × List ℕ),
      (∀ j ∈ l, j ∈ S) → acc.2.1 ⊆ S →
      (dfly_accum_tier tenv top_bm l acc).1.node_map = acc.1.node_map ∧
      (dfly_accum_tier tenv top_bm l acc).2.1 ⊆ S := by
  intro l
  induction l with
  | nil =>
    intro acc _ hb
    exact ⟨rfl, hb⟩
  | cons i rest ih =>
    intro acc hl hb
    obtain ⟨st, best, cpu, cnt, bucket⟩ := acc
    have hiS : i ∈ S := hl i (by simp)
    have hrest : ∀ j ∈ rest, j ∈ S := fun j hj => hl j (by simp [hj])
    simp only [dfly_accum_tier]
    split
    · exact ih _ hrest hb
    · split
      · exact ih _ hrest hb
      · split
        · exact ih _ hrest hb
        · exact ih _ hrest (Finset.insert_subset hiS hb)

/-- The dfly best-nodes loop keeps the map and keeps `best` and `req2`
inside the union of the tiers. -/
theorem dfly_accum_inv (tenv : TEnv) (mn rn : ℕ) (rem_cpus rem_nodes : ℤ)
    (top_bm S : Finset ℕ) :
    ∀ (tiers : List (ℕ × Finset ℕ))
      (acc : TSt × Finset ℕ × Option (Finset ℕ) × ℤ × ℕ × List ℕ × Bool),
      (∀ t ∈ tiers, t.2 ⊆ S) → acc.2.1 ⊆ S → acc.2.2.1.getD ∅ ⊆ S →
      (dfly_accum tenv mn rn rem_cpus rem_nodes top_bm tiers acc).1.node_map =
        acc.1.node_map ∧
      (dfly_accum tenv mn rn rem_cpus rem_nodes top_bm tiers acc).2.1 ⊆ S ∧
      (dfly_accum tenv mn rn rem_cpus rem_nodes top_bm tiers acc).2.2.1.getD ∅ ⊆ S := by
  intro tiers
  induction tiers with
  | nil =>
    intro acc _ hb hr
    exact ⟨rfl, hb, hr⟩
  | cons t rest ih =>
    intro acc htiers hb hr
    obtain ⟨w, bm⟩ := t
    obtain ⟨st, best, req2, cpu, cnt, bucket, suff⟩ := acc
    have hbm : bm ⊆ S := htiers (w, bm) (by simp)
    have hrest : ∀ u ∈ rest, u.2 ⊆ S := fun u hu => htiers u (by simp [hu])
    simp only [dfly_accum]
    split
    · exact ⟨rfl, hb, hr⟩
    · have hreq2' : (if 0 < cnt then some (req2.getD ∅ ∪ best) else req2).getD ∅ ⊆ S := by
        split
        · rw [Option.getD_some]
          exact Finset.union_subset hr hb
        · exact hr
      obtain ⟨t1, t2⟩ := dfly_accum_tier_inv tenv top_bm S (bm_list tenv.n bm)
        (st, best, cpu, cnt, bucket) (bm_list_subset tenv.n bm S hbm) hb
      set T := dfly_accum_tier tenv top_bm (bm_list tenv.n bm)
        (st, best, cpu, cnt, bucket) with hT
      have hrec : ∀ sf : Bool,
          (dfly_accum tenv mn rn rem_cpus rem_nodes top_bm rest
            (T.1, T.2.1, (if 0 < cnt then some (req2.getD ∅ ∪ best) else req2),
              T.2.2.1, T.2.2.2.1, T.2.2.2.2, sf)).1.node_map = st.node_map ∧
          (dfly_accum tenv mn rn rem_cpus rem_nodes top_bm rest
            (T.1, T.2.1, (if 0 < cnt then some (req2.getD ∅ ∪ best) else req2),
              T.2.2.1, T.2.2.2.1, T.2.2.2.2, sf)).2.1 ⊆ S ∧
          (dfly_accum tenv mn rn rem_cpus rem_nodes top_bm rest
            (T.1, T.2.1, (if 0 < cnt then some (req2.getD ∅ ∪ best) else req2),
              T.2.2.1, T.2.2.2.1, T.2.2.2.2, sf)).2.2.1.getD ∅ ⊆ S := by
        intro sf
        obtain ⟨k1, k2, k3⟩ := ih (T.1, T.2.1,
          (if 0 < cnt then some (req2.getD ∅ ∪ best) else req2),
          T.2.2.1, T.2.2.2.1, T.2.2.2.2, sf) hrest t2 hreq2'
        exact ⟨k1.trans t1, k2, k3⟩
      exact hrec _

/-- The dfly req2 charging loop leaves `node_map` unchanged. -/
theorem dfly_req2_charge_map (tenv : TEnv) :
    ∀ (l : List ℕ) (st : TSt),
      (dfly_req2_charge tenv l st).node_map = st.node_map := by
  intro l
  induction l with
  | nil =>
    intro st
    rfl
  | cons i rest ih =>
    intro st
    simp only [dfly_req2_charge]
    split
    · rfl
    · exact ih _

/-- A dfly leaf admission walk grows the map only by walked indices. -/
theorem dfly_leaf_admit_map (tenv : TEnv) (i : ℕ) (rr : Bool) (S : Finset ℕ) :
    ∀ (l : List ℕ) (st : TSt), (∀ j ∈ l, j ∈ S) →
      st.node_map ⊆ (dfly_leaf_adm tenv i rr l st).st.node_map ∧
      (dfly_leaf_adm tenv i rr l st).st.node_map ⊆ st.node_map ∪ S := by
  intro l
  induction l with
  | nil =>
    intro st _
    exact ⟨Finset.Subset.refl _, Finset.subset_union_left⟩
  | cons j rest ih =>
    intro st hl
    have hjS : j ∈ S := hl j (by simp)
    have hrest : ∀ x ∈ rest, x ∈ S := fun x hx => hl x (by simp [hx])
    have hins : insert j st.node_map ⊆ st.node_map ∪ S := by
      intro x hx
      rcases Finset.mem_insert.mp hx with rfl | hx
      · exact Finset.mem_union_right _ hjS
      · exact Finset.mem_union_left _ hx
    have hstep : ∀ av : ℕ,
        st.node_map ⊆ (dfly_leaf_adm tenv i rr rest (t_charge st j av)).st.node_map ∧
        (dfly_leaf_adm tenv i rr rest (t_charge st j av)).st.node_map ⊆
          st.node_map ∪ S := by
      intro av
      obtain ⟨k1, k2⟩ := ih (t_charge st j av) hrest
      constructor
      · exact (Finset.subset_insert _ _).trans k1
      · refine k2.trans ?_
        intro x hx
        rcases Finset.mem_union.mp hx with hx | hx
        · exact hins hx
        · exact Finset.mem_union_right _ hx
    simp only [dfly_leaf_adm]
    split
    · exact ih st hrest
    · split
      · split
        · exact ⟨Finset.subset_insert _ _, hins⟩
        · split
          · exact ⟨Finset.subset_insert _ _, hins⟩
          · split
            · exact ⟨Finset.subset_insert _ _, hins⟩
            · exact hstep _
      · split
        · exact ⟨Finset.subset_insert _ _, hins⟩
        · split
          · exact ⟨Finset.subset_insert _ _, hins⟩
          · split
            · exact ⟨Finset.subset_insert _ _, hins⟩
            · exact hstep _

/-- One dfly round-robin pass grows the map only by switch-bitmap
members. -/
theorem dfly_rr_pass_map (tenv : TEnv) (n : ℕ) (S : Finset ℕ) :
    ∀ (swl : List (ℕ × ℕ × Finset ℕ)) (st : TSt),
      (∀ x ∈ swl, x.2.2 ⊆ S) →
      st.node_map ⊆ (dfly_rr_pass tenv n swl st).st.node_map ∧
      (dfly_rr_pass tenv n swl st).st.node_map ⊆ st.node_map ∪ S := by
  intro swl
  induction swl with
  | nil =>
    intro st _
    exact ⟨Finset.Subset.refl _, Finset.subset_union_left⟩
  | cons x rest ih =>
    intro st hsw
    obtain ⟨i, lvl, bm⟩ := x
    have hbm : bm ⊆ S := hsw (i, lvl, bm) (by simp)
    have hrest : ∀ y ∈ rest, y.2.2 ⊆ S := fun y hy => hsw y (by simp [hy])
    simp only [dfly_rr_pass]
    split
    · exact ih st hrest
    · obtain ⟨a1, a2⟩ := dfly_leaf_admit_map tenv i true S (bm_list n bm) st
        (bm_list_subset n bm S hbm)
    /- case analysis on the admission outcome -/
      cases hadm : dfly_leaf_adm tenv i true (bm_list n bm) st with
      | success st' =>
        rw [hadm] at a1 a2
        exact ⟨a1, a2⟩
      | error st' =>
        rw [hadm] at a1 a2
        exact ⟨a1, a2⟩
      | cont st' =>
        rw [hadm] at a1 a2
        obtain ⟨k1, k2⟩ := ih st' hrest
        refine ⟨a1.trans k1, k2.trans ?_⟩
        intro y hy
        rcases Finset.mem_union.mp hy with hy | hy
        · exact a2 hy
        · exact Finset.mem_union_right _ hy

/-- The dfly round-robin loop grows the map only by switch-bitmap
members. -/
theorem dfly_rr_loop_map (tenv : TEnv) (S : Finset ℕ)
    (swl : List (ℕ × ℕ × Finset ℕ)) (hsw : ∀ x ∈ swl, x.2.2 ⊆ S) :
    ∀ (fuel : ℕ) (prev : ℤ) (st : TSt),
      st.node_map ⊆ (dfly_rr_loop tenv swl fuel prev st).st.node_map ∧
      (dfly_rr_loop tenv swl fuel prev st).st.node_map ⊆ st.node_map ∪ S := by
  intro fuel
  induction fuel with
  | zero =>
    intro prev st
    exact ⟨Finset.Subset.refl _, Finset.subset_union_left⟩
  | succ k ih =>
    intro prev st
    simp only [dfly_rr_loop]
    split
    · exact ⟨Finset.Subset.refl _, Finset.subset_union_left⟩
    · obtain ⟨a1, a2⟩ := dfly_rr_pass_map tenv tenv.n S swl st hsw
      cases hpass : dfly_rr_pass tenv tenv.n swl st with
      | success st' =>
        rw [hpass] at a1 a2
        exact ⟨a1, a2⟩
      | error st' =>
        rw [hpass] at a1 a2
        exact ⟨a1, a2⟩
      | cont st' =>
        rw [hpass] at a1 a2
        obtain ⟨k1, k2⟩ := ih st.rem_nodes st'
        refine ⟨a1.trans k1, k2.trans ?_⟩
        intro y hy
        rcases Finset.mem_union.mp hy with hy | hy
        · exact a2 hy
        · exact Finset.mem_union_right _ hy

/-- Every topo weight tier is a subset of the bitmap it was built from. -/
theorem topo_weight_tiers_subset (tenv : TEnv) (bm : Finset ℕ) :
    ∀ t ∈ topo_weight_tiers tenv bm, t.2 ⊆ bm := by
  intro t ht
  simp only [topo_weight_tiers, List.mem_map] at ht
  obtain ⟨w, _, rfl⟩ := ht
  exact Finset.filter_subset _ _

/-- The dfly req2 block grows the map exactly by the req2 bits. -/
theorem dfly_after_req2_inv (tenv : TEnv) (sw : List SwitchCfg)
    (swb1 : List (Finset ℕ)) (swreq0 : List Bool) (leaf0 : ℕ)
    (req2 : Option (Finset ℕ)) (st : TSt) :
    st.node_map ⊆ (dfly_after_req2 tenv sw swb1 swreq0 leaf0 req2 st).2.1.node_map ∧
    (dfly_after_req2 tenv sw swb1 swreq0 leaf0 req2 st).2.1.node_map ⊆
      st.node_map ∪ req2.getD ∅ := by
  cases req2 with
  | none =>
    exact ⟨Finset.Subset.refl _, Finset.subset_union_left⟩
  | some r2 =>
    have hch := dfly_req2_charge_map tenv (bm_list tenv.n r2) st
    simp only [dfly_after_req2]
    constructor
    · split
      · show st.node_map ⊆
          (dfly_req2_charge tenv (bm_list tenv.n r2) st).node_map ∪ r2
        rw [hch]
        exact Finset.subset_union_left
      · split
        · show st.node_map ⊆
            (dfly_req2_charge tenv (bm_list tenv.n r2) st).node_map ∪ r2
          rw [hch]
          exact Finset.subset_union_left
        · show st.node_map ⊆
            (dfly_req2_charge tenv (bm_list tenv.n r2) st).node_map ∪ r2
          rw [hch]
          exact Finset.subset_union_left
    · split
      · show (dfly_req2_charge tenv (bm_list tenv.n r2) st).node_map ∪ r2 ⊆
          st.node_map ∪ r2
        rw [hch]
      · split
        · show (dfly_req2_charge tenv (bm_list tenv.n r2) st).node_map ∪ r2 ⊆
            st.node_map ∪ r2
          rw [hch]
        · show (dfly_req2_charge tenv (bm_list tenv.n r2) st).node_map ∪ r2 ⊆
            st.node_map ∪ r2
          rw [hch]

/-- The single-leaf completion grows the map only by switch-bitmap
members. -/
theorem dfly_one_leaf_map (tenv : TEnv) (sw : List SwitchCfg) (mn rn : ℕ)
    (swreq : List Bool) (swb : List (Finset ℕ)) (leaf_cnt : ℕ) (st : TSt)
    (S : Finset ℕ) (hswb : ∀ b ∈ swb, b ⊆ S) :
    st.node_map ⊆ (dfly_one_leaf tenv sw mn rn swreq swb leaf_cnt st).st.node_map ∧
    (dfly_one_leaf tenv sw mn rn swreq swb leaf_cnt st).st.node_map ⊆
      st.node_map ∪ S := by
  simp only [dfly_one_leaf]
  split
  · cases hfound : (List.range sw.length).find?
      (fun i => swreq.getD i false ∧
        (sw.getD i ⟨0, ∅, 0, fun _ => 0⟩).level = 0) with
    | some i =>
      simp only [hfound]
      have hadm := dfly_leaf_admit_map tenv i false S
        (bm_list tenv.n (swb.getD i ∅)) st
        (bm_list_subset tenv.n _ S (getD_subset swb S hswb i))
      split
      · split
        · exact hadm
        · exact ⟨Finset.Subset.refl _, Finset.subset_union_left⟩
      · split
        · exact hadm
        · exact ⟨Finset.Subset.refl _, Finset.subset_union_left⟩
    | none =>
      simp only [hfound]
      exact ⟨Finset.Subset.refl _, Finset.subset_union_left⟩
  · exact ⟨Finset.Subset.refl _, Finset.subset_union_left⟩

/-- The dfly round-robin stage grows the map only by switch-bitmap
members. -/
theorem dfly_rr_map (tenv : TEnv) (sw : List SwitchCfg)
    (swb : List (Finset ℕ)) (st : TSt) (S : Finset ℕ)
    (hswb : ∀ b ∈ swb, b ⊆ S) :
    st.node_map ⊆ (dfly_rr tenv sw swb st).st.node_map ∧
    (dfly_rr tenv sw swb st).st.node_map ⊆ st.node_map ∪ S := by
  have hswl : ∀ x ∈ (List.range sw.length).map
      (fun i => (i, (sw.getD i ⟨0, ∅, 0, fun _ => 0⟩).level, swb.getD i ∅)),
      x.2.2 ⊆ S := by
    intro x hx
    simp only [List.mem_map] at hx
    obtain ⟨i, _, rfl⟩ := hx
    exact getD_subset swb S hswb i
  exact dfly_rr_loop_map tenv S _ hswl _ _ st

/-- The dfly closing stages grow the map only by switch-bitmap members. -/
theorem dfly_tail_map (tenv : TEnv) (sw : List SwitchCfg) (mn rn : ℕ)
    (swb : List (Finset ℕ)) (el : List Bool × ℕ) (st : TSt) (S : Finset ℕ)
    (hswb : ∀ b ∈ swb, b ⊆ S) :
    st.node_map ⊆ (dfly_tail tenv sw mn rn swb el st).2.node_map ∧
    (dfly_tail tenv sw mn rn swb el st).2.node_map ⊆ st.node_map ∪ S := by
  obtain ⟨C1, C2⟩ := dfly_one_leaf_map tenv sw mn rn el.1 swb el.2 st S hswb
  cases hol : dfly_one_leaf tenv sw mn rn el.1 swb el.2 st with
  | success s1 =>
    rw [hol] at C1 C2
    simp only [TOut.st] at C1 C2
    simp only [dfly_tail, hol]
    exact ⟨C1, C2⟩
  | error s1 =>
    rw [hol] at C1 C2
    simp only [TOut.st] at C1 C2
    simp only [dfly_tail, hol]
    exact ⟨C1, C2⟩
  | cont s1 =>
    rw [hol] at C1 C2
    simp only [TOut.st] at C1 C2
    obtain ⟨D1, D2⟩ := dfly_rr_map tenv sw swb s1 S hswb
    cases hrr : dfly_rr tenv sw swb s1 with
    | success s2 =>
      rw [hrr] at D1 D2
      simp only [TOut.st] at D1 D2
      simp only [dfly_tail, hol, hrr]
      exact ⟨C1.trans D1, D2.trans (Finset.union_subset C2 Finset.subset_union_right)⟩
    | error s2 =>
      rw [hrr] at D1 D2
      simp only [TOut.st] at D1 D2
      simp only [dfly_tail, hol, hrr]
      exact ⟨C1.trans D1, D2.trans (Finset.union_subset C2 Finset.subset_union_right)⟩
    | cont s2 =>
      rw [hrr] at D1 D2
      simp only [TOut.st] at D1 D2
      simp only [dfly_tail, hol, hrr]
      split
      · exact ⟨C1.trans D1, D2.trans (Finset.union_subset C2 Finset.subset_union_right)⟩
      · exact ⟨C1.trans D1, D2.trans (Finset.union_subset C2 Finset.subset_union_right)⟩

/-- The dfly core grows the candidate map monotonically and keeps it
inside any `S` containing the entry map and all tier bitmaps. -/
theorem dfly_core_map (tenv : TEnv) (sw : List SwitchCfg)
    (req : Option (Finset ℕ)) (mn rn top : ℕ) (swreq0 : List Bool)
    (leaf0 : ℕ) (tiers : List (ℕ × Finset ℕ)) (st : TSt) (nm : Finset ℕ)
    (htiers : ∀ t ∈ tiers, t.2 ⊆ nm) (hst : st.node_map ⊆ nm) :
    st.node_map ⊆ (dfly_core tenv sw req mn rn top swreq0 leaf0 tiers st).2.1.node_map ∧
    (dfly_core tenv sw req mn rn top swreq0 leaf0 tiers st).2.1.node_map ⊆ nm := by
  have hAinv := dfly_accum_inv tenv mn rn st.rem_cpus st.rem_nodes
    ((sw.map (fun s => s.nodes)).getD top ∅) nm tiers
    (st, ∅, none, 0, 0, [], false) htiers (Finset.empty_subset _)
    (Finset.empty_subset _)
  simp only [dfly_core]
  set swb1 := (List.range sw.length).map
    (fun i => if i = top then (sw.map (fun s => s.nodes)).getD i ∅
      else (sw.map (fun s => s.nodes)).getD i ∅ ∩
        (sw.map (fun s => s.nodes)).getD top ∅) with hswb1
  set A := dfly_accum tenv mn rn st.rem_cpus st.rem_nodes
    ((sw.map (fun s => s.nodes)).getD top ∅) tiers
    (st, ∅, none, 0, 0, [], false) with hA
  have A1 : A.1.node_map = st.node_map := hAinv.1
  have A2 : A.2.1 ⊆ nm := hAinv.2.1
  have A3 : A.2.2.1.getD ∅ ⊆ nm := hAinv.2.2
  split
  · constructor
    · rw [A1]
    · rw [A1]
      exact hst
  · obtain ⟨B1, B2⟩ := dfly_after_req2_inv tenv sw swb1 swreq0 leaf0
      A.2.2.1 A.1
    set AR := dfly_after_req2 tenv sw swb1 swreq0 leaf0 A.2.2.1 A.1 with hAR
    have hC1 : st.node_map ⊆ AR.2.1.node_map := by
      rw [← A1]
      exact B1
    have hC2 : AR.2.1.node_map ⊆ nm := by
      refine B2.trans ?_
      rw [A1]
      exact Finset.union_subset hst A3
    split
    · exact ⟨hC1, hC2⟩
    · set best2 := A.2.1 ∪ AR.2.1.node_map with hbest2
      have hbest2nm : best2 ⊆ nm := by
        rw [hbest2]
        exact Finset.union_subset A2 hC2
      set swb := swb1.map (fun b => b ∩ best2) with hswb
      have hsw : ∀ b ∈ swb, b ⊆ nm := by
        intro b hb
        rw [hswb] at hb
        simp only [List.mem_map] at hb
        obtain ⟨x, _, rfl⟩ := hb
        exact (Finset.inter_subset_right).trans hbest2nm
      split
      · exact ⟨hC1, hC2⟩
      · obtain ⟨C1, C2⟩ := dfly_tail_map tenv sw mn rn swb
          (dfly_elect sw swb AR.2.2.1 AR.2.2.2) AR.2.1 nm hsw
        exact ⟨hC1.trans C1,
          C2.trans (Finset.union_subset hC2 (Finset.Subset.refl _))⟩

/-- The post-admission dfly verdicts keep the map inside the candidates
and keep every required node that the entry map held. -/
theorem dfly_req2_verdict_map (tenv : TEnv) (req : Option (Finset ℕ))
    (st : TSt) (nm : Finset ℕ) (hst : st.node_map ⊆ nm) :
    (dfly_req2_verdict tenv req st).2.node_map ⊆ nm ∧
    ∀ r, req = some r → r ⊆ st.node_map →
      r ⊆ (dfly_req2_verdict tenv req st).2.node_map := by
  cases req with
  | none =>
    refine ⟨Finset.empty_subset _, ?_⟩
    intro r hr
    cases hr
  | some r0 =>
    have hmap : r0 ⊆ st.node_map → r0 ⊆ st.node_map ∩ r0 :=
      fun h => Finset.subset_inter h (Finset.Subset.refl _)
    have hnm : st.node_map ∩ r0 ⊆ nm := Finset.inter_subset_left.trans hst
    simp only [dfly_req2_verdict]
    split
    · refine ⟨hnm, ?_⟩
      intro r hr hsub
      cases hr
      exact hmap hsub
    · split
      · refine ⟨hnm, ?_⟩
        intro r hr hsub
        cases hr
        exact hmap hsub
      · refine ⟨hnm, ?_⟩
        intro r hr hsub
        cases hr
        exact hmap hsub

/-- The dfly stages after required admission keep the map inside the
candidates (given tier bitmaps inside them) and keep every required node
the entry map held. -/
theorem dfly_after_admit_map (tenv : TEnv) (sw : List SwitchCfg)
    (req : Option (Finset ℕ)) (mn rn : ℕ) (tiers : List (ℕ × Finset ℕ))
    (st : TSt) (nm : Finset ℕ) (htiers : ∀ t ∈ tiers, t.2 ⊆ nm)
    (hst : st.node_map ⊆ nm) :
    (dfly_after_adm tenv sw req mn rn tiers st).2.1.node_map ⊆ nm ∧
    ∀ r, req = some r → r ⊆ st.node_map →
      r ⊆ (dfly_after_adm tenv sw req mn rn tiers st).2.1.node_map := by
  obtain ⟨V1, V2⟩ := dfly_req2_verdict_map tenv req st nm hst
  cases har : (dfly_req2_verdict tenv req st).1 with
  | some v =>
    simp only [dfly_after_adm, har]
    exact ⟨V1, V2⟩
  | none =>
    simp only [dfly_after_adm, har]
    cases hcls : (dfly_top_switch req tiers sw 0 ([], 0, none)).2.2 with
    | none =>
      simp only [hcls]
      exact ⟨V1, V2⟩
    | some p =>
      obtain ⟨top, lvl⟩ := p
      simp only [hcls]
      split
      · exact ⟨V1, V2⟩
      · obtain ⟨D1, D2⟩ := dfly_core_map tenv sw req mn rn top
          (dfly_top_switch req tiers sw 0 ([], 0, none)).1
          (dfly_top_switch req tiers sw 0 ([], 0, none)).2.1 tiers
          (dfly_req2_verdict tenv req st).2 nm htiers V1
        refine ⟨D2, ?_⟩
        intro r hr hsub
        exact (V2 r hr hsub).trans D1

/-- On every successful dfly run, the selected map lies inside the entry
candidates and contains every required node. -/
theorem eval_nodes_dfly_full_map (tenv : TEnv) (sw : List SwitchCfg)
    (details : JobDetails) (rsw w4s tw mn rn mx : ℕ) (nm : Finset ℕ)
    (hsuc : (eval_nodes_dfly_full tenv sw details rsw w4s tw mn rn mx nm).1 = true) :
    (eval_nodes_dfly_full tenv sw details rsw w4s tw mn rn mx nm).2.1.node_map ⊆ nm ∧
    ∀ r, details.req_node_bitmap = some r →
      r ⊆ (eval_nodes_dfly_full tenv sw details rsw w4s tw mn rn mx nm).2.1.node_map := by
  have htiers := topo_weight_tiers_subset tenv nm
  cases hreqbm : details.req_node_bitmap with
  | none =>
    simp only [eval_nodes_dfly_full, hreqbm, Bool.true_eq_false, if_false,
      dfly_req_adm] at hsuc ⊢
    by_cases hcard : nm.card = 0
    · rw [if_pos hcard] at hsuc
      exact Bool.noConfusion hsuc
    · rw [if_neg hcard] at hsuc ⊢
      obtain ⟨B1, _⟩ := dfly_after_admit_map tenv sw none mn rn
        (topo_weight_tiers tenv nm)
        (topo_entry tenv details mn rn mx nm) nm htiers
        (Finset.Subset.refl _)
      refine ⟨B1, ?_⟩
      intro r hr
      cases hr
  | some r0 =>
    simp only [eval_nodes_dfly_full, hreqbm] at hsuc ⊢
    by_cases hrc : (decide (r0 ⊆ nm) && decide (r0.card ≠ 0) &&
        decide (r0.card ≤ mx)) = false
    · rw [if_pos hrc] at hsuc
      exact Bool.noConfusion hsuc
    · rw [if_neg hrc] at hsuc ⊢
      have hrc' : (decide (r0 ⊆ nm) && decide (r0.card ≠ 0) &&
          decide (r0.card ≤ mx)) = true := by
        revert hrc
        cases decide (r0 ⊆ nm) && decide (r0.card ≠ 0) &&
          decide (r0.card ≤ mx) <;> simp
      have hr0nm : r0 ⊆ nm := by
        simp only [Bool.and_eq_true, decide_eq_true_eq] at hrc'
        exact hrc'.1.1
      by_cases hcard : nm.card = 0
      · rw [if_pos hcard] at hsuc
        exact Bool.noConfusion hsuc
      · rw [if_neg hcard] at hsuc ⊢
        cases hadm : dfly_req_adm tenv
            ((bm_list tenv.n nm).filter (fun i => i ∈ r0))
            (topo_entry tenv details mn rn mx nm) with
        | error st1 =>
          simp only [hadm] at hsuc
          exact Bool.noConfusion hsuc
        | ok st1 =>
          simp only [hadm] at hsuc ⊢
          have hst1 : st1.node_map = nm := by
            have := dfly_req_admit_map tenv
              ((bm_list tenv.n nm).filter (fun i => i ∈ r0))
              (topo_entry tenv details mn rn mx nm)
            rw [hadm] at this
            exact this
          obtain ⟨B1, B2⟩ := dfly_after_admit_map tenv sw (some r0) mn rn
            (topo_weight_tiers tenv nm) st1 nm htiers (hst1 ▸ Finset.Subset.refl _)
          refine ⟨B1, ?_⟩
          intro r hr
          cases hr
          exact B2 r0 rfl (hst1 ▸ hr0nm)

/-! ### Bitmap containment of the topo strategy -/

/-- One topo accumulation tier keeps the map, keeps the (shrinking) tier
bitmap inside `S`, and grows `best` only by walked indices. -/
theorem topo_accum_tier_inv (tenv : TEnv) (req : Option (Finset ℕ))
    (top_bm S : Finset ℕ) :
    ∀ (l : List ℕ) (acc : Finset ℕ × TSt × Finset ℕ × ℤ × ℕ × List ℕ),
      (∀ j ∈ l, j ∈ S) → acc.1 ⊆ S → acc.2.2.1 ⊆ S →
      (topo_accum_tier tenv req top_bm l acc).1 ⊆ S ∧
      (topo_accum_tier tenv req top_bm l acc).2.1.node_map =
        acc.2.1.node_map ∧
      (topo_accum_tier tenv req top_bm l acc).2.2.1 ⊆ S := by
  intro l
  induction l with
  | nil =>
    intro acc _ h1 h2
    exact ⟨h1, rfl, h2⟩
  | cons i rest ih =>
    intro acc hl h1 h2
    obtain ⟨tbm, st, best, cpu, cnt, bucket⟩ := acc
    have hiS : i ∈ S := hl i (by simp)
    have hrest : ∀ j ∈ rest, j ∈ S := fun j hj => hl j (by simp [hj])
    simp only [topo_accum_tier]
    split
    · exact ih _ hrest h1 h2
    · split
      · exact ih _ hrest h1 h2
      · split
        · exact ih _ hrest ((Finset.erase_subset _ _).trans h1) h2
        · exact ih _ hrest h1 (Finset.insert_subset hiS h2)

/-- The topo best-nodes loop keeps the map, keeps the (possibly cleared)
tier bitmaps inside `S`, and keeps `best` and `req2` inside `S`. -/
theorem topo_accum_inv (tenv : TEnv) (req : Option (Finset ℕ))
    (top_bm : Finset ℕ) (mn rn : ℕ) (rem_cpus rem_nodes : ℤ) (S : Finset ℕ) :
    ∀ (tiers : List (ℕ × Finset ℕ)) (acc : AccumSt),
      (∀ t ∈ tiers, t.2 ⊆ S) → acc.best ⊆ S → acc.req2.getD ∅ ⊆ S →
      (∀ t ∈ (topo_accum tenv req top_bm mn rn rem_cpus rem_nodes tiers acc).1,
        t.2 ⊆ S) ∧
      (topo_accum tenv req top_bm mn rn rem_cpus rem_nodes tiers acc).2.st.node_map
        = acc.st.node_map ∧
      (topo_accum tenv req top_bm mn rn rem_cpus rem_nodes tiers acc).2.best ⊆ S ∧
      (topo_accum tenv req top_bm mn rn rem_cpus rem_nodes tiers
        acc).2.req2.getD ∅ ⊆ S := by
  intro tiers
  induction tiers with
  | nil =>
    intro acc h0 h1 h2
    refine ⟨?_, rfl, h1, h2⟩
    intro t ht
    simp [topo_accum] at ht
  | cons wb rest ih =>
    intro acc h0 h1 h2
    obtain ⟨w, bm⟩ := wb
    obtain ⟨ast, abest, areq2, acpu, acnt, abucket, asuff, areqd⟩ := acc
    have hbm : bm ⊆ S := h0 (w, bm) (by simp)
    have hrest : ∀ t ∈ rest, t.2 ⊆ S := fun t ht => h0 t (by simp [ht])
    simp only [topo_accum]
    split
    · exact ⟨h0, rfl, h1, h2⟩
    · have hQ : (if 0 < acnt then some (areq2.getD ∅ ∪ abest)
          else areq2).getD ∅ ⊆ S := by
        split
        · exact Finset.union_subset h2 h1
        · exact h2
      split
      · have hr := ih ⟨ast, abest,
          if 0 < acnt then some (areq2.getD ∅ ∪ abest) else areq2,
          acpu, acnt, abucket, asuff, areqd⟩ hrest h1 hQ
        refine ⟨?_, hr.2.1, hr.2.2.1, hr.2.2.2⟩
        intro t ht
        rcases List.mem_cons.mp ht with rfl | ht
        · exact hbm
        · exact hr.1 t ht
      · have hT := topo_accum_tier_inv tenv req top_bm S (bm_list tenv.n bm)
          (bm, ast, abest, acpu, acnt, abucket)
          (bm_list_subset tenv.n bm S hbm) hbm h1
        set T := topo_accum_tier tenv req top_bm (bm_list tenv.n bm)
          (bm, ast, abest, acpu, acnt, abucket) with hTd
        have hrec : ∀ (sf rq : Bool),
            (∀ t ∈ (topo_accum tenv req top_bm mn rn rem_cpus rem_nodes rest
              ⟨T.2.1, T.2.2.1,
               if 0 < acnt then some (areq2.getD ∅ ∪ abest) else areq2,
               T.2.2.2.1, T.2.2.2.2.1, T.2.2.2.2.2, sf, rq⟩).1, t.2 ⊆ S) ∧
            (topo_accum tenv req top_bm mn rn rem_cpus rem_nodes rest
              ⟨T.2.1, T.2.2.1,
               if 0 < acnt then some (areq2.getD ∅ ∪ abest) else areq2,
               T.2.2.2.1, T.2.2.2.2.1, T.2.2.2.2.2, sf, rq⟩).2.st.node_map
              = ast.node_map ∧
            (topo_accum tenv req top_bm mn rn rem_cpus rem_nodes rest
              ⟨T.2.1, T.2.2.1,
               if 0 < acnt then some (areq2.getD ∅ ∪ abest) else areq2,
               T.2.2.2.1, T.2.2.2.2.1, T.2.2.2.2.2, sf, rq⟩).2.best ⊆ S ∧
            (topo_accum tenv req top_bm mn rn rem_cpus rem_nodes rest
              ⟨T.2.1, T.2.2.1,
               if 0 < acnt then some (areq2.getD ∅ ∪ abest) else areq2,
               T.2.2.2.1, T.2.2.2.2.1, T.2.2.2.2.2, sf, rq⟩).2.req2.getD ∅
              ⊆ S := by
          intro sf rq
          have h := ih ⟨T.2.1, T.2.2.1,
            if 0 < acnt then some (areq2.getD ∅ ∪ abest) else areq2,
            T.2.2.2.1, T.2.2.2.2.1, T.2.2.2.2.2, sf, rq⟩ hrest hT.2.2 hQ
          exact ⟨h.1, h.2.1.trans hT.2.1, h.2.2.1, h.2.2.2⟩
        refine ⟨?_, (hrec _ _).2.1, (hrec _ _).2.2.1, (hrec _ _).2.2.2⟩
        intro t ht
        rcases List.mem_cons.mp ht with rfl | ht
        · exact hT.1
        · exact (hrec _ _).1 t ht

/-- The required-leaf admission walk grows the map only by walked
members. -/
theorem topo_req_leaf_admit_map (tenv : TEnv) (i : ℕ) (S : Finset ℕ) :
    ∀ (l : List ℕ) (st : TSt), (∀ j ∈ l, j ∈ S) →
      st.node_map ⊆ (topo_req_leaf_adm tenv i l st).st.node_map ∧
      (topo_req_leaf_adm tenv i l st).st.node_map ⊆ st.node_map ∪ S := by
  intro l
  induction l with
  | nil =>
    intro st _
    exact ⟨Finset.Subset.refl _, Finset.subset_union_left⟩
  | cons j rest ih =>
    intro st hl
    have hjS : j ∈ S := hl j (by simp)
    have hrest : ∀ x ∈ rest, x ∈ S := fun x hx => hl x (by simp [hx])
    have hins : insert j st.node_map ⊆ st.node_map ∪ S := by
      intro x hx
      rcases Finset.mem_insert.mp hx with rfl | hx
      · exact Finset.mem_union_right _ hjS
      · exact Finset.mem_union_left _ hx
    have hstep : ∀ av : ℕ,
        st.node_map ⊆ (topo_req_leaf_adm tenv i rest (t_charge st j av)).st.node_map ∧
        (topo_req_leaf_adm tenv i rest (t_charge st j av)).st.node_map ⊆
          st.node_map ∪ S := by
      intro av
      obtain ⟨k1, k2⟩ := ih (t_charge st j av) hrest
      constructor
      · exact (Finset.subset_insert _ _).trans k1
      · refine k2.trans ?_
        intro x hx
        rcases Finset.mem_union.mp hx with hx | hx
        · exact hins hx
        · exact Finset.mem_union_right _ hx
    simp only [topo_req_leaf_adm]
    split
    · exact ih st hrest
    · split
      · split
        · exact ⟨Finset.subset_insert _ _, hins⟩
        · exact hstep _
      · split
        · exact ⟨Finset.subset_insert _ _, hins⟩
        · exact hstep _

/-- The sweep over required leaf switches grows the map only by
switch-bitmap members. -/
theorem topo_req_leaves_map (tenv : TEnv) (sw : List SwitchCfg)
    (swreq : List Bool) (swb : List (Finset ℕ)) (S : Finset ℕ)
    (hswb : ∀ b ∈ swb, b ⊆ S) :
    ∀ (l : List ℕ) (st : TSt),
      st.node_map ⊆ (topo_req_leaves tenv sw swreq swb l st).st.node_map ∧
      (topo_req_leaves tenv sw swreq swb l st).st.node_map ⊆
        st.node_map ∪ S := by
  intro l
  induction l with
  | nil =>
    intro st
    exact ⟨Finset.Subset.refl _, Finset.subset_union_left⟩
  | cons i rest ih =>
    intro st
    simp only [topo_req_leaves]
    split
    · exact ih st
    · have hadm := topo_req_leaf_admit_map tenv i S
        (bm_list tenv.n (swb.getD i ∅)) st
        (bm_list_subset tenv.n _ S (getD_subset swb S hswb i))
      cases hadm2 : topo_req_leaf_adm tenv i
          (bm_list tenv.n (swb.getD i ∅)) st with
      | success s1 =>
        rw [hadm2] at hadm
        exact hadm
      | error s1 =>
        rw [hadm2] at hadm
        exact hadm
      | cont s1 =>
        rw [hadm2] at hadm
        simp only [TOut.st] at hadm
        obtain ⟨k1, k2⟩ := ih s1
        exact ⟨hadm.1.trans k1,
          k2.trans (Finset.union_subset hadm.2 Finset.subset_union_right)⟩

/-- The expansion-leaf admission walk grows the map only by walked
members. -/
theorem topo_leaf_admit_map (tenv : TEnv) (S : Finset ℕ) :
    ∀ (l : List ℕ) (st : TSt), (∀ j ∈ l, j ∈ S) →
      st.node_map ⊆ (topo_leaf_adm tenv l st).st.node_map ∧
      (topo_leaf_adm tenv l st).st.node_map ⊆ st.node_map ∪ S := by
  intro l
  induction l with
  | nil =>
    intro st _
    exact ⟨Finset.Subset.refl _, Finset.subset_union_left⟩
  | cons j rest ih =>
    intro st hl
    have hjS : j ∈ S := hl j (by simp)
    have hrest : ∀ x ∈ rest, x ∈ S := fun x hx => hl x (by simp [hx])
    have hins : insert j st.node_map ⊆ st.node_map ∪ S := by
      intro x hx
      rcases Finset.mem_insert.mp hx with rfl | hx
      · exact Finset.mem_union_right _ hjS
      · exact Finset.mem_union_left _ hx
    have hstep : ∀ av : ℕ,
        st.node_map ⊆ (topo_leaf_adm tenv rest (t_charge st j av)).st.node_map ∧
        (topo_leaf_adm tenv rest (t_charge st j av)).st.node_map ⊆
          st.node_map ∪ S := by
      intro av
      obtain ⟨k1, k2⟩ := ih (t_charge st j av) hrest
      constructor
      · exact (Finset.subset_insert _ _).trans k1
      · refine k2.trans ?_
        intro x hx
        rcases Finset.mem_union.mp hx with hx | hx
        · exact hins hx
        · exact Finset.mem_union_right _ hx
    simp only [topo_leaf_adm]
    split
    · exact ⟨Finset.Subset.refl _, Finset.subset_union_left⟩
    · split
      · exact ih st hrest
      · split
        · split
          · exact ⟨Finset.subset_insert _ _, hins⟩
          · exact hstep _
        · split
          · exact ⟨Finset.subset_insert _ _, hins⟩
          · exact hstep _

/-- The leaf-expansion loop grows the map only by switch-bitmap
members. -/
theorem topo_expand_map (tenv : TEnv) (sw : List SwitchCfg)
    (swreq : List Bool) (swb : List (Finset ℕ)) (cpu_cnt : List ℕ)
    (S : Finset ℕ) (hswb : ∀ b ∈ swb, b ⊆ S) :
    ∀ (fuel : ℕ) (prev : ℤ) (dist node_cnt : List ℕ) (st : TSt),
      st.node_map ⊆
        (topo_expand tenv sw swreq swb cpu_cnt fuel prev dist node_cnt st).st.node_map ∧
      (topo_expand tenv sw swreq swb cpu_cnt fuel prev dist node_cnt st).st.node_map
        ⊆ st.node_map ∪ S := by
  intro fuel
  induction fuel with
  | zero =>
    intro prev dist node_cnt st
    exact ⟨Finset.Subset.refl _, Finset.subset_union_left⟩
  | succ f ih =>
    intro prev dist node_cnt st
    simp only [topo_expand]
    split
    · exact ⟨Finset.Subset.refl _, Finset.subset_union_left⟩
    · cases hpick : topo_leaf_pick sw swreq dist node_cnt st.rem_nodes
          cpu_cnt st.rem_cpus with
      | none =>
        simp only [hpick]
        exact ⟨Finset.Subset.refl _, Finset.subset_union_left⟩
      | some b =>
        simp only [hpick]
        have hadm := topo_leaf_admit_map tenv S
          (bm_list tenv.n (swb.getD b ∅)) st
          (bm_list_subset tenv.n _ S (getD_subset swb S hswb b))
        cases hadm2 : topo_leaf_adm tenv
            (bm_list tenv.n (swb.getD b ∅)) st with
        | success s1 =>
          rw [hadm2] at hadm
          exact hadm
        | error s1 =>
          rw [hadm2] at hadm
          exact hadm
        | cont s1 =>
          rw [hadm2] at hadm
          simp only [TOut.st] at hadm
          obtain ⟨k1, k2⟩ := ih st.rem_nodes (topo_add_dist sw dist b)
            (node_cnt.set b 0) s1
          exact ⟨hadm.1.trans k1,
            k2.trans (Finset.union_subset hadm.2 Finset.subset_union_right)⟩

/-- The topo req2 admission block grows the map by exactly the req2 bits
and keeps it inside `S`. -/
theorem topo_req2_verdict_map (tenv : TEnv) (sw : List SwitchCfg)
    (swb : List (Finset ℕ)) (swreq : List Bool) (req2 : Option (Finset ℕ))
    (st : TSt) (S : Finset ℕ) (hreq2 : req2.getD ∅ ⊆ S)
    (hst : st.node_map ⊆ S) :
    st.node_map ⊆ (topo_req2_verdict tenv sw swb swreq req2 st).2.1.node_map ∧
    (topo_req2_verdict tenv sw swb swreq req2 st).2.1.node_map ⊆ S := by
  cases req2 with
  | none => exact ⟨Finset.Subset.refl _, hst⟩
  | some r2 =>
    have hch := dfly_req2_charge_map tenv (bm_list tenv.n r2) st
    have h1 : st.node_map ⊆
        (dfly_req2_charge tenv (bm_list tenv.n r2) st).node_map ∪ r2 := by
      rw [hch]
      exact Finset.subset_union_left
    have h2 : (dfly_req2_charge tenv (bm_list tenv.n r2) st).node_map ∪ r2
        ⊆ S := by
      rw [hch]
      exact Finset.union_subset hst hreq2
    simp only [topo_req2_verdict]
    split
    · exact ⟨h1, h2⟩
    · split
      · exact ⟨h1, h2⟩
      · exact ⟨h1, h2⟩

/-- The leaf-expansion stage and final verdict grow the map only by
switch-bitmap members. -/
theorem topo_expand_verdict_map (tenv : TEnv) (sw : List SwitchCfg)
    (cpu_cnt : List ℕ) (swreq : List Bool) (swb : List (Finset ℕ))
    (st : TSt) (S : Finset ℕ) (hswb : ∀ b ∈ swb, b ⊆ S) :
    st.node_map ⊆ (topo_expand_verdict tenv sw cpu_cnt swreq swb st).2.node_map ∧
    (topo_expand_verdict tenv sw cpu_cnt swreq swb st).2.node_map ⊆
      st.node_map ∪ S := by
  have hexp := topo_expand_map tenv sw swreq swb cpu_cnt S hswb
    (sw.length + 1) (st.rem_nodes + 1)
    ((List.range sw.length).foldl
      (fun d i => if swreq.getD i false then topo_add_dist sw d i else d)
      (List.replicate sw.length 0)) (swb.map Finset.card) st
  cases hexp2 : topo_expand tenv sw swreq swb cpu_cnt (sw.length + 1)
      (st.rem_nodes + 1)
      ((List.range sw.length).foldl
        (fun d i => if swreq.getD i false then topo_add_dist sw d i else d)
        (List.replicate sw.length 0)) (swb.map Finset.card) st with
  | success s1 =>
    rw [hexp2] at hexp
    simp only [TOut.st] at hexp
    simp only [topo_expand_verdict, hexp2]
    exact hexp
  | error s1 =>
    rw [hexp2] at hexp
    simp only [TOut.st] at hexp
    simp only [topo_expand_verdict, hexp2]
    exact hexp
  | cont s1 =>
    rw [hexp2] at hexp
    simp only [TOut.st] at hexp
    simp only [topo_expand_verdict, hexp2]
    split
    · exact hexp
    · exact hexp

/-- The closing stages of a topo attempt grow the map only by
switch-bitmap members. -/
theorem topo_tail_map (tenv : TEnv) (sw : List SwitchCfg) (wr : Bool)
    (cpu_cnt : List ℕ) (swreq : List Bool) (swb : List (Finset ℕ))
    (st : TSt) (S : Finset ℕ) (hswb : ∀ b ∈ swb, b ⊆ S) :
    st.node_map ⊆ (topo_tail tenv sw wr cpu_cnt swreq swb st).2.node_map ∧
    (topo_tail tenv sw wr cpu_cnt swreq swb st).2.node_map ⊆
      st.node_map ∪ S := by
  cases wr with
  | false =>
    exact topo_expand_verdict_map tenv sw cpu_cnt swreq swb st S hswb
  | true =>
    have hlv := topo_req_leaves_map tenv sw swreq swb S hswb
      (List.range sw.length) st
    cases hlv2 : topo_req_leaves tenv sw swreq swb (List.range sw.length) st with
    | success s1 =>
      rw [hlv2] at hlv
      simp only [TOut.st] at hlv
      simp only [topo_tail, if_pos rfl, hlv2]
      exact hlv
    | error s1 =>
      rw [hlv2] at hlv
      simp only [TOut.st] at hlv
      simp only [topo_tail, if_pos rfl, hlv2]
      exact hlv
    | cont s1 =>
      rw [hlv2] at hlv
      simp only [TOut.st] at hlv
      simp only [topo_tail, if_pos rfl, hlv2]
      obtain ⟨k1, k2⟩ := topo_expand_verdict_map tenv sw cpu_cnt swreq swb s1
        S hswb
      exact ⟨hlv.1.trans k1,
        k2.trans (Finset.union_subset hlv.2 Finset.subset_union_right)⟩

/-- A topo attempt grows the map monotonically, keeps it inside any `S`
containing the entry map and all tier and switch bitmaps, and keeps the
tier bitmaps it returns for a retry inside `S`. -/
theorem topo_attempt_inv (tenv : TEnv) (sw : List SwitchCfg)
    (req : Option (Finset ℕ)) (mn rn top : ℕ) (cpu_cnt : List ℕ)
    (tiers : List (ℕ × Finset ℕ)) (suff0 : Bool) (swreq : List Bool)
    (swb : List (Finset ℕ)) (st : TSt) (S : Finset ℕ)
    (htiers : ∀ t ∈ tiers, t.2 ⊆ S) (hswb : ∀ b ∈ swb, b ⊆ S)
    (hst : st.node_map ⊆ S) :
    st.node_map ⊆
      (topo_attempt tenv sw req mn rn top cpu_cnt tiers suff0 swreq swb st).2.1.node_map ∧
    (topo_attempt tenv sw req mn rn top cpu_cnt tiers suff0 swreq swb st).2.1.node_map
      ⊆ S ∧
    ∀ t ∈ (topo_attempt tenv sw req mn rn top cpu_cnt tiers suff0 swreq swb
      st).2.2.2.1, t.2 ⊆ S := by
  have hacc := topo_accum_inv tenv req (swb.getD top ∅) mn rn st.rem_cpus
    st.rem_nodes S tiers ⟨st, ∅, none, 0, 0, [], suff0, false⟩ htiers
    (Finset.empty_subset _) (Finset.empty_subset _)
  simp only [topo_attempt]
  set A := topo_accum tenv req (swb.getD top ∅) mn rn st.rem_cpus
    st.rem_nodes tiers ⟨st, ∅, none, 0, 0, [], suff0, false⟩ with hA
  have A0 : ∀ t ∈ A.1, t.2 ⊆ S := hacc.1
  have A1 : A.2.st.node_map = st.node_map := hacc.2.1
  have A2 : A.2.best ⊆ S := hacc.2.2.1
  have A3 : A.2.req2.getD ∅ ⊆ S := hacc.2.2.2
  split
  · exact ⟨by rw [A1], by rw [A1]; exact hst, A0⟩
  · obtain ⟨V1, V2⟩ := topo_req2_verdict_map tenv sw swb swreq A.2.req2
      A.2.st S A3 (by rw [A1]; exact hst)
    set V := topo_req2_verdict tenv sw swb swreq A.2.req2 A.2.st with hV
    have hV1 : st.node_map ⊆ V.2.1.node_map := by
      rw [← A1]
      exact V1
    cases hv : V.1 with
    | some b => exact ⟨hV1, V2, A0⟩
    | none =>
      have hswb2 : ∀ b ∈ swb.map (fun b => b ∩ (A.2.best ∪ V.2.1.node_map)),
          b ⊆ S := by
        intro b hb
        simp only [List.mem_map] at hb
        obtain ⟨x, _, rfl⟩ := hb
        exact Finset.inter_subset_right.trans (Finset.union_subset A2 V2)
      obtain ⟨T1, T2⟩ := topo_tail_map tenv sw (req.isSome || A.2.req2.isSome)
        cpu_cnt V.2.2 (swb.map (fun b => b ∩ (A.2.best ∪ V.2.1.node_map)))
        V.2.1 S hswb2
      exact ⟨hV1.trans T1,
        T2.trans (Finset.union_subset V2 (Finset.Subset.refl _)), A0⟩

/-- The topo pre-attempt verdicts keep the map inside the candidates and
keep every required node the entry map held. -/
theorem topo_pre_verdict_map (tenv : TEnv) (req : Option (Finset ℕ))
    (st : TSt) (S : Finset ℕ) (hst : st.node_map ⊆ S) :
    (topo_pre_verdict tenv req st).2.node_map ⊆ S ∧
    ∀ r, req = some r → r ⊆ st.node_map →
      r ⊆ (topo_pre_verdict tenv req st).2.node_map := by
  cases req with
  | none =>
    refine ⟨hst, ?_⟩
    intro r hr
    cases hr
  | some r0 =>
    have hmap : r0 ⊆ st.node_map → r0 ⊆ st.node_map ∩ r0 :=
      fun h => Finset.subset_inter h (Finset.Subset.refl _)
    have hnm : st.node_map ∩ r0 ⊆ S := Finset.inter_subset_left.trans hst
    simp only [topo_pre_verdict]
    split
    · refine ⟨hnm, ?_⟩
      intro r hr hsub
      cases hr
      exact hmap hsub
    · split
      · refine ⟨hnm, ?_⟩
        intro r hr hsub
        cases hr
        exact hmap hsub
      · refine ⟨hnm, ?_⟩
        intro r hr hsub
        cases hr
        exact hmap hsub

/-- The attempt-and-retry driver keeps the map inside `S` and keeps every
bit of `R` (held by the entry map and the checkpoint map) in the map on
every exit. -/
theorem topo_try_loop_map (tenv : TEnv) (sw : List SwitchCfg)
    (req : Option (Finset ℕ)) (mn org_max req_cnt req_switch w4s tw top : ℕ)
    (cpu_cnt : List ℕ) (start_map : Finset ℕ) (start_swreq : List Bool)
    (start_swb : List (Finset ℕ)) (src srm : ℤ) (S R : Finset ℕ)
    (hstart : start_map ⊆ S) (hRstart : R ⊆ start_map)
    (hstartswb : ∀ b ∈ start_swb, b ⊆ S) :
    ∀ (fuel rn_cur : ℕ) (st : TSt) (tiers : List (ℕ × Finset ℕ))
      (suff : Bool) (swreq : List Bool) (swb : List (Finset ℕ)),
      (∀ t ∈ tiers, t.2 ⊆ S) → (∀ b ∈ swb, b ⊆ S) → st.node_map ⊆ S →
      R ⊆ st.node_map →
      R ⊆ (topo_try_loop tenv sw req mn org_max req_cnt req_switch w4s tw top
        cpu_cnt start_map start_swreq start_swb src srm fuel rn_cur st tiers
        suff swreq swb).2.1.node_map ∧
      (topo_try_loop tenv sw req mn org_max req_cnt req_switch w4s tw top
        cpu_cnt start_map start_swreq start_swb src srm fuel rn_cur st tiers
        suff swreq swb).2.1.node_map ⊆ S := by
  intro fuel
  induction fuel with
  | zero =>
    intro rn_cur st tiers suff swreq swb _ _ hst hR
    exact ⟨hR, hst⟩
  | succ f ih =>
    intro rn_cur st tiers suff swreq swb htiers hswb hst hR
    obtain ⟨P1, P2, P3⟩ := topo_attempt_inv tenv sw req mn rn_cur top cpu_cnt
      tiers suff swreq swb st S htiers hswb hst
    simp only [topo_try_loop]
    split
    · split
      · exact ⟨hR.trans P1, P2⟩
      · split
        · split
          · exact ih _ _ _ _ _ _ P3 hstartswb hstart hRstart
          · exact ⟨hR.trans P1, P2⟩
        · exact ⟨hR.trans P1, P2⟩
    · exact ⟨hR.trans P1, P2⟩

/-- The per-switch bitmaps of the switch-table build lie inside the
candidate map. -/
theorem topo_switch_build_swb_subset (tenv : TEnv) (sw : List SwitchCfg)
    (req : Option (Finset ℕ)) (tiers : List (ℕ × Finset ℕ)) (mn rn : ℕ)
    (node_map : Finset ℕ) (rc rn' : ℤ) :
    ∀ b ∈ (topo_switch_build tenv sw req tiers mn rn node_map rc rn').1,
      b ⊆ node_map := by
  intro b hb
  have h1 : (topo_switch_build tenv sw req tiers mn rn node_map rc rn').1 =
      sw.map (fun s => s.nodes ∩ node_map) := rfl
  rw [h1] at hb
  simp only [List.mem_map] at hb
  obtain ⟨s, _, rfl⟩ := hb
  exact Finset.inter_subset_right

/-- The subtree-restricted switch bitmaps stay inside any bound on the
unrestricted ones. -/
theorem swb1_entries_subset (swb0 : List (Finset ℕ)) (n top : ℕ)
    (S : Finset ℕ) (h : ∀ b ∈ swb0, b ⊆ S) :
    ∀ b ∈ (List.range n).map
      (fun i => if i = top then swb0.getD i ∅
        else swb0.getD i ∅ ∩ swb0.getD top ∅), b ⊆ S := by
  intro b hb
  simp only [List.mem_map] at hb
  obtain ⟨i, _, rfl⟩ := hb
  split
  · exact getD_subset swb0 S h i
  · exact Finset.inter_subset_left.trans (getD_subset swb0 S h i)

/-- On every successful topo run, the selected map lies inside the entry
candidates and contains every required node. -/
theorem eval_nodes_topo_full_map (tenv : TEnv) (sw : List SwitchCfg)
    (details : JobDetails) (rsw w4s tw mn rn mx : ℕ) (nm : Finset ℕ)
    (hsuc : (eval_nodes_topo_full tenv sw details rsw w4s tw mn rn mx nm).1 = true) :
    (eval_nodes_topo_full tenv sw details rsw w4s tw mn rn mx nm).2.1.node_map ⊆ nm ∧
    ∀ r, details.req_node_bitmap = some r →
      r ⊆ (eval_nodes_topo_full tenv sw details rsw w4s tw mn rn mx nm).2.1.node_map := by
  have htiers := topo_weight_tiers_subset tenv nm
  cases hreqbm : details.req_node_bitmap with
  | none =>
    simp only [eval_nodes_topo_full, hreqbm, Bool.true_eq_false, if_false,
      dfly_req_adm, Option.isNone_none, eq_self_iff_true, if_true] at hsuc ⊢
    by_cases hcard : nm.card = 0
    · rw [if_pos hcard] at hsuc
      exact Bool.noConfusion hsuc
    · rw [if_neg hcard] at hsuc ⊢
      set B := topo_switch_build tenv sw none (topo_weight_tiers tenv nm)
        mn rn nm (topo_entry tenv details mn rn mx nm).rem_cpus
        (topo_entry tenv details mn rn mx nm).rem_nodes with hBdef
      have hbsub : ∀ b ∈ B.1, b ⊆ nm := topo_switch_build_swb_subset tenv sw
        none (topo_weight_tiers tenv nm) mn rn nm
        (topo_entry tenv details mn rn mx nm).rem_cpus
        (topo_entry tenv details mn rn mx nm).rem_nodes
      cases hb : B.2.2.2 with
      | none =>
        simp only [hb] at hsuc
        exact Bool.noConfusion hsuc
      | some top =>
        simp only [hb, Bool.true_eq_false, if_false, topo_pre_verdict] at hsuc ⊢
        have hSWB1 : ∀ b ∈ (List.range sw.length).map
            (fun i => if i = top then B.1.getD i ∅
              else B.1.getD i ∅ ∩ B.1.getD top ∅), b ⊆ nm :=
          swb1_entries_subset B.1 sw.length top nm hbsub
        refine ⟨(topo_try_loop_map tenv sw none mn mx
          (Option.getD (none : Option (Finset ℕ)) ∅).card rsw w4s tw top
          B.2.1 ∅ B.2.2.1
          ((List.range sw.length).map
            (fun i => if i = top then B.1.getD i ∅
              else B.1.getD i ∅ ∩ B.1.getD top ∅))
          (topo_entry tenv details mn rn mx nm).rem_cpus
          (topo_entry tenv details mn rn mx nm).rem_max_cpus nm ∅
          (Finset.empty_subset _) (Finset.Subset.refl _) hSWB1
          (rn + 1) rn
          { topo_entry tenv details mn rn mx nm with node_map := ∅ }
          (topo_weight_tiers tenv nm) false B.2.2.1
          ((List.range sw.length).map
            (fun i => if i = top then B.1.getD i ∅
              else B.1.getD i ∅ ∩ B.1.getD top ∅))
          htiers hSWB1 (Finset.empty_subset _) (Finset.empty_subset _)).2, ?_⟩
        intro r hr
        cases hr
  | some r0 =>
    simp only [eval_nodes_topo_full, hreqbm, Option.isNone_some,
      Bool.false_eq_true, if_false] at hsuc ⊢
    by_cases hrc : (decide (r0 ⊆ nm) && decide (r0.card ≠ 0) &&
        decide (r0.card ≤ mx)) = false
    · rw [if_pos hrc] at hsuc
      exact Bool.noConfusion hsuc
    · rw [if_neg hrc] at hsuc ⊢
      have hrc' : (decide (r0 ⊆ nm) && decide (r0.card ≠ 0) &&
          decide (r0.card ≤ mx)) = true := by
        revert hrc
        cases decide (r0 ⊆ nm) && decide (r0.card ≠ 0) &&
          decide (r0.card ≤ mx) <;> simp
      have hr0nm : r0 ⊆ nm := by
        simp only [Bool.and_eq_true, decide_eq_true_eq] at hrc'
        exact hrc'.1.1
      by_cases hcard : nm.card = 0
      · rw [if_pos hcard] at hsuc
        exact Bool.noConfusion hsuc
      · rw [if_neg hcard] at hsuc ⊢
        cases hadm : dfly_req_adm tenv
            ((bm_list tenv.n nm).filter (fun i => i ∈ r0))
            (topo_entry tenv details mn rn mx nm) with
        | error st1 =>
          simp only [hadm] at hsuc
          exact Bool.noConfusion hsuc
        | ok st1 =>
          simp only [hadm] at hsuc ⊢
          have hst1 : st1.node_map = nm := by
            have := dfly_req_admit_map tenv
              ((bm_list tenv.n nm).filter (fun i => i ∈ r0))
              (topo_entry tenv details mn rn mx nm)
            rw [hadm] at this
            exact this
          set B := topo_switch_build tenv sw (some r0)
            (topo_weight_tiers tenv nm) mn rn nm st1.rem_cpus st1.rem_nodes
            with hBdef
          have hbsub : ∀ b ∈ B.1, b ⊆ nm := topo_switch_build_swb_subset tenv
            sw (some r0) (topo_weight_tiers tenv nm) mn rn nm st1.rem_cpus
            st1.rem_nodes
          cases hb : B.2.2.2 with
          | none =>
            simp only [hb] at hsuc
            exact Bool.noConfusion hsuc
          | some top =>
            simp only [hb] at hsuc ⊢
            by_cases htop : (decide (r0 ⊆ B.1.getD top ∅)) = false
            · rw [if_pos htop] at hsuc
              exact Bool.noConfusion hsuc
            · rw [if_neg htop] at hsuc ⊢
              obtain ⟨Q1, Q2⟩ := topo_pre_verdict_map tenv (some r0) st1 nm
                (hst1 ▸ Finset.Subset.refl _)
              have hQr : r0 ⊆ (topo_pre_verdict tenv (some r0) st1).2.node_map :=
                Q2 r0 rfl (hst1 ▸ hr0nm)
              cases hpre : (topo_pre_verdict tenv (some r0) st1).1 with
              | some v =>
                simp only [hpre] at hsuc ⊢
                refine ⟨Q1, ?_⟩
                intro r hr
                cases hr
                exact hQr
              | none =>
                simp only [hpre] at hsuc ⊢
                have hSWB1 : ∀ b ∈ (List.range sw.length).map
                    (fun i => if i = top then B.1.getD i ∅
                      else B.1.getD i ∅ ∩ B.1.getD top ∅), b ⊆ nm :=
                  swb1_entries_subset B.1 sw.length top nm hbsub
                have hloop := topo_try_loop_map tenv sw (some r0) mn mx
                  (Option.getD (some r0) ∅).card rsw w4s tw top B.2.1
                  (topo_pre_verdict tenv (some r0) st1).2.node_map B.2.2.1
                  ((List.range sw.length).map
                    (fun i => if i = top then B.1.getD i ∅
                      else B.1.getD i ∅ ∩ B.1.getD top ∅))
                  st1.rem_cpus st1.rem_max_cpus nm r0 Q1 hQr hSWB1
                  (rn + 1) rn (topo_pre_verdict tenv (some r0) st1).2
                  (topo_weight_tiers tenv nm) false B.2.2.1
                  ((List.range sw.length).map
                    (fun i => if i = top then B.1.getD i ∅
                      else B.1.getD i ∅ ∩ B.1.getD top ∅))
                  htiers hSWB1 Q1 hQr
                refine ⟨hloop.2, ?_⟩
                intro r hr
                cases hr
                exact hloop.1

/-! ### Bitmap containment of the block strategy -/

/-- The required-base-block admission walk grows the map only by walked
members. -/
theorem block_req_bblock_admit_map (tenv : TEnv) (i : ℕ) (S : Finset ℕ) :
    ∀ (l : List ℕ) (st : TSt), (∀ j ∈ l, j ∈ S) →
      st.node_map ⊆ (block_req_bblock_adm tenv i l st).st.node_map ∧
      (block_req_bblock_adm tenv i l st).st.node_map ⊆
        st.node_map ∪ S := by
  intro l
  induction l with
  | nil =>
    intro st _
    exact ⟨Finset.Subset.refl _, Finset.subset_union_left⟩
  | cons j rest ih =>
    intro st hl
    have hjS : j ∈ S := hl j (by simp)
    have hrest : ∀ x ∈ rest, x ∈ S := fun x hx => hl x (by simp [hx])
    have hins : insert j st.node_map ⊆ st.node_map ∪ S := by
      intro x hx
      rcases Finset.mem_insert.mp hx with rfl | hx
      · exact Finset.mem_union_right _ hjS
      · exact Finset.mem_union_left _ hx
    have hstep : ∀ av : ℕ,
        st.node_map ⊆ (block_req_bblock_adm tenv i rest (t_charge st j av)).st.node_map ∧
        (block_req_bblock_adm tenv i rest (t_charge st j av)).st.node_map ⊆
          st.node_map ∪ S := by
      intro av
      obtain ⟨k1, k2⟩ := ih (t_charge st j av) hrest
      constructor
      · exact (Finset.subset_insert _ _).trans k1
      · refine k2.trans ?_
        intro x hx
        rcases Finset.mem_union.mp hx with hx | hx
        · exact hins hx
        · exact Finset.mem_union_right _ hx
    simp only [block_req_bblock_adm]
    split
    · exact ih st hrest
    · split
      · split
        · exact ⟨Finset.subset_insert _ _, hins⟩
        · exact hstep _
      · split
        · exact ⟨Finset.subset_insert _ _, hins⟩
        · exact hstep _

/-- The sweep over required base blocks grows the map only by members of
the selected block. -/
theorem block_req_bblocks_map (tenv : TEnv) (bblocks : List (Finset ℕ))
    (breq : List Bool) (blk best S : Finset ℕ) (hblk : blk ⊆ S) :
    ∀ (l : List ℕ) (st : TSt),
      st.node_map ⊆ (block_req_bblocks tenv bblocks breq blk best l st).st.node_map ∧
      (block_req_bblocks tenv bblocks breq blk best l st).st.node_map ⊆
        st.node_map ∪ S := by
  intro l
  induction l with
  | nil =>
    intro st
    exact ⟨Finset.Subset.refl _, Finset.subset_union_left⟩
  | cons i rest ih =>
    intro st
    simp only [block_req_bblocks]
    split
    · exact ih st
    · have hbbm : ∀ j ∈ bm_list tenv.n
          (((bblocks.getD i ∅ ∩ blk) ∩ best) \ st.node_map), j ∈ S :=
        bm_list_subset tenv.n _ S
          ((Finset.sdiff_subset).trans
            ((Finset.inter_subset_left).trans
              ((Finset.inter_subset_right).trans hblk)))
      have hadm := block_req_bblock_admit_map tenv i S
        (bm_list tenv.n (((bblocks.getD i ∅ ∩ blk) ∩ best) \ st.node_map))
        st hbbm
      cases hadm2 : block_req_bblock_adm tenv i
          (bm_list tenv.n (((bblocks.getD i ∅ ∩ blk) ∩ best) \ st.node_map))
          st with
      | success s1 =>
        rw [hadm2] at hadm
        exact hadm
      | error s1 =>
        rw [hadm2] at hadm
        exact hadm
      | cont s1 =>
        rw [hadm2] at hadm
        simp only [TOut.st] at hadm
        obtain ⟨k1, k2⟩ := ih s1
        exact ⟨hadm.1.trans k1,
          k2.trans (Finset.union_subset hadm.2 Finset.subset_union_right)⟩

/-- The best-fit base-block admission walk grows the map only by walked
members. -/
theorem block_greedy_admit_map (tenv : TEnv) (S : Finset ℕ) :
    ∀ (l : List ℕ) (st : TSt), (∀ j ∈ l, j ∈ S) →
      st.node_map ⊆ (block_greedy_adm tenv l st).st.node_map ∧
      (block_greedy_adm tenv l st).st.node_map ⊆ st.node_map ∪ S := by
  intro l
  induction l with
  | nil =>
    intro st _
    exact ⟨Finset.Subset.refl _, Finset.subset_union_left⟩
  | cons j rest ih =>
    intro st hl
    have hjS : j ∈ S := hl j (by simp)
    have hrest : ∀ x ∈ rest, x ∈ S := fun x hx => hl x (by simp [hx])
    have hins : insert j st.node_map ⊆ st.node_map ∪ S := by
      intro x hx
      rcases Finset.mem_insert.mp hx with rfl | hx
      · exact Finset.mem_union_right _ hjS
      · exact Finset.mem_union_left _ hx
    have hstep : ∀ av : ℕ,
        st.node_map ⊆ (block_greedy_adm tenv rest (t_charge st j av)).st.node_map ∧
        (block_greedy_adm tenv rest (t_charge st j av)).st.node_map ⊆
          st.node_map ∪ S := by
      intro av
      obtain ⟨k1, k2⟩ := ih (t_charge st j av) hrest
      constructor
      · exact (Finset.subset_insert _ _).trans k1
      · refine k2.trans ?_
        intro x hx
        rcases Finset.mem_union.mp hx with hx | hx
        · exact hins hx
        · exact Finset.mem_union_right _ hx
    simp only [block_greedy_adm]
    split
    · exact ⟨Finset.Subset.refl _, Finset.subset_union_left⟩
    · split
      · exact ih st hrest
      · split
        · split
          · exact ⟨Finset.subset_insert _ _, hins⟩
          · exact hstep _
        · split
          · exact ⟨Finset.subset_insert _ _, hins⟩
          · exact hstep _

/-- The best-fit base-block loop grows the map only by members of the
stored base-block bitmaps. -/
theorem block_greedy_loop_map (tenv : TEnv) (bpb binx bcnt : ℕ)
    (S : Finset ℕ) :
    ∀ (fuel : ℕ) (prev : ℤ) (bbmt : List (Finset ℕ)) (non : List ℕ)
      (breq : List Bool) (st : TSt), (∀ b ∈ bbmt, b ⊆ S) →
      st.node_map ⊆
        (block_greedy_loop tenv bpb binx bcnt fuel prev bbmt non breq st).st.node_map ∧
      (block_greedy_loop tenv bpb binx bcnt fuel prev bbmt non breq st).st.node_map
        ⊆ st.node_map ∪ S := by
  intro fuel
  induction fuel with
  | zero =>
    intro prev bbmt non breq st _
    exact ⟨Finset.Subset.refl _, Finset.subset_union_left⟩
  | succ f ih =>
    intro prev bbmt non breq st hbbmt
    simp only [block_greedy_loop]
    split
    · exact ⟨Finset.Subset.refl _, Finset.subset_union_left⟩
    · cases hscan : block_greedy_scan bpb binx breq non st.rem_nodes bcnt with
      | none =>
        simp only [hscan]
        exact ⟨Finset.Subset.refl _, Finset.subset_union_left⟩
      | some p =>
        obtain ⟨bi, fit⟩ := p
        simp only [hscan]
        have hbbm : (bbmt.getD bi ∅) \ st.node_map ⊆ S :=
          (Finset.sdiff_subset).trans (getD_subset bbmt S hbbmt bi)
        have hbbmt2 : ∀ b ∈ bbmt.set bi ((bbmt.getD bi ∅) \ st.node_map),
            b ⊆ S := by
          intro b hb
          rcases List.mem_or_eq_of_mem_set hb with hb | rfl
          · exact hbbmt b hb
          · exact hbbm
        have hadm := block_greedy_admit_map tenv S
          (bm_list tenv.n ((bbmt.getD bi ∅) \ st.node_map)) st
          (bm_list_subset tenv.n _ S hbbm)
        cases hadm2 : block_greedy_adm tenv
            (bm_list tenv.n ((bbmt.getD bi ∅) \ st.node_map)) st with
        | success s1 =>
          rw [hadm2] at hadm
          exact hadm
        | error s1 =>
          rw [hadm2] at hadm
          exact hadm
        | cont s1 =>
          rw [hadm2] at hadm
          simp only [TOut.st] at hadm
          obtain ⟨k1, k2⟩ := ih st.rem_nodes
            (bbmt.set bi ((bbmt.getD bi ∅) \ st.node_map)) non
            (breq.set bi true) s1 hbbmt2
          exact ⟨hadm.1.trans k1,
            k2.trans (Finset.union_subset hadm.2 Finset.subset_union_right)⟩

/-- The best-fit stage and final verdict grow the map only by members of
the selected block. -/
theorem block_expand_verdict_map (tenv : TEnv) (bblocks : List (Finset ℕ))
    (bpb binx : ℕ) (blk best : Finset ℕ) (breq : List Bool) (st : TSt)
    (S : Finset ℕ) (hblk : blk ⊆ S) :
    st.node_map ⊆
      (block_expand_verdict tenv bblocks bpb binx blk best breq st).2.node_map ∧
    (block_expand_verdict tenv bblocks bpb binx blk best breq st).2.node_map
      ⊆ st.node_map ∪ S := by
  have hbbmt : ∀ b ∈ (List.range bblocks.length).map
      (fun i =>
        if i / bpb = binx ∧ breq.getD i false = false then
          (bblocks.getD i ∅ ∩ blk) ∩ best
        else ∅), b ⊆ S := by
    intro b hb
    simp only [List.mem_map] at hb
    obtain ⟨i, _, rfl⟩ := hb
    split
    · exact (Finset.inter_subset_left).trans
        ((Finset.inter_subset_right).trans hblk)
    · exact Finset.empty_subset _
  have hloop := block_greedy_loop_map tenv bpb binx bblocks.length S
    (bblocks.length + 1) (st.rem_nodes + 1)
    ((List.range bblocks.length).map
      (fun i =>
        if i / bpb = binx ∧ breq.getD i false = false then
          (bblocks.getD i ∅ ∩ blk) ∩ best
        else ∅))
    (((List.range bblocks.length).map
      (fun i =>
        if i / bpb = binx ∧ breq.getD i false = false then
          (bblocks.getD i ∅ ∩ blk) ∩ best
        else ∅)).map Finset.card) breq st hbbmt
  cases hloop2 : block_greedy_loop tenv bpb binx bblocks.length
      (bblocks.length + 1) (st.rem_nodes + 1)
      ((List.range bblocks.length).map
        (fun i =>
          if i / bpb = binx ∧ breq.getD i false = false then
            (bblocks.getD i ∅ ∩ blk) ∩ best
          else ∅))
      (((List.range bblocks.length).map
        (fun i =>
          if i / bpb = binx ∧ breq.getD i false = false then
            (bblocks.getD i ∅ ∩ blk) ∩ best
          else ∅)).map Finset.card) breq st with
  | success s1 =>
    rw [hloop2] at hloop
    simp only [TOut.st] at hloop
    simp only [block_expand_verdict, hloop2]
    exact hloop
  | error s1 =>
    rw [hloop2] at hloop
    simp only [TOut.st] at hloop
    simp only [block_expand_verdict, hloop2]
    exact hloop
  | cont s1 =>
    rw [hloop2] at hloop
    simp only [TOut.st] at hloop
    simp only [block_expand_verdict, hloop2]
    split
    · exact hloop
    · exact hloop

/-- The closing stages of the block strategy grow the map only by members
of the selected block. -/
theorem block_tail_map (tenv : TEnv) (bblocks : List (Finset ℕ))
    (bpb binx : ℕ) (wr : Bool) (blk best : Finset ℕ) (breq : List Bool)
    (st : TSt) (S : Finset ℕ) (hblk : blk ⊆ S) :
    st.node_map ⊆
      (block_tail tenv bblocks bpb binx wr blk best breq st).2.node_map ∧
    (block_tail tenv bblocks bpb binx wr blk best breq st).2.node_map ⊆
      st.node_map ∪ S := by
  cases wr with
  | false =>
    exact block_expand_verdict_map tenv bblocks bpb binx blk best breq st S hblk
  | true =>
    have hlv := block_req_bblocks_map tenv bblocks breq blk best S hblk
      (List.range bblocks.length) st
    cases hlv2 : block_req_bblocks tenv bblocks breq blk best
        (List.range bblocks.length) st with
    | success s1 =>
      rw [hlv2] at hlv
      simp only [TOut.st] at hlv
      simp only [block_tail, if_pos rfl, hlv2]
      exact hlv
    | error s1 =>
      rw [hlv2] at hlv
      simp only [TOut.st] at hlv
      simp only [block_tail, if_pos rfl, hlv2]
      exact hlv
    | cont s1 =>
      rw [hlv2] at hlv
      simp only [TOut.st] at hlv
      simp only [block_tail, if_pos rfl, hlv2]
      obtain ⟨k1, k2⟩ := block_expand_verdict_map tenv bblocks bpb binx blk
        best breq s1 S hblk
      exact ⟨hlv.1.trans k1,
        k2.trans (Finset.union_subset hlv.2 Finset.subset_union_right)⟩

/-- The block req2 admission grows the map by exactly the req2 bits and
keeps it inside `S`. -/
theorem block_req2_verdict_map (tenv : TEnv) (bblocks : List (Finset ℕ))
    (bpb binx : ℕ) (breq0 : List Bool) (req2 : Option (Finset ℕ)) (st : TSt)
    (S : Finset ℕ) (hreq2 : req2.getD ∅ ⊆ S) (hst : st.node_map ⊆ S) :
    st.node_map ⊆
      (block_req2_verdict tenv bblocks bpb binx breq0 req2 st).2.1.node_map ∧
    (block_req2_verdict tenv bblocks bpb binx breq0 req2 st).2.1.node_map
      ⊆ S := by
  cases req2 with
  | none => exact ⟨Finset.Subset.refl _, hst⟩
  | some r2 =>
    have hch := dfly_req2_charge_map tenv (bm_list tenv.n r2) st
    have h1 : st.node_map ⊆
        (dfly_req2_charge tenv (bm_list tenv.n r2) st).node_map ∪ r2 := by
      rw [hch]
      exact Finset.subset_union_left
    have h2 : (dfly_req2_charge tenv (bm_list tenv.n r2) st).node_map ∪ r2
        ⊆ S := by
      rw [hch]
      exact Finset.union_subset hst hreq2
    simp only [block_req2_verdict]
    split
    · exact ⟨h1, h2⟩
    · split
      · exact ⟨h1, h2⟩
      · exact ⟨h1, h2⟩

/-- On every successful block run, the selected map lies inside the entry
candidates and contains every required node. -/
theorem eval_nodes_block_full_map (tenv : TEnv) (cfg : BlockCfg)
    (details : JobDetails) (mn rn mx : ℕ) (nm : Finset ℕ)
    (hsuc : (eval_nodes_block_full tenv cfg details mn rn mx nm).1 = true) :
    (eval_nodes_block_full tenv cfg details mn rn mx nm).2.node_map ⊆ nm ∧
    ∀ r, details.req_node_bitmap = some r →
      r ⊆ (eval_nodes_block_full tenv cfg details mn rn mx nm).2.node_map := by
  have htiers := topo_weight_tiers_subset tenv nm
  cases hreqbm : details.req_node_bitmap with
  | none =>
    simp only [eval_nodes_block_full, hreqbm, Bool.true_eq_false, if_false,
      dfly_req_adm, Option.isNone_none, eq_self_iff_true, if_true,
      topo_pre_verdict, Option.isSome_none, Bool.false_or] at hsuc ⊢
    by_cases hcard : nm.card = 0
    · rw [if_pos hcard] at hsuc
      exact Bool.noConfusion hsuc
    · rw [if_neg hcard] at hsuc ⊢
      set P := bblock_per_block_calc (min mn rn) cfg.bblock_node_cnt
        cfg.block_levels cfg.bblocks.length with hP
      set BB := block_big_bitmaps cfg.bblocks P.1 P.2 with hBB
      cases hbx : block_pick_noreq tenv (topo_weight_tiers tenv nm) mn rn nm
          (block_entry tenv details mn rn mx nm).rem_cpus
          (block_entry tenv details mn rn mx nm).rem_nodes BB with
      | none =>
        simp only [hbx] at hsuc
        exact Bool.noConfusion hsuc
      | some binx =>
        simp only [hbx, Bool.true_eq_false, if_false] at hsuc ⊢
        have hacc := topo_accum_inv tenv none (BB.getD binx ∅ ∩ nm) mn rn
          (block_entry tenv details mn rn mx nm).rem_cpus
          (block_entry tenv details mn rn mx nm).rem_nodes nm
          (topo_weight_tiers tenv nm)
          ⟨{ block_entry tenv details mn rn mx nm with node_map := ∅ },
            ∅, none, 0, 0, [], false, false⟩
          htiers (Finset.empty_subset _) (Finset.empty_subset _)
        set A := topo_accum tenv none (BB.getD binx ∅ ∩ nm) mn rn
          (block_entry tenv details mn rn mx nm).rem_cpus
          (block_entry tenv details mn rn mx nm).rem_nodes
          (topo_weight_tiers tenv nm)
          ⟨{ block_entry tenv details mn rn mx nm with node_map := ∅ },
            ∅, none, 0, 0, [], false, false⟩ with hA
        have A1 : A.2.st.node_map = (∅ : Finset ℕ) := hacc.2.1
        have A3 : A.2.req2.getD ∅ ⊆ nm := hacc.2.2.2
        split at hsuc
        next hsf => exact Bool.noConfusion hsuc
        next hsf =>
          rw [if_neg hsf]
          obtain ⟨V1, V2⟩ := block_req2_verdict_map tenv cfg.bblocks P.1 binx
            (List.replicate cfg.bblocks.length false) A.2.req2 A.2.st nm A3
            (by rw [A1]; exact Finset.empty_subset _)
          set V := block_req2_verdict tenv cfg.bblocks P.1 binx
            (List.replicate cfg.bblocks.length false) A.2.req2 A.2.st with hV
          cases hv : V.1 with
          | some b =>
            refine ⟨V2, ?_⟩
            intro r hr
            cases hr
          | none =>
            obtain ⟨T1, T2⟩ := block_tail_map tenv cfg.bblocks P.1 binx
              A.2.req2.isSome (BB.getD binx ∅ ∩ nm) A.2.best V.2.2 V.2.1 nm
              Finset.inter_subset_right
            refine ⟨T2.trans (Finset.union_subset V2 (Finset.Subset.refl _)),
              ?_⟩
            intro r hr
            cases hr
  | some r0 =>
    simp only [eval_nodes_block_full, hreqbm, Option.isNone_some,
      Bool.false_eq_true, if_false, Option.isSome_some, Bool.true_or,
      dfly_req_adm] at hsuc ⊢
    by_cases hrc : (decide (r0 ⊆ nm) && decide (r0 ⊆ cfg.blocks_nodes) &&
        decide (r0.card ≠ 0) && decide (r0.card ≤ mx)) = false
    · rw [if_pos hrc] at hsuc
      exact Bool.noConfusion hsuc
    · rw [if_neg hrc] at hsuc ⊢
      have hrc' : (decide (r0 ⊆ nm) && decide (r0 ⊆ cfg.blocks_nodes) &&
          decide (r0.card ≠ 0) && decide (r0.card ≤ mx)) = true := by
        revert hrc
        cases decide (r0 ⊆ nm) && decide (r0 ⊆ cfg.blocks_nodes) &&
          decide (r0.card ≠ 0) && decide (r0.card ≤ mx) <;> simp
      have hr0nm : r0 ⊆ nm := by
        simp only [Bool.and_eq_true, decide_eq_true_eq] at hrc'
        exact hrc'.1.1.1
      by_cases hcard : nm.card = 0
      · rw [if_pos hcard] at hsuc
        exact Bool.noConfusion hsuc
      · rw [if_neg hcard] at hsuc ⊢
        cases hadm : dfly_req_adm tenv
            ((bm_list tenv.n nm).filter (fun i => i ∈ r0))
            (block_entry tenv details mn rn mx nm) with
        | error st1 =>
          simp only [hadm] at hsuc
          exact Bool.noConfusion hsuc
        | ok st1 =>
          simp only [hadm] at hsuc ⊢
          have hst1 : st1.node_map = nm := by
            have := dfly_req_admit_map tenv
              ((bm_list tenv.n nm).filter (fun i => i ∈ r0))
              (block_entry tenv details mn rn mx nm)
            rw [hadm] at this
            exact this
          set P := bblock_per_block_calc (min mn rn) cfg.bblock_node_cnt
            cfg.block_levels cfg.bblocks.length with hP
          set BB := block_big_bitmaps cfg.bblocks P.1 P.2 with hBB
          cases hbx : (List.range P.2).find?
              (fun i => decide (r0 ∩ (BB.getD i ∅ ∩ nm) ≠ ∅)) with
          | none =>
            simp only [hbx] at hsuc
            exact Bool.noConfusion hsuc
          | some binx =>
            simp only [hbx] at hsuc ⊢
            by_cases hblk : (decide (r0 ⊆ BB.getD binx ∅ ∩ nm)) = false
            · rw [if_pos hblk] at hsuc
              exact Bool.noConfusion hsuc
            · rw [if_neg hblk] at hsuc ⊢
              obtain ⟨Q1, Q2⟩ := topo_pre_verdict_map tenv (some r0) st1 nm
                (hst1 ▸ Finset.Subset.refl _)
              have hQr : r0 ⊆ (topo_pre_verdict tenv (some r0) st1).2.node_map :=
                Q2 r0 rfl (hst1 ▸ hr0nm)
              cases hpre : (topo_pre_verdict tenv (some r0) st1).1 with
              | some v =>
                simp only [hpre] at hsuc ⊢
                refine ⟨Q1, ?_⟩
                intro r hr
                cases hr
                exact hQr
              | none =>
                simp only [hpre] at hsuc ⊢
                have hacc := topo_accum_inv tenv (some r0)
                  (BB.getD binx ∅ ∩ nm) mn rn
                  (topo_pre_verdict tenv (some r0) st1).2.rem_cpus
                  (topo_pre_verdict tenv (some r0) st1).2.rem_nodes nm
                  (topo_weight_tiers tenv nm)
                  ⟨(topo_pre_verdict tenv (some r0) st1).2,
                    ∅, none, 0, 0, [], false, false⟩
                  htiers (Finset.empty_subset _) (Finset.empty_subset _)
                set A := topo_accum tenv (some r0) (BB.getD binx ∅ ∩ nm) mn rn
                  (topo_pre_verdict tenv (some r0) st1).2.rem_cpus
                  (topo_pre_verdict tenv (some r0) st1).2.rem_nodes
                  (topo_weight_tiers tenv nm)
                  ⟨(topo_pre_verdict tenv (some r0) st1).2,
                    ∅, none, 0, 0, [], false, false⟩ with hA
                have A1 : A.2.st.node_map =
                    (topo_pre_verdict tenv (some r0) st1).2.node_map :=
                  hacc.2.1
                have A3 : A.2.req2.getD ∅ ⊆ nm := hacc.2.2.2
                split at hsuc
                next hsf => exact Bool.noConfusion hsuc
                next hsf =>
                  rw [if_neg hsf]
                  obtain ⟨V1, V2⟩ := block_req2_verdict_map tenv cfg.bblocks
                    P.1 binx
                    ((List.range cfg.bblocks.length).map
                      (fun i => decide (i / P.1 = binx) &&
                        decide (r0 ∩ cfg.bblocks.getD i ∅ ≠ ∅)))
                    A.2.req2 A.2.st nm A3 (by rw [A1]; exact Q1)
                  set V := block_req2_verdict tenv cfg.bblocks P.1 binx
                    ((List.range cfg.bblocks.length).map
                      (fun i => decide (i / P.1 = binx) &&
                        decide (r0 ∩ cfg.bblocks.getD i ∅ ≠ ∅)))
                    A.2.req2 A.2.st with hV
                  have h1 : r0 ⊆ A.2.st.node_map := by
                    rw [A1]
                    exact hQr
                  cases hv : V.1 with
                  | some b =>
                    refine ⟨V2, ?_⟩
                    intro r hr
                    cases hr
                    exact h1.trans V1
                  | none =>
                    obtain ⟨T1, T2⟩ := block_tail_map tenv cfg.bblocks P.1
                      binx true (BB.getD binx ∅ ∩ nm) A.2.best V.2.2 V.2.1 nm
                      Finset.inter_subset_right
                    refine ⟨T2.trans
                      (Finset.union_subset V2 (Finset.Subset.refl _)), ?_⟩
                    intro r hr
                    cases hr
                    exact (h1.trans V1).trans T1

/-- C1: for every input on which evaluate returns success — whichever of
the eight strategies the dispatch cascade selects — the final node map
satisfies `req_node_bitmap ⊆ selected ⊆ candidates_in`: every selected
bit was set in the input candidate bitmap, and, when the job carries a
required bitmap, every required bit is set in the final map. -/
theorem claim_C1 (c : DispatchIn) (env : SEnv) (tenv : TEnv)
    (sw : List SwitchCfg) (cfg : BlockCfg) (details : JobDetails)
    (ce : ConsecExtras) (w4s tw mn rn mx : ℕ) (nm : Finset ℕ)
    (hsuc : (eval_nodes_run c env tenv sw cfg details ce w4s tw mn rn mx nm).1 = true) :
    (eval_nodes_run c env tenv sw cfg details ce w4s tw mn rn mx nm).2 ⊆ nm ∧
    ∀ r, details.req_node_bitmap = some r →
      r ⊆ (eval_nodes_run c env tenv sw cfg details ce w4s tw mn rn mx nm).2 := by
  simp only [eval_nodes_run] at hsuc ⊢
  by_cases hpre : eval_nodes_precheck nm mn details.req_node_bitmap = false
  · rw [if_pos hpre] at hsuc
    exact Bool.noConfusion hsuc
  · rw [if_neg hpre] at hsuc ⊢
    have hpre' : eval_nodes_precheck nm mn details.req_node_bitmap = true := by
      revert hpre
      cases eval_nodes_precheck nm mn details.req_node_bitmap <;> simp
    have hreq_sub : ∀ r, details.req_node_bitmap = some r → r ⊆ nm := by
      intro r hr
      unfold eval_nodes_precheck at hpre'
      rw [hr] at hpre'
      split at hpre'
      · cases hpre'
      · simpa using hpre'
    cases hdisp : eval_nodes_dispatch c with
    | block =>
      simp only [hdisp] at hsuc ⊢
      exact eval_nodes_block_full_map tenv cfg details mn rn mx nm hsuc
    | spread =>
      simp only [hdisp] at hsuc ⊢
      exact run_with_step_success_map (spread_step env) env details mn rn mx
        nm (fun t st1 _ => spread_tier_map env t (idx_range nm) st1) hpre'
        hsuc
    | busy =>
      simp only [hdisp] at hsuc ⊢
      exact run_with_step_success_map (busy_step env) env details mn rn mx
        nm (fun t st1 suc => busy_tier_map env (idx_range nm) t st1 suc)
        hpre' hsuc
    | lln =>
      simp only [hdisp] at hsuc ⊢
      exact run_with_step_success_map (lln_step env) env details mn rn mx
        nm (fun t st1 _ => lln_tier_loop_map env (idx_range nm) t
          (t.card + 1) st1 (-1)) hpre' hsuc
    | serial =>
      simp only [hdisp] at hsuc ⊢
      exact run_with_step_success_map (serial_step env) env details mn rn mx
        nm (fun t st1 _ => serial_tier_map env t (idx_range nm).reverse st1)
        hpre' hsuc
    | dfly =>
      simp only [hdisp] at hsuc ⊢
      exact eval_nodes_dfly_full_map tenv sw details c.req_switch w4s tw mn
        rn mx nm hsuc
    | topo =>
      simp only [hdisp] at hsuc ⊢
      exact eval_nodes_topo_full_map tenv sw details c.req_switch w4s tw mn
        rn mx nm hsuc
    | consec =>
      simp only [hdisp] at hsuc ⊢
      exact eval_nodes_consec_map tenv details ce c.contiguous mn rn mx nm
        hreq_sub hsuc

/-- C1 witness: a concrete successful consec-path run (two candidate
nodes, node 0 required, one node and one CPU wanted) on which the claim's
hypotheses hold and its conclusion evaluates. -/
theorem claim_C1_witness :
    (eval_nodes_run
      ⟨false, false, false, false, false, false, false, 1, 1, false, false,
        0, false⟩
      ⟨2, fun _ => 1, fun _ => 4, fun _ => 4, fun _ => 4, fun _ => 4,
        fun _ => true, false, 0, true⟩
      ⟨2, fun _ => 1, fun _ => 4, fun _ => true, fun _ _ => 4,
        fun _ _ _ a => a, false, fun _ a => a, true, fun _ => true,
        fun _ => true⟩
      [] ⟨[], 0, ∅, ∅⟩ ⟨1, none, none, 0, 0, some {0}⟩ ⟨none, none, 0⟩
      0 0 1 1 2 {0, 1}).1 = true ∧
    ((eval_nodes_run
      ⟨false, false, false, false, false, false, false, 1, 1, false, false,
        0, false⟩
      ⟨2, fun _ => 1, fun _ => 4, fun _ => 4, fun _ => 4, fun _ => 4,
        fun _ => true, false, 0, true⟩
      ⟨2, fun _ => 1, fun _ => 4, fun _ => true, fun _ _ => 4,
        fun _ _ _ a => a, false, fun _ a => a, true, fun _ => true,
        fun _ => true⟩
      [] ⟨[], 0, ∅, ∅⟩ ⟨1, none, none, 0, 0, some {0}⟩ ⟨none, none, 0⟩
      0 0 1 1 2 {0, 1}).2 ⊆ {0, 1} ∧
    ∀ r, (⟨1, none, none, 0, 0, some {0}⟩ : JobDetails).req_node_bitmap =
        some r →
      r ⊆ (eval_nodes_run
        ⟨false, false, false, false, false, false, false, 1, 1, false,
          false, 0, false⟩
        ⟨2, fun _ => 1, fun _ => 4, fun _ => 4, fun _ => 4, fun _ => 4,
          fun _ => true, false, 0, true⟩
        ⟨2, fun _ => 1, fun _ => 4, fun _ => true, fun _ _ => 4,
          fun _ _ _ a => a, false, fun _ a => a, true, fun _ => true,
          fun _ => true⟩
        [] ⟨[], 0, ∅, ∅⟩ ⟨1, none, none, 0, 0, some {0}⟩ ⟨none, none, 0⟩
        0 0 1 1 2 {0, 1}).2) :=
  ⟨by decide,
    claim_C1
      ⟨false, false, false, false, false, false, false, 1, 1, false, false,
        0, false⟩
      ⟨2, fun _ => 1, fun _ => 4, fun _ => 4, fun _ => 4, fun _ => 4,
        fun _ => true, false, 0, true⟩
      ⟨2, fun _ => 1, fun _ => 4, fun _ => true, fun _ _ => 4,
        fun _ _ _ a => a, false, fun _ a => a, true, fun _ => true,
        fun _ => true⟩
      [] ⟨[], 0, ∅, ∅⟩ ⟨1, none, none, 0, 0, some {0}⟩ ⟨none, none, 0⟩
      0 0 1 1 2 {0, 1} (by decide)⟩

end EvalNodes
